import Mathlib

/-!
# Travelling Ethiopia — verification of the search-algorithm core

Shallow embedding of the repository's five components (unweighted graph with
BFS/DFS, weighted graph with UCS and greedy multi-goal UCS, A* search, and
minimax over an explicit game tree), together with proofs of the specified
properties.

Python dictionaries are modelled as association lists preserving insertion
order; Python floats (used only for edge costs and heuristic values) are
modelled as rationals; the `heapq` priority queue is modelled as a list from
which the lexicographically least `(cost, counter)` entry is extracted.
The search loops carry an explicit fuel argument; the fuel bound used by the
top-level entry points is proved sufficient under the non-negative-cost
hypotheses of the claims.
-/

namespace TravelEthiopia

/-! ## Association lists (model of Python `dict`, insertion ordered) -/

/-- Lookup of a key in an association list (first match), as `dict.get`. -/
def look {β : Type} : List (String × β) → String → Option β
  | [], _ => none
  | (k, v) :: rest, key => if key = k then some v else look rest key

/-- Replace the value stored at the first occurrence of a key
(model of `d[k] = f(d[k])` for a present key). -/
def updK {β : Type} : List (String × β) → String → (β → β) → List (String × β)
  | [], _, _ => []
  | (k, v) :: rest, key, f =>
    if key = k then (k, f v) :: rest else (k, v) :: updK rest key f

theorem look_updK_self {β : Type} (l : List (String × β)) (k : String) (f : β → β) :
    look (updK l k f) k = (look l k).map f := by
  induction l with
  | nil => simp [look, updK]
  | cons hd tl ih =>
    obtain ⟨k', v⟩ := hd
    by_cases h : k = k' <;> simp [look, updK, h, ih]

theorem look_updK_ne {β : Type} (l : List (String × β)) (k k' : String) (f : β → β)
    (h : k' ≠ k) : look (updK l k f) k' = look l k' := by
  induction l with
  | nil => simp [look, updK]
  | cons hd tl ih =>
    obtain ⟨k₀, v⟩ := hd
    by_cases h1 : k = k₀
    · subst h1
      simp [look, updK, h]
    · by_cases h2 : k' = k₀ <;> simp [look, updK, h1, h2, ih]

theorem look_append_right {β : Type} (l : List (String × β)) (k k' : String) (v : β)
    (h : look l k' = none) :
    look (l ++ [(k, v)]) k' = if k' = k then some v else none := by
  induction l with
  | nil => simp [look]
  | cons hd tl ih =>
    obtain ⟨k₀, v₀⟩ := hd
    by_cases h2 : k' = k₀
    · simp [look, h2] at h
    · simp [look, h2] at h ⊢
      exact ih h

/-! ## The game tree and minimax (src/minimax.py) -/

/-- `PlayerType` from minimax.py. -/
inductive Player where
  | MAX : Player
  | MIN : Player
deriving DecidableEq, Repr

/-- `GameNode` from minimax.py: a name, the player to move, an optional
utility (the node is terminal iff the utility is present), and an ordered
list of children. -/
inductive GameNode where
  | mk : String → Player → Option ℤ → List GameNode → GameNode
deriving Repr

def GameNode.name : GameNode → String
  | .mk n _ _ _ => n

def GameNode.player : GameNode → Player
  | .mk _ p _ _ => p

def GameNode.utility : GameNode → Option ℤ
  | .mk _ _ u _ => u

def GameNode.children : GameNode → List GameNode
  | .mk _ _ _ cs => cs

/-- The value domain of minimax: integers extended with `-∞` (the initial
`best_value` of a MAX node, Python's `float('-inf')`) and `+∞`
(Python's `float('inf')`). -/
abbrev MMValue : Type := WithBot (WithTop ℤ)

/-- Embedding of an integer utility into the minimax value domain. -/
def utilVal (z : ℤ) : MMValue := ((z : WithTop ℤ) : MMValue)

/-- Python's `float('inf')` inside the minimax value domain. -/
def posInf : MMValue := ((⊤ : WithTop ℤ) : MMValue)

theorem sizeOf_lt_of_mem_children {c : GameNode} {n : String} {p : Player}
    {u : Option ℤ} {cs : List GameNode} (h : c ∈ cs) :
    sizeOf c < sizeOf (GameNode.mk n p u cs) := by
  have := List.sizeOf_lt_of_mem h
  simp only [GameNode.mk.sizeOf_spec]
  omega

/-- One accumulation step of the MAX branch of `_minimax`: a candidate
replaces the current best only under the strict comparison `value > best_value`. -/
def pickMax (best r : MMValue × List String) : MMValue × List String :=
  if best.1 < r.1 then r else best

/-- One accumulation step of the MIN branch of `_minimax`: strict `<`. -/
def pickMin (best r : MMValue × List String) : MMValue × List String :=
  if r.1 < best.1 then r else best

/-- `MiniMax._minimax` from minimax.py: recursive backward induction.
`path` is the list of node names on the way to (and excluding) `node`;
the returned pair is `(best_value, best_path)`. At a terminal node the
utility is returned; at a MAX (resp. MIN) node the children are folded in
declared order, a later child replacing the current best only under the
strict comparison `>` (resp. `<`), starting from `-∞` (resp. `+∞`) with the
node's own path. -/
def minimaxGo (node : GameNode) (path : List String) : MMValue × List String :=
  match node with
  | .mk n p u cs =>
    let cur := path ++ [n]
    match u with
    | some z => (utilVal z, cur)
    | none =>
      match p with
      | .MAX =>
        cs.attach.foldl
          (fun best c => pickMax best (minimaxGo c.1 cur))
          ((⊥ : MMValue), cur)
      | .MIN =>
        cs.attach.foldl
          (fun best c => pickMin best (minimaxGo c.1 cur))
          (posInf, cur)
termination_by node
decreasing_by
  all_goals exact sizeOf_lt_of_mem_children c.2

/-- `MiniMax.search` from minimax.py (instrumentation omitted): runs
`_minimax(root, [], …)` and returns `(best_value, best_path)`. -/
def minimaxSearch (root : GameNode) : MMValue × List String :=
  minimaxGo root []

/-- The backward-induction value of a game tree, written from the spec's
description: a terminal node has its utility, a MAX node the maximum over
its children's values, a MIN node the minimum (with `-∞` / `+∞` for an
empty list of children). -/
def biValue (node : GameNode) : MMValue :=
  match node with
  | .mk _ p u cs =>
    match u with
    | some z => utilVal z
    | none =>
      match p with
      | .MAX => (cs.attach.map (fun c => biValue c.1)).foldr max (⊥ : MMValue)
      | .MIN => (cs.attach.map (fun c => biValue c.1)).foldr min posInf
termination_by node
decreasing_by
  all_goals exact sizeOf_lt_of_mem_children c.2

theorem foldl_attach_pick (cs : List GameNode) (g : GameNode → MMValue × List String)
    (pick : MMValue × List String → MMValue × List String → MMValue × List String)
    (init : MMValue × List String) :
    cs.attach.foldl (fun best c => pick best (g c.1)) init = (cs.map g).foldl pick init := by
  conv_rhs => rw [← List.attach_map_subtype_val cs]
  rw [List.map_map, List.foldl_map]
  rfl

theorem map_attach_eq (cs : List GameNode) (g : GameNode → MMValue) :
    cs.attach.map (fun c => g c.1) = cs.map g := by
  conv_rhs => rw [← List.attach_map_subtype_val cs]
  rw [List.map_map]
  rfl

theorem minimaxGo_terminal (n : String) (pl : Player) (z : ℤ) (cs : List GameNode)
    (path : List String) :
    minimaxGo (.mk n pl (some z) cs) path = (utilVal z, path ++ [n]) := by
  rw [minimaxGo]

theorem minimaxGo_MAX (n : String) (cs : List GameNode) (path : List String) :
    minimaxGo (.mk n .MAX none cs) path
      = (cs.map (fun c => minimaxGo c (path ++ [n]))).foldl pickMax
          ((⊥ : MMValue), path ++ [n]) := by
  rw [minimaxGo]
  exact foldl_attach_pick cs (fun c => minimaxGo c (path ++ [n])) pickMax _

theorem minimaxGo_MIN (n : String) (cs : List GameNode) (path : List String) :
    minimaxGo (.mk n .MIN none cs) path
      = (cs.map (fun c => minimaxGo c (path ++ [n]))).foldl pickMin
          (posInf, path ++ [n]) := by
  rw [minimaxGo]
  exact foldl_attach_pick cs (fun c => minimaxGo c (path ++ [n])) pickMin _

theorem biValue_terminal (n : String) (pl : Player) (z : ℤ) (cs : List GameNode) :
    biValue (.mk n pl (some z) cs) = utilVal z := by
  rw [biValue]

theorem biValue_MAX (n : String) (cs : List GameNode) :
    biValue (.mk n .MAX none cs) = (cs.map biValue).foldr max (⊥ : MMValue) := by
  rw [biValue, map_attach_eq]

theorem biValue_MIN (n : String) (cs : List GameNode) :
    biValue (.mk n .MIN none cs) = (cs.map biValue).foldr min posInf := by
  rw [biValue, map_attach_eq]

theorem pickMax_of_lt {b r : MMValue × List String} (h : b.1 < r.1) : pickMax b r = r := by
  unfold pickMax
  rw [if_pos h]

theorem pickMin_of_lt {b r : MMValue × List String} (h : r.1 < b.1) : pickMin b r = r := by
  unfold pickMin
  rw [if_pos h]

theorem pickMax_fst (b r : MMValue × List String) : (pickMax b r).1 = max b.1 r.1 := by
  unfold pickMax
  rcases le_or_lt r.1 b.1 with h | h
  · rw [if_neg (not_lt.mpr h), max_eq_left h]
  · rw [if_pos h, max_eq_right h.le]

theorem pickMin_fst (b r : MMValue × List String) : (pickMin b r).1 = min b.1 r.1 := by
  unfold pickMin
  rcases le_or_lt b.1 r.1 with h | h
  · rw [if_neg (not_lt.mpr h), min_eq_left h]
  · rw [if_pos h, min_eq_right h.le]

theorem foldr_max_swap (l : List MMValue) (a c : MMValue) :
    l.foldr max (max a c) = max c (l.foldr max a) := by
  induction l with
  | nil => exact max_comm a c
  | cons x l ih => simp only [List.foldr_cons, ih, max_left_comm]

theorem foldr_min_swap (l : List MMValue) (a c : MMValue) :
    l.foldr min (min a c) = min c (l.foldr min a) := by
  induction l with
  | nil => exact min_comm a c
  | cons x l ih => simp only [List.foldr_cons, ih, min_left_comm]

theorem foldl_pickMax_fst (rs : List (MMValue × List String)) :
    ∀ b, (rs.foldl pickMax b).1 = (rs.map Prod.fst).foldr max b.1 := by
  induction rs with
  | nil => intro b; rfl
  | cons r rs ih =>
    intro b
    rw [List.foldl_cons, ih, List.map_cons, List.foldr_cons, pickMax_fst, foldr_max_swap]

theorem foldl_pickMin_fst (rs : List (MMValue × List String)) :
    ∀ b, (rs.foldl pickMin b).1 = (rs.map Prod.fst).foldr min b.1 := by
  induction rs with
  | nil => intro b; rfl
  | cons r rs ih =>
    intro b
    rw [List.foldl_cons, ih, List.map_cons, List.foldr_cons, pickMin_fst, foldr_min_swap]

theorem foldl_pickMax_stay (rs : List (MMValue × List String)) :
    ∀ b, (∀ r ∈ rs, r.1 ≤ b.1) → rs.foldl pickMax b = b := by
  induction rs with
  | nil => intro b _; rfl
  | cons r rs ih =>
    intro b h
    rw [List.foldl_cons]
    have hr : pickMax b r = b := by
      unfold pickMax
      rw [if_neg (not_lt.mpr (h r (List.mem_cons_self r rs)))]
    rw [hr]
    exact ih b fun x hx => h x (List.mem_cons_of_mem r hx)

theorem foldl_pickMin_stay (rs : List (MMValue × List String)) :
    ∀ b, (∀ r ∈ rs, b.1 ≤ r.1) → rs.foldl pickMin b = b := by
  induction rs with
  | nil => intro b _; rfl
  | cons r rs ih =>
    intro b h
    rw [List.foldl_cons]
    have hr : pickMin b r = b := by
      unfold pickMin
      rw [if_neg (not_lt.mpr (h r (List.mem_cons_self r rs)))]
    rw [hr]
    exact ih b fun x hx => h x (List.mem_cons_of_mem r hx)

theorem foldr_max_lt (l : List MMValue) (v : MMValue) :
    ∀ a, (∀ x ∈ l, x < v) → a < v → l.foldr max a < v := by
  induction l with
  | nil => intro a _ ha; exact ha
  | cons x l ih =>
    intro a h ha
    rw [List.foldr_cons]
    exact max_lt (h x (List.mem_cons_self x l))
      (ih a (fun y hy => h y (List.mem_cons_of_mem x hy)) ha)

theorem foldr_lt_min (l : List MMValue) (v : MMValue) :
    ∀ a, (∀ x ∈ l, v < x) → v < a → v < l.foldr min a := by
  induction l with
  | nil => intro a _ ha; exact ha
  | cons x l ih =>
    intro a h ha
    rw [List.foldr_cons]
    exact lt_min (h x (List.mem_cons_self x l))
      (ih a (fun y hy => h y (List.mem_cons_of_mem x hy)) ha)

/-- The fold keeps the first entry realizing the strict maximum: entries
before it are strictly below, entries after it are not above. -/
theorem foldl_pickMax_first (rs₁ rs₂ : List (MMValue × List String))
    (r b : MMValue × List String)
    (h1 : ∀ x ∈ rs₁, x.1 < r.1) (hb : b.1 < r.1) (h2 : ∀ x ∈ rs₂, x.1 ≤ r.1) :
    (rs₁ ++ r :: rs₂).foldl pickMax b = r := by
  rw [List.foldl_append, List.foldl_cons]
  have hlt : (rs₁.foldl pickMax b).1 < r.1 := by
    rw [foldl_pickMax_fst]
    exact foldr_max_lt _ _ _ (fun x hx => by
      obtain ⟨y, hy, rfl⟩ := List.mem_map.mp hx
      exact h1 y hy) hb
  rw [pickMax_of_lt hlt]
  exact foldl_pickMax_stay rs₂ r h2

theorem foldl_pickMin_first (rs₁ rs₂ : List (MMValue × List String))
    (r b : MMValue × List String)
    (h1 : ∀ x ∈ rs₁, r.1 < x.1) (hb : r.1 < b.1) (h2 : ∀ x ∈ rs₂, r.1 ≤ x.1) :
    (rs₁ ++ r :: rs₂).foldl pickMin b = r := by
  rw [List.foldl_append, List.foldl_cons]
  have hlt : r.1 < (rs₁.foldl pickMin b).1 := by
    rw [foldl_pickMin_fst]
    exact foldr_lt_min _ _ _ (fun x hx => by
      obtain ⟨y, hy, rfl⟩ := List.mem_map.mp hx
      exact h1 y hy) hb
  rw [pickMin_of_lt hlt]
  exact foldl_pickMin_stay rs₂ r h2

/-- The value component of `_minimax` is the backward-induction value,
for every game tree and every path prefix. -/
theorem minimaxGo_fst (t : GameNode) (p : List String) :
    (minimaxGo t p).1 = biValue t := by
  suffices H : ∀ (N : ℕ) (t : GameNode), sizeOf t ≤ N →
      ∀ p, (minimaxGo t p).1 = biValue t from H (sizeOf t) t le_rfl p
  intro N
  induction N with
  | zero =>
    intro t ht
    obtain ⟨n, pl, u, cs⟩ := t
    simp [GameNode.mk.sizeOf_spec] at ht
  | succ N ih =>
    intro t ht p
    obtain ⟨n, pl, u, cs⟩ := t
    have hcs : ∀ c ∈ cs, sizeOf c ≤ N := by
      intro c hc
      have := sizeOf_lt_of_mem_children (n := n) (p := pl) (u := u) hc
      omega
    match u with
    | some z => rw [minimaxGo_terminal, biValue_terminal]
    | none =>
      match pl with
      | .MAX =>
        rw [minimaxGo_MAX, biValue_MAX, foldl_pickMax_fst, List.map_map]
        congr 1
        apply List.map_congr_left
        intro c hc
        exact ih c (hcs c hc) (p ++ [n])
      | .MIN =>
        rw [minimaxGo_MIN, biValue_MIN, foldl_pickMin_fst, List.map_map]
        congr 1
        apply List.map_congr_left
        intro c hc
        exact ih c (hcs c hc) (p ++ [n])

theorem pickMax_of_not_lt {b r : MMValue × List String} (h : ¬ b.1 < r.1) :
    pickMax b r = b := by
  unfold pickMax
  rw [if_neg h]

theorem pickMin_of_not_lt {b r : MMValue × List String} (h : ¬ r.1 < b.1) :
    pickMin b r = b := by
  unfold pickMin
  rw [if_neg h]

theorem bot_lt_utilVal (z : ℤ) : (⊥ : MMValue) < utilVal z := by
  simp [utilVal]

theorem utilVal_lt_utilVal {a b : ℤ} : utilVal a < utilVal b ↔ a < b := by
  simp [utilVal]

theorem utilVal_lt_posInf (z : ℤ) : utilVal z < posInf := by
  simp only [utilVal, posInf, WithBot.coe_lt_coe]
  exact WithTop.coe_lt_top z

theorem bot_lt_posInf : (⊥ : MMValue) < posInf := by
  simp [posInf]

/-- Terminal node, utility 3 (the `child_with_3` of the spec's test tree). -/
def mmLeaf3 : GameNode := .mk "A" .MAX (some 3) []

/-- Terminal node, utility 7 (the `child_with_7` of the spec's test tree). -/
def mmLeaf7 : GameNode := .mk "B" .MAX (some 7) []

/-- The spec's test tree: a single MAX root with terminal children 3 and 7. -/
def mmRoot37 : GameNode := .mk "root" .MAX none [mmLeaf3, mmLeaf7]

/-- A childless non-terminal MIN node (no utility, no children). -/
def mmStuck : GameNode := .mk "stuck" .MIN none []

/-- Terminal node, utility 5. -/
def mmLeaf5 : GameNode := .mk "L5" .MAX (some 5) []

/-- A MAX root whose first child is a childless non-terminal MIN node. -/
def mmRootStuck : GameNode := .mk "r" .MAX none [mmStuck, mmLeaf5]

/-- C4: `MiniMax.search` returns the backward-induction value: the utility at
a terminal node, the maximum (resp. minimum) of the children's values at a
MAX (resp. MIN) node, children evaluated in declared order with a later child
replacing the current best only under strict comparison, so the first child
achieving the optimum supplies the returned path; on the tree with a single
MAX root and terminal children 3 and 7 it returns value 7 and the path
`[root, child_with_7]`. -/
theorem minimax_backward_induction :
    (∀ (t : GameNode) (p : List String), (minimaxGo t p).1 = biValue t)
    ∧ (∀ (n : String) (cs₁ cs₂ : List GameNode) (c : GameNode) (p : List String),
        (∀ c' ∈ cs₁, biValue c' < biValue c) →
        (∀ c' ∈ cs₂, biValue c' ≤ biValue c) →
        (⊥ : MMValue) < biValue c →
        minimaxGo (.mk n .MAX none (cs₁ ++ c :: cs₂)) p = minimaxGo c (p ++ [n]))
    ∧ (∀ (n : String) (cs₁ cs₂ : List GameNode) (c : GameNode) (p : List String),
        (∀ c' ∈ cs₁, biValue c < biValue c') →
        (∀ c' ∈ cs₂, biValue c ≤ biValue c') →
        biValue c < posInf →
        minimaxGo (.mk n .MIN none (cs₁ ++ c :: cs₂)) p = minimaxGo c (p ++ [n]))
    ∧ minimaxSearch mmRoot37 = (utilVal 7, ["root", "B"]) := by
  refine ⟨minimaxGo_fst, ?_, ?_, ?_⟩
  · intro n cs₁ cs₂ c p h1 h2 hbot
    rw [minimaxGo_MAX, List.map_append, List.map_cons]
    apply foldl_pickMax_first
    · intro x hx
      obtain ⟨y, hy, rfl⟩ := List.mem_map.mp hx
      rw [minimaxGo_fst, minimaxGo_fst]
      exact h1 y hy
    · show (⊥ : MMValue) < (minimaxGo c (p ++ [n])).1
      rw [minimaxGo_fst]
      exact hbot
    · intro x hx
      obtain ⟨y, hy, rfl⟩ := List.mem_map.mp hx
      rw [minimaxGo_fst, minimaxGo_fst]
      exact h2 y hy
  · intro n cs₁ cs₂ c p h1 h2 htop
    rw [minimaxGo_MIN, List.map_append, List.map_cons]
    apply foldl_pickMin_first
    · intro x hx
      obtain ⟨y, hy, rfl⟩ := List.mem_map.mp hx
      rw [minimaxGo_fst, minimaxGo_fst]
      exact h1 y hy
    · show (minimaxGo c (p ++ [n])).1 < posInf
      rw [minimaxGo_fst]
      exact htop
    · intro x hx
      obtain ⟨y, hy, rfl⟩ := List.mem_map.mp hx
      rw [minimaxGo_fst, minimaxGo_fst]
      exact h2 y hy
  · unfold minimaxSearch mmRoot37
    rw [minimaxGo_MAX]
    unfold mmLeaf3 mmLeaf7
    simp only [List.map_cons, List.map_nil, minimaxGo_terminal, List.nil_append,
      List.singleton_append, List.foldl_cons, List.foldl_nil]
    have h1 : pickMax ((⊥ : MMValue), ["root"]) (utilVal 3, ["root", "A"])
        = (utilVal 3, ["root", "A"]) := pickMax_of_lt (bot_lt_utilVal 3)
    rw [h1]
    exact pickMax_of_lt (utilVal_lt_utilVal.mpr (by norm_num))

/-- C4 witness: the theorem applied at a concrete tie-breaking instance
(children with values 3, 7, 7: the first child of value 7 wins) and at the
spec's 3/7 tree. -/
theorem minimax_backward_induction_witness :
    (minimaxGo mmRoot37 []).1 = biValue mmRoot37
    ∧ minimaxGo (.mk "t" .MAX none ([mmLeaf3] ++ mmLeaf7 :: [.mk "B2" .MAX (some 7) []])) []
        = minimaxGo mmLeaf7 ["t"]
    ∧ minimaxGo (.mk "t2" .MIN none ([mmLeaf7] ++ mmLeaf3 :: [.mk "A2" .MAX (some 3) []])) []
        = minimaxGo mmLeaf3 ["t2"]
    ∧ minimaxSearch mmRoot37 = (utilVal 7, ["root", "B"]) := by
  refine ⟨minimax_backward_induction.1 mmRoot37 [], ?_, ?_, minimax_backward_induction.2.2.2⟩
  · refine minimax_backward_induction.2.1 "t" [mmLeaf3] [.mk "B2" .MAX (some 7) []]
      mmLeaf7 [] ?_ ?_ ?_
    · intro c' hc'
      simp only [List.mem_singleton] at hc'
      subst hc'
      unfold mmLeaf3 mmLeaf7
      rw [biValue_terminal, biValue_terminal]
      exact utilVal_lt_utilVal.mpr (by norm_num)
    · intro c' hc'
      simp only [List.mem_singleton] at hc'
      subst hc'
      unfold mmLeaf7
      rw [biValue_terminal, biValue_terminal]
    · unfold mmLeaf7
      rw [biValue_terminal]
      exact bot_lt_utilVal 7
  · refine minimax_backward_induction.2.2.1 "t2" [mmLeaf7] [.mk "A2" .MAX (some 3) []]
      mmLeaf3 [] ?_ ?_ ?_
    · intro c' hc'
      simp only [List.mem_singleton] at hc'
      subst hc'
      unfold mmLeaf3 mmLeaf7
      rw [biValue_terminal, biValue_terminal]
      exact utilVal_lt_utilVal.mpr (by norm_num)
    · intro c' hc'
      simp only [List.mem_singleton] at hc'
      subst hc'
      unfold mmLeaf3
      rw [biValue_terminal, biValue_terminal]
    · unfold mmLeaf3
      rw [biValue_terminal]
      exact utilVal_lt_posInf 3

/-- C10: a non-terminal node with no children still yields a value: `-∞` for
MAX, `+∞` for MIN, with the best path ending at that node itself; in a
larger tree the returned best path can therefore end at a node carrying no
utility at all (here: value `+∞`, path ending at the utility-less node
`stuck`). -/
theorem minimax_childless_nonterminal :
    (∀ (n : String) (p : List String),
        minimaxGo (.mk n .MAX none []) p = ((⊥ : MMValue), p ++ [n]))
    ∧ (∀ (n : String) (p : List String),
        minimaxGo (.mk n .MIN none []) p = (posInf, p ++ [n]))
    ∧ minimaxSearch mmRootStuck = (posInf, ["r", "stuck"])
    ∧ GameNode.utility mmStuck = none := by
  refine ⟨?_, ?_, ?_, rfl⟩
  · intro n p
    rw [minimaxGo_MAX]
    rfl
  · intro n p
    rw [minimaxGo_MIN]
    rfl
  · unfold minimaxSearch mmRootStuck
    rw [minimaxGo_MAX]
    unfold mmStuck mmLeaf5
    simp only [List.map_cons, List.map_nil, minimaxGo_terminal, minimaxGo_MIN,
      List.nil_append, List.singleton_append, List.foldl_cons, List.foldl_nil]
    have h1 : pickMax ((⊥ : MMValue), ["r"]) (posInf, ["r", "stuck"])
        = (posInf, ["r", "stuck"]) := pickMax_of_lt bot_lt_posInf
    rw [h1]
    exact pickMax_of_not_lt (not_lt.mpr (utilVal_lt_posInf 5).le)

/-! ## The graph model (src/graph.py) -/

/-- `WeightedGraph` from graph.py: the inherited unweighted adjacency list
(`Graph.adjacency_list`) plus the weighted adjacency mapping each city to
its list of `(neighbor, cost)` pairs. Both dictionaries are modelled as
insertion-ordered association lists. -/
structure WeightedGraph where
  adjacency_list : List (String × List String)
  weighted_adjacency : List (String × List (String × ℚ))
deriving Repr, DecidableEq

/-- `Graph.add_node`: add the city with an empty neighbor list if absent. -/
def addNode (g : WeightedGraph) (node : String) : WeightedGraph :=
  if (look g.adjacency_list node).isSome then g
  else { g with adjacency_list := g.adjacency_list ++ [(node, [])] }

/-- `Graph.add_edge`: ensure both endpoints exist, then append each endpoint
to the other's neighbor list unless already present. -/
def addEdge (g : WeightedGraph) (n1 n2 : String) : WeightedGraph :=
  let g1 := addNode (addNode g n1) n2
  let a1 := if n2 ∈ (look g1.adjacency_list n1).getD []
    then g1.adjacency_list
    else updK g1.adjacency_list n1 (fun l => l ++ [n2])
  let a2 := if n1 ∈ (look a1 n2).getD []
    then a1
    else updK a1 n2 (fun l => l ++ [n1])
  { g1 with adjacency_list := a2 }

/-- `if node not in self.weighted_adjacency: self.weighted_adjacency[node] = []`. -/
def extKey (w : List (String × List (String × ℚ))) (k : String) :
    List (String × List (String × ℚ)) :=
  if (look w k).isSome then w else w ++ [(k, [])]

/-- The duplicate-guarded append of `add_weighted_edge`:
`if not any(neighbor == k2 for neighbor, _ in w[k1]): w[k1].append((k2, c))`. -/
def appendEdge (w : List (String × List (String × ℚ))) (k1 k2 : String) (c : ℚ) :
    List (String × List (String × ℚ)) :=
  if ((look w k1).getD []).any (fun p => p.1 == k2) then w
  else updK w k1 (fun l => l ++ [(k2, c)])

/-- `WeightedGraph.add_weighted_edge` from graph.py: first `add_edge`, then
ensure both weighted keys exist, then the two duplicate-guarded appends. -/
def addWeightedEdge (g : WeightedGraph) (n1 n2 : String) (c : ℚ) : WeightedGraph :=
  { addEdge g n1 n2 with
    weighted_adjacency :=
      appendEdge
        (appendEdge (extKey (extKey (addEdge g n1 n2).weighted_adjacency n1) n2) n1 n2 c)
        n2 n1 c }

/-- `Graph.get_neighbors`: the neighbor list, empty for an unknown city. -/
def getNeighbors (g : WeightedGraph) (node : String) : List String :=
  (look g.adjacency_list node).getD []

/-- `WeightedGraph.get_weighted_neighbors`: the `(neighbor, cost)` list,
empty for an unknown city. -/
def getWeightedNeighbors (g : WeightedGraph) (node : String) : List (String × ℚ) :=
  (look g.weighted_adjacency node).getD []

/-- A fresh `WeightedGraph()`. -/
def emptyWG : WeightedGraph := ⟨[], []⟩

/-- A weighted graph built by a finite sequence of `add_weighted_edge` calls. -/
def buildWG (ops : List (String × String × ℚ)) : WeightedGraph :=
  ops.foldl (fun g op => addWeightedEdge g op.1 op.2.1 op.2.2) emptyWG

theorem look_append_of_isSome {β : Type} {l : List (String × β)} {k : String} {v : β}
    (l' : List (String × β)) (h : look l k = some v) : look (l ++ l') k = some v := by
  induction l with
  | nil => simp [look] at h
  | cons hd tl ih =>
    obtain ⟨k₀, v₀⟩ := hd
    by_cases h2 : k = k₀ <;> simp [look, h2] at h ⊢
    · exact h
    · exact ih h

theorem look_append_of_none {β : Type} {l : List (String × β)} {k : String}
    (l' : List (String × β)) (h : look l k = none) : look (l ++ l') k = look l' k := by
  induction l with
  | nil => simp [look]
  | cons hd tl ih =>
    obtain ⟨k₀, v₀⟩ := hd
    by_cases h2 : k = k₀ <;> simp [look, h2] at h ⊢
    exact ih h

theorem getD_look_extKey (w : List (String × List (String × ℚ))) (k a : String) :
    (look (extKey w k) a).getD [] = (look w a).getD [] := by
  unfold extKey
  split
  · rfl
  · rename_i hnone
    rw [Option.not_isSome_iff_eq_none] at hnone
    by_cases ha : a = k
    · subst ha
      rw [look_append_of_none _ hnone]
      simp [look, hnone]
    · cases hl : look w a with
      | none =>
        rw [look_append_of_none _ hl]
        simp [look, ha, hl]
      | some v => rw [look_append_of_isSome _ hl]

theorem look_extKey_isSome_self (w : List (String × List (String × ℚ))) (k : String) :
    (look (extKey w k) k).isSome := by
  unfold extKey
  split
  · assumption
  · rename_i hnone
    rw [Option.not_isSome_iff_eq_none] at hnone
    rw [look_append_of_none _ hnone]
    simp [look]

theorem look_extKey_isSome (w : List (String × List (String × ℚ))) (k a : String)
    (h : (look w a).isSome) : (look (extKey w k) a).isSome := by
  unfold extKey
  split
  · exact h
  · obtain ⟨v, hv⟩ := Option.isSome_iff_exists.mp h
    rw [look_append_of_isSome _ hv]
    rfl

theorem appendEdge_of_present {w : List (String × List (String × ℚ))} {k1 k2 : String}
    (c : ℚ) (h : ∃ c₀, (k2, c₀) ∈ (look w k1).getD []) : appendEdge w k1 k2 c = w := by
  unfold appendEdge
  rw [if_pos]
  obtain ⟨c₀, hc₀⟩ := h
  rw [List.any_eq_true]
  exact ⟨(k2, c₀), hc₀, by simp⟩

theorem appendEdge_look_ne (w : List (String × List (String × ℚ))) (k1 k2 : String)
    (c : ℚ) (a : String) (ha : a ≠ k1) :
    look (appendEdge w k1 k2 c) a = look w a := by
  unfold appendEdge
  split
  · rfl
  · exact look_updK_ne w k1 a _ ha

theorem appendEdge_of_absent {w : List (String × List (String × ℚ))} {k1 k2 : String}
    (c : ℚ) (h : ∀ p ∈ (look w k1).getD [], p.1 ≠ k2) (hs : (look w k1).isSome) :
    look (appendEdge w k1 k2 c) k1 = some ((look w k1).getD [] ++ [(k2, c)]) := by
  unfold appendEdge
  rw [if_neg]
  · obtain ⟨v, hv⟩ := Option.isSome_iff_exists.mp hs
    rw [look_updK_self, hv]
    simp
  · rw [List.any_eq_true]
    rintro ⟨p, hp, hpeq⟩
    exact h p hp (by simpa using hpeq)

/-- Symmetry with matching cost of the weighted adjacency. -/
def symCost (g : WeightedGraph) : Prop :=
  ∀ a b c, (b, c) ∈ getWeightedNeighbors g a ↔ (a, c) ∈ getWeightedNeighbors g b

/-- Each node occurs at most once in every weighted neighbor list. -/
def nbrsNodup (g : WeightedGraph) : Prop :=
  ∀ a, ((getWeightedNeighbors g a).map Prod.fst).Nodup

theorem addNode_weighted (g : WeightedGraph) (n : String) :
    (addNode g n).weighted_adjacency = g.weighted_adjacency := by
  unfold addNode
  split <;> rfl

theorem addEdge_weighted (g : WeightedGraph) (n1 n2 : String) :
    (addEdge g n1 n2).weighted_adjacency = g.weighted_adjacency := by
  unfold addEdge
  rw [addNode_weighted, addNode_weighted]

theorem addWeightedEdge_wadj (g : WeightedGraph) (n1 n2 : String) (c : ℚ) :
    (addWeightedEdge g n1 n2 c).weighted_adjacency
      = appendEdge (appendEdge (extKey (extKey g.weighted_adjacency n1) n2) n1 n2 c)
          n2 n1 c := by
  show appendEdge
      (appendEdge (extKey (extKey (addEdge g n1 n2).weighted_adjacency n1) n2) n1 n2 c)
      n2 n1 c = _
  rw [addEdge_weighted]

/-- Re-adding an edge between a pair that already has one leaves the whole
weighted adjacency unchanged, whatever the new cost. -/
theorem addWeightedEdge_of_present {g : WeightedGraph} {n1 n2 : String} (c : ℚ)
    (hsym : symCost g) (hp : ∃ c₀, (n2, c₀) ∈ getWeightedNeighbors g n1) :
    (addWeightedEdge g n1 n2 c).weighted_adjacency = g.weighted_adjacency := by
  obtain ⟨c₀, hc₀⟩ := hp
  have hrev : (n1, c₀) ∈ getWeightedNeighbors g n2 := (hsym n1 n2 c₀).mp hc₀
  have hs1 : (look g.weighted_adjacency n1).isSome := by
    unfold getWeightedNeighbors at hc₀
    cases hl : look g.weighted_adjacency n1 with
    | none => rw [hl] at hc₀; simp at hc₀
    | some v => rfl
  have hs2 : (look g.weighted_adjacency n2).isSome := by
    unfold getWeightedNeighbors at hrev
    cases hl : look g.weighted_adjacency n2 with
    | none => rw [hl] at hrev; simp at hrev
    | some v => rfl
  rw [addWeightedEdge_wadj]
  have he1 : extKey g.weighted_adjacency n1 = g.weighted_adjacency := by
    unfold extKey
    rw [if_pos hs1]
  have he2 : extKey g.weighted_adjacency n2 = g.weighted_adjacency := by
    unfold extKey
    rw [if_pos hs2]
  rw [he1, he2]
  rw [appendEdge_of_present c ⟨c₀, hc₀⟩, appendEdge_of_present c ⟨c₀, hrev⟩]

/-- Adding a fresh self-loop `(n, n)` appends one entry to `n`'s weighted list. -/
theorem getWN_addWE_self {g : WeightedGraph} {n1 : String} (c : ℚ)
    (ha : ∀ p ∈ getWeightedNeighbors g n1, p.1 ≠ n1) :
    ∀ a, getWeightedNeighbors (addWeightedEdge g n1 n1 c) a
      = if a = n1 then getWeightedNeighbors g n1 ++ [(n1, c)]
        else getWeightedNeighbors g a := by
  intro a
  have f1 : ∀ x, (look (extKey (extKey g.weighted_adjacency n1) n1) x).getD []
      = getWeightedNeighbors g x := by
    intro x
    rw [getD_look_extKey, getD_look_extKey]
    rfl
  have f2 : (look (extKey (extKey g.weighted_adjacency n1) n1) n1).isSome :=
    look_extKey_isSome_self _ n1
  have h3self : look (appendEdge (extKey (extKey g.weighted_adjacency n1) n1) n1 n1 c) n1
      = some (getWeightedNeighbors g n1 ++ [(n1, c)]) := by
    rw [appendEdge_of_absent c (by rw [f1]; exact ha) f2, f1]
  have h3ne : ∀ b, b ≠ n1 →
      look (appendEdge (extKey (extKey g.weighted_adjacency n1) n1) n1 n1 c) b
        = look (extKey (extKey g.weighted_adjacency n1) n1) b :=
    fun b hb => appendEdge_look_ne _ n1 n1 c b hb
  have h4 : appendEdge (appendEdge (extKey (extKey g.weighted_adjacency n1) n1) n1 n1 c)
      n1 n1 c = appendEdge (extKey (extKey g.weighted_adjacency n1) n1) n1 n1 c := by
    apply appendEdge_of_present
    rw [h3self]
    exact ⟨c, by simp⟩
  show (look _ a).getD [] = _
  rw [addWeightedEdge_wadj, h4]
  by_cases haeq : a = n1
  · subst haeq
    rw [h3self, if_pos rfl]
    rfl
  · rw [h3ne a haeq, if_neg haeq]
    exact f1 a

/-- Adding a fresh edge between distinct endpoints appends one entry to each
endpoint's weighted list. -/
theorem getWN_addWE_new {g : WeightedGraph} {n1 n2 : String} (c : ℚ)
    (hne : n1 ≠ n2) (hsym : symCost g)
    (ha : ∀ p ∈ getWeightedNeighbors g n1, p.1 ≠ n2) :
    ∀ a, getWeightedNeighbors (addWeightedEdge g n1 n2 c) a
      = if a = n1 then getWeightedNeighbors g n1 ++ [(n2, c)]
        else if a = n2 then getWeightedNeighbors g n2 ++ [(n1, c)]
        else getWeightedNeighbors g a := by
  intro a
  have f1 : ∀ x, (look (extKey (extKey g.weighted_adjacency n1) n2) x).getD []
      = getWeightedNeighbors g x := by
    intro x
    rw [getD_look_extKey, getD_look_extKey]
    rfl
  have f2 : (look (extKey (extKey g.weighted_adjacency n1) n2) n1).isSome :=
    look_extKey_isSome _ n2 n1 (look_extKey_isSome_self _ n1)
  have f3 : (look (extKey (extKey g.weighted_adjacency n1) n2) n2).isSome :=
    look_extKey_isSome_self _ n2
  have h3self : look (appendEdge (extKey (extKey g.weighted_adjacency n1) n2) n1 n2 c) n1
      = some (getWeightedNeighbors g n1 ++ [(n2, c)]) := by
    rw [appendEdge_of_absent c (by rw [f1]; exact ha) f2, f1]
  have h3ne : ∀ b, b ≠ n1 →
      look (appendEdge (extKey (extKey g.weighted_adjacency n1) n2) n1 n2 c) b
        = look (extKey (extKey g.weighted_adjacency n1) n2) b :=
    fun b hb => appendEdge_look_ne _ n1 n2 c b hb
  have habs2 : ∀ p ∈ (look (appendEdge (extKey (extKey g.weighted_adjacency n1) n2)
      n1 n2 c) n2).getD [], p.1 ≠ n1 := by
    rw [h3ne n2 (Ne.symm hne), f1]
    rintro ⟨b, cb⟩ hp hb
    subst hb
    exact ha (n2, cb) ((hsym b n2 cb).mpr hp) rfl
  have h4s : (look (appendEdge (extKey (extKey g.weighted_adjacency n1) n2) n1 n2 c)
      n2).isSome := by
    rw [h3ne n2 (Ne.symm hne)]
    exact f3
  have h4self : look (appendEdge (appendEdge (extKey (extKey g.weighted_adjacency n1) n2)
      n1 n2 c) n2 n1 c) n2
      = some (getWeightedNeighbors g n2 ++ [(n1, c)]) := by
    rw [appendEdge_of_absent c habs2 h4s, h3ne n2 (Ne.symm hne), f1]
  have h4ne : ∀ b, b ≠ n2 →
      look (appendEdge (appendEdge (extKey (extKey g.weighted_adjacency n1) n2) n1 n2 c)
        n2 n1 c) b
      = look (appendEdge (extKey (extKey g.weighted_adjacency n1) n2) n1 n2 c) b :=
    fun b hb => appendEdge_look_ne _ n2 n1 c b hb
  show (look _ a).getD [] = _
  rw [addWeightedEdge_wadj]
  by_cases ha1 : a = n1
  · subst ha1
    rw [h4ne a hne, h3self, if_pos rfl]
    rfl
  · by_cases ha2 : a = n2
    · subst ha2
      rw [h4self, if_neg ha1, if_pos rfl]
      rfl
    · rw [h4ne a ha2, h3ne a ha1, if_neg ha1, if_neg ha2]
      exact f1 a

/-- Unified description of a fresh `add_weighted_edge`: one entry is appended
at `n1`, and one at `n2` when the endpoints differ. -/
theorem getWN_addWE_fresh {g : WeightedGraph} {n1 n2 : String} (c : ℚ)
    (hsym : symCost g)
    (ha : ∀ p ∈ getWeightedNeighbors g n1, p.1 ≠ n2) :
    ∀ a, getWeightedNeighbors (addWeightedEdge g n1 n2 c) a
      = getWeightedNeighbors g a
        ++ (if a = n1 then [(n2, c)] else [])
        ++ (if a = n2 ∧ a ≠ n1 then [(n1, c)] else []) := by
  intro a
  by_cases hne : n1 = n2
  · subst hne
    rw [getWN_addWE_self c ha a]
    by_cases ha1 : a = n1
    · subst ha1
      rw [if_pos rfl, if_pos rfl, if_neg (by rintro ⟨h1, h2⟩; exact h2 rfl)]
      simp
    · rw [if_neg ha1, if_neg ha1, if_neg (by rintro ⟨h1, h2⟩; exact ha1 h1)]
      simp
  · rw [getWN_addWE_new c hne hsym ha a]
    by_cases ha1 : a = n1
    · subst ha1
      rw [if_pos rfl, if_pos rfl, if_neg (by rintro ⟨h1, h2⟩; exact h2 rfl)]
      simp
    · by_cases ha2 : a = n2
      · subst ha2
        rw [if_neg ha1, if_pos rfl, if_neg ha1, if_pos ⟨rfl, ha1⟩]
        simp
      · rw [if_neg ha1, if_neg ha2, if_neg ha1, if_neg (by rintro ⟨h1, h2⟩; exact ha2 h1)]
        simp

theorem mem_getWN_addWE_fresh {g : WeightedGraph} {n1 n2 : String} (c : ℚ)
    (hsym : symCost g)
    (ha : ∀ p ∈ getWeightedNeighbors g n1, p.1 ≠ n2)
    (a : String) (p : String × ℚ) :
    p ∈ getWeightedNeighbors (addWeightedEdge g n1 n2 c) a
      ↔ p ∈ getWeightedNeighbors g a
        ∨ (a = n1 ∧ p = (n2, c))
        ∨ (a = n2 ∧ a ≠ n1 ∧ p = (n1, c)) := by
  rw [getWN_addWE_fresh c hsym ha a]
  simp only [List.mem_append]
  constructor
  · rintro ((h | h) | h)
    · exact Or.inl h
    · split at h
      · rename_i h1
        simp only [List.mem_singleton] at h
        exact Or.inr (Or.inl ⟨h1, h⟩)
      · simp at h
    · split at h
      · rename_i h1
        simp only [List.mem_singleton] at h
        exact Or.inr (Or.inr ⟨h1.1, h1.2, h⟩)
      · simp at h
  · rintro (h | ⟨h1, h2⟩ | ⟨h1, h2, h3⟩)
    · exact Or.inl (Or.inl h)
    · subst h1 h2
      exact Or.inl (Or.inr (by rw [if_pos rfl]; simp))
    · subst h1 h3
      exact Or.inr (by rw [if_pos ⟨rfl, h2⟩]; simp)

theorem symCost_addWE_dir {g : WeightedGraph} {n1 n2 : String} (c : ℚ)
    (hsym : symCost g)
    (ha : ∀ p ∈ getWeightedNeighbors g n1, p.1 ≠ n2) :
    ∀ a b c', (b, c') ∈ getWeightedNeighbors (addWeightedEdge g n1 n2 c) a →
      (a, c') ∈ getWeightedNeighbors (addWeightedEdge g n1 n2 c) b := by
  intro a b c' h
  rw [mem_getWN_addWE_fresh c hsym ha] at h ⊢
  rcases h with h | ⟨h1, h2⟩ | ⟨h1, h2, h3⟩
  · exact Or.inl ((hsym a b c').mp h)
  · rw [Prod.mk.injEq] at h2
    refine Or.inr ?_
    by_cases hb1 : b = n1
    · refine Or.inl ⟨hb1, ?_⟩
      rw [Prod.mk.injEq]
      exact ⟨h1.trans (hb1.symm.trans h2.1), h2.2⟩
    · refine Or.inr ⟨h2.1, hb1, ?_⟩
      rw [Prod.mk.injEq]
      exact ⟨h1, h2.2⟩
  · rw [Prod.mk.injEq] at h3
    refine Or.inr (Or.inl ⟨h3.1, ?_⟩)
    rw [Prod.mk.injEq]
    exact ⟨h1, h3.2⟩

/-- `symCost` and `nbrsNodup` are preserved by `add_weighted_edge`. -/
theorem WGInv_addWE {g : WeightedGraph} (n1 n2 : String) (c : ℚ)
    (hsym : symCost g) (hnd : nbrsNodup g) :
    symCost (addWeightedEdge g n1 n2 c) ∧ nbrsNodup (addWeightedEdge g n1 n2 c) := by
  by_cases hp : ∃ c₀, (n2, c₀) ∈ getWeightedNeighbors g n1
  · have heq : ∀ a, getWeightedNeighbors (addWeightedEdge g n1 n2 c) a
        = getWeightedNeighbors g a := by
      intro a
      show (look _ a).getD [] = _
      rw [show (addWeightedEdge g n1 n2 c).weighted_adjacency = g.weighted_adjacency from
        addWeightedEdge_of_present c hsym hp]
      rfl
    constructor
    · intro a b c'
      rw [heq a, heq b]
      exact hsym a b c'
    · intro a
      rw [heq a]
      exact hnd a
  · have ha : ∀ p ∈ getWeightedNeighbors g n1, p.1 ≠ n2 := by
      rintro ⟨b, cb⟩ hp' hb
      subst hb
      exact hp ⟨cb, hp'⟩
    have ha2 : ∀ p ∈ getWeightedNeighbors g n2, p.1 ≠ n1 := by
      rintro ⟨b, cb⟩ hp' hb
      subst hb
      exact hp ⟨cb, (hsym b n2 cb).mpr hp'⟩
    constructor
    · intro a b c'
      exact ⟨symCost_addWE_dir c hsym ha a b c', symCost_addWE_dir c hsym ha b a c'⟩
    · intro a
      rw [getWN_addWE_fresh c hsym ha a]
      by_cases ha1 : a = n1
      · rw [if_pos ha1, if_neg (by rintro ⟨h1, h2⟩; exact h2 ha1), List.append_nil,
          List.map_append]
        subst ha1
        rw [List.nodup_append]
        refine ⟨hnd a, List.nodup_singleton _, ?_⟩
        intro x hx
        obtain ⟨p, hp', rfl⟩ := List.mem_map.mp hx
        simp only [List.map_cons, List.map_nil, List.mem_singleton]
        exact fun hmem => ha p hp' hmem
      · by_cases ha2' : a = n2
        · subst ha2'
          rw [if_neg ha1, if_pos ⟨rfl, ha1⟩, List.append_nil, List.map_append]
          rw [List.nodup_append]
          refine ⟨hnd a, List.nodup_singleton _, ?_⟩
          intro x hx
          obtain ⟨p, hp', rfl⟩ := List.mem_map.mp hx
          simp only [List.map_cons, List.map_nil, List.mem_singleton]
          exact fun hmem => ha2 p hp' hmem
        · rw [if_neg ha1, if_neg (by rintro ⟨h1, h2⟩; exact ha2' h1), List.append_nil,
            List.append_nil]
          exact hnd a

/-- Both invariants hold of every graph built by `add_weighted_edge` calls. -/
theorem WGInv_buildWG (ops : List (String × String × ℚ)) :
    symCost (buildWG ops) ∧ nbrsNodup (buildWG ops) := by
  suffices H : ∀ (l : List (String × String × ℚ)) (g : WeightedGraph),
      symCost g → nbrsNodup g →
      symCost (l.foldl (fun g op => addWeightedEdge g op.1 op.2.1 op.2.2) g)
      ∧ nbrsNodup (l.foldl (fun g op => addWeightedEdge g op.1 op.2.1 op.2.2) g) by
    refine H ops emptyWG ?_ ?_
    · intro a b c
      show (b, c) ∈ (look [] a).getD [] ↔ (a, c) ∈ (look [] b).getD []
      simp [look]
    · intro a
      show (((look [] a).getD []).map Prod.fst).Nodup
      simp [look]
  intro l
  induction l with
  | nil => intro g h1 h2; exact ⟨h1, h2⟩
  | cons op rest ih =>
    intro g h1 h2
    obtain ⟨h1', h2'⟩ := WGInv_addWE op.1 op.2.1 op.2.2 h1 h2
    exact ih _ h1' h2'

/-- C6: for every weighted graph built by `add_weighted_edge` calls, the
weighted adjacency is symmetric with matching cost, each neighbor occurs at
most once per list, and re-adding an edge between an already-connected pair
leaves `get_weighted_neighbors` unchanged everywhere (first insertion wins,
even under a different cost). -/
theorem weighted_graph_invariants (ops : List (String × String × ℚ)) :
    (∀ a b c, (b, c) ∈ getWeightedNeighbors (buildWG ops) a
      ↔ (a, c) ∈ getWeightedNeighbors (buildWG ops) b)
    ∧ (∀ a, ((getWeightedNeighbors (buildWG ops) a).map Prod.fst).Nodup)
    ∧ (∀ n1 n2 (c c₀ : ℚ), (n2, c₀) ∈ getWeightedNeighbors (buildWG ops) n1 →
        ∀ a, getWeightedNeighbors (addWeightedEdge (buildWG ops) n1 n2 c) a
          = getWeightedNeighbors (buildWG ops) a) := by
  obtain ⟨hsym, hnd⟩ := WGInv_buildWG ops
  refine ⟨hsym, hnd, ?_⟩
  intro n1 n2 c c₀ hmem a
  show (look _ a).getD [] = _
  rw [show (addWeightedEdge (buildWG ops) n1 n2 c).weighted_adjacency
      = (buildWG ops).weighted_adjacency from
    addWeightedEdge_of_present c hsym ⟨c₀, hmem⟩]
  rfl

/-- C6 witness: on the graph built from the single call
`add_weighted_edge("a", "b", 5)`, re-adding the edge with cost 7 changes
neither endpoint's weighted neighbor list. -/
theorem weighted_graph_invariants_witness :
    ("b", (5 : ℚ)) ∈ getWeightedNeighbors (buildWG [("a", "b", 5)]) "a"
    ∧ getWeightedNeighbors (addWeightedEdge (buildWG [("a", "b", 5)]) "a" "b" 7) "a"
        = getWeightedNeighbors (buildWG [("a", "b", 5)]) "a"
    ∧ getWeightedNeighbors (addWeightedEdge (buildWG [("a", "b", 5)]) "a" "b" 7) "b"
        = getWeightedNeighbors (buildWG [("a", "b", 5)]) "b" := by
  refine ⟨by decide, ?_, ?_⟩
  · exact (weighted_graph_invariants [("a", "b", 5)]).2.2 "a" "b" 7 5 (by decide) "a"
  · exact (weighted_graph_invariants [("a", "b", 5)]).2.2 "a" "b" 7 5 (by decide) "b"

/-! ## Walks over a weighted adjacency table -/

/-- The `weighted_adjacency` dictionary consulted by UCS and A*. -/
abbrev WAdj : Type := List (String × List (String × ℚ))

/-- `get_weighted_neighbors` read directly off the table (empty when the
city is unknown). -/
def wnbrs (W : WAdj) (node : String) : List (String × ℚ) := (look W node).getD []

/-- Every edge cost in the table is non-negative. -/
def NonNeg (W : WAdj) : Prop := ∀ kv ∈ W, ∀ p ∈ kv.2, (0 : ℚ) ≤ p.2

instance (W : WAdj) : Decidable (NonNeg W) := by
  unfold NonNeg
  infer_instance

theorem look_some_mem {β : Type} {l : List (String × β)} {k : String} {v : β}
    (h : look l k = some v) : (k, v) ∈ l := by
  induction l with
  | nil => simp [look] at h
  | cons hd tl ih =>
    obtain ⟨k₀, v₀⟩ := hd
    by_cases h2 : k = k₀
    · subst h2
      simp [look] at h
      simp [h]
    · simp [look, h2] at h
      exact List.mem_cons_of_mem _ (ih h)

theorem nonneg_wnbrs {W : WAdj} (hW : NonNeg W) {v : String} {p : String × ℚ}
    (hp : p ∈ wnbrs W v) : (0 : ℚ) ≤ p.2 := by
  unfold wnbrs at hp
  cases hl : look W v with
  | none => rw [hl] at hp; simp at hp
  | some l =>
    rw [hl] at hp
    exact hW (v, l) (look_some_mem hl) p hp

/-- A walk from `s`: vertex list `p` (built by appending each step's target),
final vertex `v`, accumulated cost `q`; each step follows an entry of the
weighted adjacency. -/
inductive WalkFrom (W : WAdj) (s : String) : List String → String → ℚ → Prop where
  | refl : WalkFrom W s [s] s 0
  | step {p : List String} {v : String} {q : ℚ} {w : String} {c : ℚ} :
      WalkFrom W s p v q → (w, c) ∈ wnbrs W v → WalkFrom W s (p ++ [w]) w (q + c)

theorem WalkFrom.nonneg {W : WAdj} {s : String} (hW : NonNeg W)
    {p : List String} {v : String} {q : ℚ} (h : WalkFrom W s p v q) : 0 ≤ q := by
  induction h with
  | refl => exact le_refl 0
  | step hw he ih => exact add_nonneg ih (nonneg_wnbrs hW he)

/-! ## Uniform-cost search (src/ucs.py) -/

/-- A frontier entry of UCS: the Python heap tuple
`(cost, counter, current_city, path)`. -/
structure UEntry where
  cost : ℚ
  ctr : ℕ
  city : String
  path : List String
deriving DecidableEq, Repr

/-- `UCSResult` from ucs.py (defaults: empty path, cost 0, failure). -/
structure UCSResult where
  path : List String
  total_cost : ℚ
  success : Bool
deriving DecidableEq, Repr

/-- Strict lexicographic comparison on `(cost, counter)` — the order in which
`heapq` compares the pushed tuples (the counter is unique, so the comparison
never reaches the remaining components). -/
def uLt (x y : UEntry) : Prop :=
  x.cost < y.cost ∨ (x.cost = y.cost ∧ x.ctr < y.ctr)

instance (x y : UEntry) : Decidable (uLt x y) := by
  unfold uLt
  infer_instance

/-- The least entry of `e :: l` in the `(cost, counter)` order — the entry
`heapq.heappop` removes. -/
def findMin (e : UEntry) (l : List UEntry) : UEntry :=
  l.foldl (fun best x => if uLt x best then x else best) e

/-- `visited[k] = v` on the dictionary. -/
def setK (visited : List (String × ℚ)) (k : String) (v : ℚ) : List (String × ℚ) :=
  if (look visited k).isSome then updK visited k (fun _ => v) else visited ++ [(k, v)]

/-- The Python staleness test
`current_city in visited and visited[current_city] <= current_cost`. -/
def stale (visited : List (String × ℚ)) (e : UEntry) : Bool :=
  match look visited e.city with
  | some vc => decide (vc ≤ e.cost)
  | none => false

/-- The neighbor loop of `UniformCostSearch.search`: push each neighbor not
yet in `visited`, incrementing the tie-break counter per push. -/
def pushNbrs (visited : List (String × ℚ)) (cost : ℚ) (path : List String) :
    List (String × ℚ) → List UEntry × ℕ → List UEntry × ℕ
  | [], st => st
  | (nb, ec) :: rest, (pq, ctr) =>
    if (look visited nb).isSome then pushNbrs visited cost path rest (pq, ctr)
    else pushNbrs visited cost path rest
      (⟨cost + ec, ctr + 1, nb, path ++ [nb]⟩ :: pq, ctr + 1)

/-- The main loop of `UniformCostSearch.search`, with explicit fuel (`none`
on fuel exhaustion; the bound used by `ucsSearch` is proved sufficient under
non-negative costs). -/
def ucsLoop (W : WAdj) (goal : String) :
    ℕ → List UEntry → List (String × ℚ) → ℕ → Option UCSResult
  | fuel, pq, visited, ctr =>
    match pq with
    | [] => some ⟨[], 0, false⟩
    | hd :: tl =>
      match fuel with
      | 0 => none
      | fuel' + 1 =>
        let e := findMin hd tl
        let rest := (hd :: tl).erase e
        if stale visited e then ucsLoop W goal fuel' rest visited ctr
        else
          let visited' := setK visited e.city e.cost
          if e.city = goal then some ⟨e.path, e.cost, true⟩
          else
            let st := pushNbrs visited' e.cost e.path (wnbrs W e.city) (rest, ctr)
            ucsLoop W goal fuel' st.1 visited' st.2

/-- Total number of `(neighbor, cost)` entries of the table. -/
def totalDeg (W : WAdj) : ℕ := (W.map (fun kv => kv.2.length)).sum

/-- Fuel that `ucsSearch` hands to its loop; proved sufficient below. -/
def fuelBound (W : WAdj) : ℕ :=
  1 + (1 + totalDeg W) + totalDeg W * (1 + totalDeg W)

/-- `UniformCostSearch.search` from ucs.py. -/
def ucsSearch (W : WAdj) (initial goal : String) : UCSResult :=
  if (look W initial).isNone then ⟨[], 0, false⟩
  else if (look W goal).isNone then ⟨[], 0, false⟩
  else if initial = goal then ⟨[initial], 0, true⟩
  else
    match ucsLoop W goal (fuelBound W) [⟨0, 0, initial, [initial]⟩] [] 0 with
    | some r => r
    | none => ⟨[], 0, false⟩

/-! ## A* search (src/astar.py) -/

/-- A frontier entry of A*: the heap tuple
`(f_value, g_value, counter, current, path)`. -/
structure AEntry where
  f : ℚ
  g : ℚ
  ctr : ℕ
  city : String
  path : List String
deriving DecidableEq, Repr

/-- `AStarResult` from astar.py. -/
structure AStarResult where
  path : List String
  total_cost : ℚ
  success : Bool
deriving DecidableEq, Repr

/-- Strict lexicographic comparison on `(f, g, counter)`. -/
def aLt (x y : AEntry) : Prop :=
  x.f < y.f ∨ (x.f = y.f ∧ (x.g < y.g ∨ (x.g = y.g ∧ x.ctr < y.ctr)))

instance (x y : AEntry) : Decidable (aLt x y) := by
  unfold aLt
  infer_instance

/-- The least entry of `e :: l` in the `(f, g, counter)` order. -/
def findMinA (e : AEntry) (l : List AEntry) : AEntry :=
  l.foldl (fun best x => if aLt x best then x else best) e

/-- `AStarSearch.get_heuristic`: dictionary lookup with default 0. -/
def getH (H : List (String × ℚ)) (n : String) : ℚ := (look H n).getD 0

/-- The A* staleness test `current in g_scores and g_value > g_scores[current]`. -/
def staleA (gs : List (String × ℚ)) (e : AEntry) : Bool :=
  match look gs e.city with
  | some g0 => decide (g0 < e.g)
  | none => false

/-- The neighbor loop of `AStarSearch.search`: re-queue a neighbor only on
strict improvement of its best known `g`, recording the new `g_score`. -/
def apush (H : List (String × ℚ)) (gv : ℚ) (path : List String) :
    List (String × ℚ) → List (String × ℚ) × List AEntry × ℕ
    → List (String × ℚ) × List AEntry × ℕ
  | [], st => st
  | (nb, ec) :: rest, (gs, pq, ctr) =>
    if (look gs nb).isNone ∨ gv + ec < (look gs nb).getD 0 then
      apush H gv path rest
        (setK gs nb (gv + ec),
         ⟨gv + ec + getH H nb, gv + ec, ctr + 1, nb, path ++ [nb]⟩ :: pq, ctr + 1)
    else apush H gv path rest (gs, pq, ctr)

/-- The main loop of `AStarSearch.search`, with explicit fuel. -/
def astarLoop (W : WAdj) (H : List (String × ℚ)) (goal : String) :
    ℕ → List AEntry → List (String × ℚ) → ℕ → Option AStarResult
  | fuel, pq, gs, ctr =>
    match pq with
    | [] => some ⟨[], 0, false⟩
    | hd :: tl =>
      match fuel with
      | 0 => none
      | fuel' + 1 =>
        let e := findMinA hd tl
        let rest := (hd :: tl).erase e
        if staleA gs e then astarLoop W H goal fuel' rest gs ctr
        else if e.city = goal then some ⟨e.path, e.g, true⟩
        else
          let st := apush H e.g e.path (wnbrs W e.city) (gs, rest, ctr)
          astarLoop W H goal fuel' st.2.1 st.1 st.2.2

/-- `AStarSearch.search` from astar.py. -/
def astarSearch (W : WAdj) (H : List (String × ℚ)) (initial goal : String) : AStarResult :=
  if (look W initial).isNone then ⟨[], 0, false⟩
  else if (look W goal).isNone then ⟨[], 0, false⟩
  else if initial = goal then ⟨[initial], 0, true⟩
  else
    match astarLoop W H goal (fuelBound W)
      [⟨getH H initial, 0, 0, initial, [initial]⟩] [(initial, 0)] 0 with
    | some r => r
    | none => ⟨[], 0, false⟩

/-! ## BFS and DFS (src/bfs_dfs.py) -/

/-- The unweighted `adjacency_list` dictionary consulted by BFS/DFS. -/
abbrev UAdj : Type := List (String × List String)

/-- `get_neighbors` read directly off the table. -/
def nbrs (adj : UAdj) (node : String) : List String := (look adj node).getD []

/-- `SearchResult` from bfs_dfs.py: a path and a success flag (no cost field). -/
structure SearchResult where
  path : List String
  success : Bool
deriving DecidableEq, Repr

/-- An unweighted walk from `s` through the adjacency table. -/
inductive UWalk (adj : UAdj) (s : String) : List String → String → Prop where
  | refl : UWalk adj s [s] s
  | step {p : List String} {v w : String} :
      UWalk adj s p v → w ∈ nbrs adj v → UWalk adj s (p ++ [w]) w

/-- The neighbor loop of `_breadth_first_search`: skip visited neighbors,
return at once when the goal is generated, otherwise mark visited and
enqueue. -/
def bfsScan (goal : String) (path : List String) :
    List String → List String → List (String × List String)
    → Option (List String) × List String × List (String × List String)
  | [], visited, queue => (none, visited, queue)
  | n :: rest, visited, queue =>
    if n ∈ visited then bfsScan goal path rest visited queue
    else if n = goal then (some (path ++ [n]), visited, queue)
    else bfsScan goal path rest (visited ++ [n]) (queue ++ [(n, path ++ [n])])

/-- The main loop of `_breadth_first_search` (FIFO queue as a list whose
head is the front), with explicit fuel. -/
def bfsLoop (adj : UAdj) (goal : String) :
    ℕ → List (String × List String) → List String → Option SearchResult
  | fuel, queue, visited =>
    match queue with
    | [] => some ⟨[], false⟩
    | (cur, path) :: qrest =>
      match fuel with
      | 0 => none
      | fuel' + 1 =>
        match bfsScan goal path (nbrs adj cur) visited qrest with
        | (some found, _, _) => some ⟨found, true⟩
        | (none, visited', queue') => bfsLoop adj goal fuel' queue' visited'

/-- Total number of neighbor entries of the unweighted table. -/
def totalDegU (adj : UAdj) : ℕ := (adj.map (fun kv => kv.2.length)).sum

/-- Fuel handed to the BFS loop; proved sufficient below. -/
def bfsFuel (adj : UAdj) : ℕ := 2 + totalDegU adj

/-- `TravelEthiopiaSearch._breadth_first_search` from bfs_dfs.py. -/
def bfsSearch (adj : UAdj) (initial goal : String) : SearchResult :=
  if (look adj initial).isNone then ⟨[], false⟩
  else if (look adj goal).isNone then ⟨[], false⟩
  else if initial = goal then ⟨[initial], true⟩
  else
    match bfsLoop adj goal (bfsFuel adj) [(initial, [initial])] [initial] with
    | some r => r
    | none => ⟨[], false⟩

/-- The main loop of `_depth_first_search` (LIFO stack as a list whose head
is the top; visited marking at pop time), with explicit fuel. -/
def dfsLoop (adj : UAdj) (goal : String) :
    ℕ → List (String × List String) → List String → Option SearchResult
  | fuel, stack, visited =>
    match stack with
    | [] => some ⟨[], false⟩
    | (cur, path) :: srest =>
      match fuel with
      | 0 => none
      | fuel' + 1 =>
        if cur ∈ visited then dfsLoop adj goal fuel' srest visited
        else
          let visited' := visited ++ [cur]
          if cur = goal then some ⟨path, true⟩
          else
            let pushes := ((nbrs adj cur).filter (fun n => n ∉ visited')).map
              (fun n => (n, path ++ [n]))
            dfsLoop adj goal fuel' (pushes ++ srest) visited'

/-- Fuel handed to the DFS loop (its exact value is irrelevant to the claims,
which only exercise the guard clauses of `_depth_first_search`). -/
def dfsFuel (adj : UAdj) : ℕ :=
  1 + (1 + totalDegU adj) + totalDegU adj * (1 + totalDegU adj)

/-- `TravelEthiopiaSearch._depth_first_search` from bfs_dfs.py: pushes the
reversed neighbor list (so the first declared neighbor is popped first),
marks visited at pop time. -/
def dfsSearch (adj : UAdj) (initial goal : String) : SearchResult :=
  if (look adj initial).isNone then ⟨[], false⟩
  else if (look adj goal).isNone then ⟨[], false⟩
  else if initial = goal then ⟨[initial], true⟩
  else
    match dfsLoop adj goal (dfsFuel adj) [(initial, [initial])] [] with
    | some r => r
    | none => ⟨[], false⟩

/-! ## Greedy multi-goal UCS (src/ucs.py, `MultiGoalUCS`) -/

/-- The result dictionary of `MultiGoalUCS.search`. -/
structure MGResult where
  complete_path : List String
  total_cost : ℚ
  visit_order : List String
  success : Bool
deriving DecidableEq, Repr

/-- The inner round of `MultiGoalUCS.search`: run single-pair UCS from the
current location to each still-unvisited goal in iteration order, keeping
the first strictly-cheapest successful result. -/
def pickBest (W : WAdj) (loc : String) :
    List String → Option (String × UCSResult) → Option (String × UCSResult)
  | [], acc => acc
  | goal :: rest, acc =>
    let r := ucsSearch W loc goal
    match acc with
    | none => pickBest W loc rest (if r.success then some (goal, r) else none)
    | some (g0, r0) =>
      pickBest W loc rest
        (if r.success ∧ r.total_cost < r0.total_cost then some (goal, r) else some (g0, r0))

/-- The outer loop of `MultiGoalUCS.search`. `unvisited` carries the
still-unvisited goals in the iteration order of the Python set
`unvisited_goals` (which CPython does not fix across runs: string hashing is
randomized per process); the committed goal is removed, preserving the
relative order of the rest. Fuel is the number of goals. -/
def mgLoop (W : WAdj) :
    ℕ → List String → String → List String → ℚ → List String → MGResult
  | _, [], _, cpath, tcost, order => ⟨cpath, tcost, order, true⟩
  | 0, _ :: _, _, cpath, tcost, order => ⟨cpath, tcost, order, false⟩
  | fuel + 1, unvisited, loc, cpath, tcost, order =>
    match pickBest W loc unvisited none with
    | none => ⟨cpath, tcost, order, false⟩
    | some (g, r) =>
      mgLoop W fuel (unvisited.erase g) g (cpath ++ r.path.drop 1)
        (tcost + r.total_cost) (order ++ [g])

/-- `MultiGoalUCS.search` from ucs.py, parametric in the iteration order of
the goal set. -/
def mgSearch (W : WAdj) (initial : String) (goalsOrder : List String) : MGResult :=
  mgLoop W goalsOrder.length goalsOrder initial [initial] 0 []

/-! ## Trivial and failing searches (claims C7, C8) -/

/-- A two-node weighted adjacency used by the witnesses. -/
def exW : WAdj := [("A", [("B", 1)]), ("B", [("A", 1)])]

/-- A two-node unweighted adjacency used by the witnesses. -/
def exA : UAdj := [("A", ["B"]), ("B", ["A"])]

/-- C7: for each algorithm, searching from a node of its graph to itself
returns the single-node path `[s]` with success; UCS and A* additionally
report total cost 0 (the BFS/DFS `SearchResult` carries no cost field; the
spec reads the cost of an unweighted result as 0). -/
theorem start_equals_goal (adj : UAdj) (W : WAdj) (H : List (String × ℚ)) (s : String) :
    ((look adj s).isSome → bfsSearch adj s s = ⟨[s], true⟩)
    ∧ ((look adj s).isSome → dfsSearch adj s s = ⟨[s], true⟩)
    ∧ ((look W s).isSome → ucsSearch W s s = ⟨[s], 0, true⟩)
    ∧ ((look W s).isSome → astarSearch W H s s = ⟨[s], 0, true⟩) := by
  refine ⟨?_, ?_, ?_, ?_⟩ <;> intro h
  · obtain ⟨v, hv⟩ := Option.isSome_iff_exists.mp h
    simp [bfsSearch, hv]
  · obtain ⟨v, hv⟩ := Option.isSome_iff_exists.mp h
    simp [dfsSearch, hv]
  · obtain ⟨v, hv⟩ := Option.isSome_iff_exists.mp h
    simp [ucsSearch, hv]
  · obtain ⟨v, hv⟩ := Option.isSome_iff_exists.mp h
    simp [astarSearch, hv]

/-- C7 witness: the four trivial searches on concrete two-node graphs. -/
theorem start_equals_goal_witness :
    bfsSearch exA "A" "A" = ⟨["A"], true⟩
    ∧ dfsSearch exA "A" "A" = ⟨["A"], true⟩
    ∧ ucsSearch exW "A" "A" = ⟨["A"], 0, true⟩
    ∧ astarSearch exW [] "A" "A" = ⟨["A"], 0, true⟩ :=
  ⟨(start_equals_goal exA exW [] "A").1 (by decide),
   (start_equals_goal exA exW [] "A").2.1 (by decide),
   (start_equals_goal exA exW [] "A").2.2.1 (by decide),
   (start_equals_goal exA exW [] "A").2.2.2 (by decide)⟩

/-- C8: when the start or the goal is absent from the dictionary the
algorithm consults, each of BFS, DFS, UCS and A* returns a failed result
with an empty path (the guards return before any loop; no error is raised —
each embedded search is a total function). -/
theorem absent_endpoint_fails (adj : UAdj) (W : WAdj) (H : List (String × ℚ))
    (s g : String) :
    ((look adj s = none ∨ look adj g = none) → bfsSearch adj s g = ⟨[], false⟩)
    ∧ ((look adj s = none ∨ look adj g = none) → dfsSearch adj s g = ⟨[], false⟩)
    ∧ ((look W s = none ∨ look W g = none) → ucsSearch W s g = ⟨[], 0, false⟩)
    ∧ ((look W s = none ∨ look W g = none) → astarSearch W H s g = ⟨[], 0, false⟩) := by
  refine ⟨?_, ?_, ?_, ?_⟩ <;> rintro (h | h)
  · simp [bfsSearch, h]
  · unfold bfsSearch
    by_cases hs : (look adj s).isNone <;> simp [hs, h]
  · simp [dfsSearch, h]
  · unfold dfsSearch
    by_cases hs : (look adj s).isNone <;> simp [hs, h]
  · simp [ucsSearch, h]
  · unfold ucsSearch
    by_cases hs : (look W s).isNone <;> simp [hs, h]
  · simp [astarSearch, h]
  · unfold astarSearch
    by_cases hs : (look W s).isNone <;> simp [hs, h]

/-- C8 witness: searches with an unknown start (or goal) on the concrete
two-node graphs. -/
theorem absent_endpoint_fails_witness :
    bfsSearch exA "Z" "A" = ⟨[], false⟩
    ∧ dfsSearch exA "A" "Z" = ⟨[], false⟩
    ∧ ucsSearch exW "Z" "A" = ⟨[], 0, false⟩
    ∧ astarSearch exW [] "A" "Z" = ⟨[], 0, false⟩ :=
  ⟨(absent_endpoint_fails exA exW [] "Z" "A").1 (Or.inl (by decide)),
   (absent_endpoint_fails exA exW [] "A" "Z").2.1 (Or.inr (by decide)),
   (absent_endpoint_fails exA exW [] "Z" "A").2.2.1 (Or.inl (by decide)),
   (absent_endpoint_fails exA exW [] "A" "Z").2.2.2 (Or.inr (by decide))⟩

/-! ## Determinism and goal-set iteration order (claim C9) -/

theorem pickBest_append (W : WAdj) (loc : String) (l₁ l₂ : List String)
    (acc : Option (String × UCSResult)) :
    pickBest W loc (l₁ ++ l₂) acc = pickBest W loc l₂ (pickBest W loc l₁ acc) := by
  induction l₁ generalizing acc with
  | nil => rfl
  | cons g rest ih =>
    rw [List.cons_append]
    cases acc with
    | none => exact ih _
    | some p => exact ih _

theorem pickBest_none_of_acc_none (W : WAdj) (loc : String) :
    ∀ l, (∀ g ∈ l, (ucsSearch W loc g).success = false) →
      pickBest W loc l none = none := by
  intro l
  induction l with
  | nil => intro _; rfl
  | cons g rest ih =>
    intro h
    show pickBest W loc rest (if (ucsSearch W loc g).success then _ else none) = none
    rw [if_neg (by rw [h g (List.mem_cons_self g rest)]; exact fun hc => Bool.noConfusion hc)]
    exact ih fun g' hg' => h g' (List.mem_cons_of_mem g hg')

theorem pickBest_keep (W : WAdj) (loc : String) :
    ∀ l (g₀ : String) (r₀ : UCSResult),
      (∀ g' ∈ l, (ucsSearch W loc g').success = true →
        ¬ (ucsSearch W loc g').total_cost < r₀.total_cost) →
      pickBest W loc l (some (g₀, r₀)) = some (g₀, r₀) := by
  intro l
  induction l with
  | nil => intro _ _ _; rfl
  | cons g rest ih =>
    intro g₀ r₀ h
    show pickBest W loc rest
      (if (ucsSearch W loc g).success = true
          ∧ (ucsSearch W loc g).total_cost < r₀.total_cost
        then some (g, ucsSearch W loc g) else some (g₀, r₀)) = _
    rw [if_neg (by
      rintro ⟨h1, h2⟩
      exact h g (List.mem_cons_self g rest) h1 h2)]
    exact ih g₀ r₀ fun g' hg' => h g' (List.mem_cons_of_mem g hg')

theorem pickBest_source (W : WAdj) (loc : String) :
    ∀ l (acc : Option (String × UCSResult)) (g : String) (r : UCSResult),
      pickBest W loc l acc = some (g, r) →
      acc = some (g, r)
      ∨ (g ∈ l ∧ r = ucsSearch W loc g ∧ r.success = true) := by
  intro l
  induction l with
  | nil =>
    intro acc g r h
    exact Or.inl h
  | cons g₁ rest ih =>
    intro acc g r h
    match acc with
    | none =>
      by_cases hs : (ucsSearch W loc g₁).success = true
      · have h' : pickBest W loc rest (some (g₁, ucsSearch W loc g₁)) = some (g, r) := by
          rw [show pickBest W loc (g₁ :: rest) none
              = pickBest W loc rest (if (ucsSearch W loc g₁).success
                then some (g₁, ucsSearch W loc g₁) else none) from rfl, if_pos hs] at h
          exact h
        rcases ih _ g r h' with h2 | h2
        · rw [Option.some.injEq, Prod.mk.injEq] at h2
          exact Or.inr ⟨h2.1 ▸ List.mem_cons_self g₁ rest, h2.2 ▸ h2.1 ▸ rfl,
            h2.2 ▸ h2.1 ▸ hs⟩
        · exact Or.inr ⟨List.mem_cons_of_mem g₁ h2.1, h2.2.1, h2.2.2⟩
      · have h' : pickBest W loc rest none = some (g, r) := by
          rw [show pickBest W loc (g₁ :: rest) none
              = pickBest W loc rest (if (ucsSearch W loc g₁).success
                then some (g₁, ucsSearch W loc g₁) else none) from rfl,
            if_neg hs] at h
          exact h
        rcases ih _ g r h' with h2 | h2
        · exact absurd h2 (Option.noConfusion)
        · exact Or.inr ⟨List.mem_cons_of_mem g₁ h2.1, h2.2.1, h2.2.2⟩
    | some (g₀, r₀) =>
      by_cases hc : (ucsSearch W loc g₁).success = true
          ∧ (ucsSearch W loc g₁).total_cost < r₀.total_cost
      · have h' : pickBest W loc rest (some (g₁, ucsSearch W loc g₁)) = some (g, r) := by
          rw [show pickBest W loc (g₁ :: rest) (some (g₀, r₀))
              = pickBest W loc rest (if (ucsSearch W loc g₁).success = true
                  ∧ (ucsSearch W loc g₁).total_cost < r₀.total_cost
                then some (g₁, ucsSearch W loc g₁) else some (g₀, r₀)) from rfl,
            if_pos hc] at h
          exact h
        rcases ih _ g r h' with h2 | h2
        · rw [Option.some.injEq, Prod.mk.injEq] at h2
          exact Or.inr ⟨h2.1 ▸ List.mem_cons_self g₁ rest, h2.2 ▸ h2.1 ▸ rfl,
            h2.2 ▸ h2.1 ▸ hc.1⟩
        · exact Or.inr ⟨List.mem_cons_of_mem g₁ h2.1, h2.2.1, h2.2.2⟩
      · have h' : pickBest W loc rest (some (g₀, r₀)) = some (g, r) := by
          rw [show pickBest W loc (g₁ :: rest) (some (g₀, r₀))
              = pickBest W loc rest (if (ucsSearch W loc g₁).success = true
                  ∧ (ucsSearch W loc g₁).total_cost < r₀.total_cost
                then some (g₁, ucsSearch W loc g₁) else some (g₀, r₀)) from rfl,
            if_neg hc] at h
          exact h
        rcases ih _ g r h' with h2 | h2
        · exact Or.inl h2
        · exact Or.inr ⟨List.mem_cons_of_mem g₁ h2.1, h2.2.1, h2.2.2⟩

/-- With a unique strict cheapest successful goal, the round returns it,
whatever the iteration order. -/
theorem pickBest_unique (W : WAdj) (loc : String) (l : List String) (gs : String)
    (hnd : l.Nodup) (hg : gs ∈ l) (hs : (ucsSearch W loc gs).success = true)
    (hmin : ∀ g' ∈ l, g' ≠ gs → (ucsSearch W loc g').success = true →
      (ucsSearch W loc gs).total_cost < (ucsSearch W loc g').total_cost) :
    pickBest W loc l none = some (gs, ucsSearch W loc gs) := by
  obtain ⟨l₁, l₂, rfl⟩ := List.append_of_mem hg
  have hgs1 : gs ∉ l₁ :=
    fun hmem => (List.nodup_append.mp hnd).2.2 hmem (List.mem_cons_self gs l₂)
  have hgs2 : gs ∉ l₂ := (List.nodup_cons.mp (List.nodup_append.mp hnd).2.1).1
  rw [pickBest_append]
  have hl2min : ∀ g' ∈ l₂, (ucsSearch W loc g').success = true →
      ¬ (ucsSearch W loc g').total_cost < (ucsSearch W loc gs).total_cost := by
    intro g' hg' hsucc
    exact not_lt.mpr (hmin g' (by simp [hg']) (fun he => hgs2 (he ▸ hg')) hsucc).le
  cases hpb : pickBest W loc l₁ none with
  | none =>
    show pickBest W loc l₂
      (if (ucsSearch W loc gs).success = true then some (gs, ucsSearch W loc gs)
        else none) = _
    rw [if_pos hs]
    exact pickBest_keep W loc l₂ gs (ucsSearch W loc gs) hl2min
  | some gr =>
    obtain ⟨g₁, r₁⟩ := gr
    rcases pickBest_source W loc l₁ none g₁ r₁ hpb with h | ⟨hmem, hr, hsucc⟩
    · exact absurd h (Option.noConfusion)
    · have hne : g₁ ≠ gs := fun he => hgs1 (he ▸ hmem)
      have hlt : (ucsSearch W loc gs).total_cost < r₁.total_cost := by
        rw [hr]
        exact hmin g₁ (by simp [hmem]) hne (hr ▸ hsucc)
      show pickBest W loc l₂
        (if (ucsSearch W loc gs).success = true
            ∧ (ucsSearch W loc gs).total_cost < r₁.total_cost
          then some (gs, ucsSearch W loc gs) else some (g₁, r₁)) = _
      rw [if_pos ⟨hs, hlt⟩]
      exact pickBest_keep W loc l₂ gs (ucsSearch W loc gs) hl2min

theorem pickBest_cons (W : WAdj) (loc g₁ : String) (rest : List String)
    (acc : Option (String × UCSResult)) :
    pickBest W loc (g₁ :: rest) acc
      = pickBest W loc rest
        (match acc with
         | none => if (ucsSearch W loc g₁).success then some (g₁, ucsSearch W loc g₁)
            else none
         | some (g₀, r₀) =>
            if (ucsSearch W loc g₁).success ∧ (ucsSearch W loc g₁).total_cost < r₀.total_cost
            then some (g₁, ucsSearch W loc g₁) else some (g₀, r₀)) := by
  cases acc with
  | none => rfl
  | some p =>
    obtain ⟨g₀, r₀⟩ := p
    rfl

theorem pickBest_none_sound (W : WAdj) (loc : String) :
    ∀ l (acc : Option (String × UCSResult)), pickBest W loc l acc = none →
      acc = none ∧ ∀ g ∈ l, (ucsSearch W loc g).success = false := by
  intro l
  induction l with
  | nil =>
    intro acc h
    exact ⟨h, by simp⟩
  | cons g₁ rest ih =>
    intro acc h
    rw [pickBest_cons] at h
    match acc with
    | none =>
      by_cases hs : (ucsSearch W loc g₁).success = true
      · rw [show (match (none : Option (String × UCSResult)) with
            | none => if (ucsSearch W loc g₁).success then some (g₁, ucsSearch W loc g₁)
                else none
            | some (g₀, r₀) =>
                if (ucsSearch W loc g₁).success
                    ∧ (ucsSearch W loc g₁).total_cost < r₀.total_cost
                then some (g₁, ucsSearch W loc g₁) else some (g₀, r₀))
            = if (ucsSearch W loc g₁).success then some (g₁, ucsSearch W loc g₁)
              else none from rfl, if_pos hs] at h
        obtain ⟨hacc, _⟩ := ih _ h
        exact absurd hacc (by simp)
      · rw [show (match (none : Option (String × UCSResult)) with
            | none => if (ucsSearch W loc g₁).success then some (g₁, ucsSearch W loc g₁)
                else none
            | some (g₀, r₀) =>
                if (ucsSearch W loc g₁).success
                    ∧ (ucsSearch W loc g₁).total_cost < r₀.total_cost
                then some (g₁, ucsSearch W loc g₁) else some (g₀, r₀))
            = if (ucsSearch W loc g₁).success then some (g₁, ucsSearch W loc g₁)
              else none from rfl, if_neg hs] at h
        obtain ⟨_, hall⟩ := ih _ h
        refine ⟨rfl, ?_⟩
        intro g hg
        rcases List.mem_cons.mp hg with rfl | hg'
        · exact Bool.eq_false_iff.mpr hs
        · exact hall g hg'
    | some p =>
      exfalso
      obtain ⟨g₀, r₀⟩ := p
      obtain ⟨hacc, _⟩ := ih _ h
      rw [show (match (some (g₀, r₀) : Option (String × UCSResult)) with
          | none => if (ucsSearch W loc g₁).success then some (g₁, ucsSearch W loc g₁)
              else none
          | some (g₀, r₀) =>
              if (ucsSearch W loc g₁).success
                  ∧ (ucsSearch W loc g₁).total_cost < r₀.total_cost
              then some (g₁, ucsSearch W loc g₁) else some (g₀, r₀))
          = if (ucsSearch W loc g₁).success
                ∧ (ucsSearch W loc g₁).total_cost < r₀.total_cost
            then some (g₁, ucsSearch W loc g₁) else some (g₀, r₀) from rfl] at hacc
      split at hacc <;> simp at hacc

/-- No two unvisited goals are reachable at equal cheapest cost in any round
of the multi-goal run: along the run, every other reachable goal is strictly
more expensive than the committed one. -/
def noTiesRun (W : WAdj) : ℕ → String → List String → Bool
  | 0, _, _ => true
  | fuel + 1, loc, l =>
    match pickBest W loc l none with
    | none => true
    | some (g, r) =>
      (l.all fun g' => g' == g || !(ucsSearch W loc g').success
        || decide (r.total_cost < (ucsSearch W loc g').total_cost))
      && noTiesRun W fuel g (l.erase g)

theorem mgLoop_cons_eq (W : WAdj) (fuel : ℕ) (a : String) (t : List String)
    (loc : String) (cpath : List String) (tcost : ℚ) (order : List String) :
    mgLoop W (fuel + 1) (a :: t) loc cpath tcost order
      = match pickBest W loc (a :: t) none with
        | none => ⟨cpath, tcost, order, false⟩
        | some (g, r) =>
          mgLoop W fuel ((a :: t).erase g) g (cpath ++ r.path.drop 1)
            (tcost + r.total_cost) (order ++ [g]) := rfl

/-- The multi-goal greedy loop is independent of the iteration order of the
goal set when every round has a unique cheapest reachable goal. -/
theorem mgLoop_perm (W : WAdj) : ∀ (fuel : ℕ) (l₁ l₂ : List String) (loc : String)
    (cpath : List String) (tcost : ℚ) (order : List String),
    l₁.Perm l₂ → l₁.Nodup → noTiesRun W fuel loc l₁ = true →
    mgLoop W fuel l₁ loc cpath tcost order = mgLoop W fuel l₂ loc cpath tcost order := by
  intro fuel
  induction fuel with
  | zero =>
    intro l₁ l₂ loc cpath tcost order hperm hnd _
    cases l₁ with
    | nil =>
      have : l₂ = [] := List.perm_nil.mp hperm.symm
      subst this
      rfl
    | cons a t =>
      cases l₂ with
      | nil => exact absurd (List.perm_nil.mp hperm) (by simp)
      | cons b t₂ => rfl
  | succ fuel ih =>
    intro l₁ l₂ loc cpath tcost order hperm hnd hnt
    cases l₁ with
    | nil =>
      have : l₂ = [] := List.perm_nil.mp hperm.symm
      subst this
      rfl
    | cons a t =>
      cases l₂ with
      | nil => exact absurd (List.perm_nil.mp hperm) (by simp)
      | cons b t₂ =>
        rw [mgLoop_cons_eq, mgLoop_cons_eq]
        cases hpb : pickBest W loc (a :: t) none with
        | none =>
          have hall := (pickBest_none_sound W loc _ _ hpb).2
          have hpb2 : pickBest W loc (b :: t₂) none = none :=
            pickBest_none_of_acc_none W loc _
              (fun g hg => hall g (hperm.mem_iff.mpr hg))
          rw [hpb2]
        | some gr =>
          obtain ⟨g, r⟩ := gr
          rcases pickBest_source W loc _ _ g r hpb with h | ⟨hmem, hr, hsucc⟩
          · exact absurd h (Option.noConfusion)
          · unfold noTiesRun at hnt
            rw [hpb, Bool.and_eq_true] at hnt
            obtain ⟨hballs, hrest⟩ := hnt
            have hmin : ∀ g' ∈ (a :: t), g' ≠ g →
                (ucsSearch W loc g').success = true →
                r.total_cost < (ucsSearch W loc g').total_cost := by
              intro g' hg' hne hs
              have := List.all_eq_true.mp hballs g' hg'
              rcases Bool.or_eq_true _ _ |>.mp this with h1 | h1
              · rcases Bool.or_eq_true _ _ |>.mp h1 with h2 | h2
                · exact absurd (by simpa using h2) hne
                · rw [Bool.not_eq_true'] at h2
                  rw [h2] at hs
                  exact absurd hs (by simp)
              · exact of_decide_eq_true h1
            have hpb2 : pickBest W loc (b :: t₂) none = some (g, ucsSearch W loc g) :=
              pickBest_unique W loc _ g (hperm.nodup hnd) (hperm.mem_iff.mp hmem)
                (hr ▸ hsucc)
                (fun g' hg' hne hs =>
                  hr ▸ hmin g' (hperm.mem_iff.mpr hg') hne hs)
            rw [hpb2, ← hr]
            exact ih _ _ g _ _ _ (hperm.erase g) (hnd.erase g) hrest

/-- The weighted graph with the equal-cost tie: `S–A` and `S–B` both cost 1,
`A–B` costs 5. -/
def mgTieW : WAdj :=
  [("S", [("A", 1), ("B", 1)]), ("A", [("S", 1), ("B", 5)]), ("B", [("S", 1), ("A", 5)])]

/-- The weighted graph without ties: `S–A` costs 1, `S–B` costs 2, `A–B`
costs 1. -/
def mgNoTieW : WAdj :=
  [("S", [("A", 1), ("B", 2)]), ("A", [("S", 1), ("B", 1)]), ("B", [("S", 2), ("A", 1)])]

unseal Rat.add in
/-- C9 counterexample: with two goals reachable at equal cheapest cost,
`MultiGoalUCS.search` on the same graph, start and goal set returns
different visit orders and routes for two iteration orders of the goal set
(the order of a CPython string set is not fixed across processes), so the
claimed determinism fails for multi-goal UCS in the tie case. -/
theorem multigoal_tie_counterexample :
    (["A", "B"] : List String).Perm ["B", "A"]
    ∧ (["A", "B"] : List String).Nodup
    ∧ (ucsSearch mgTieW "S" "A").success = true
    ∧ (ucsSearch mgTieW "S" "B").success = true
    ∧ (ucsSearch mgTieW "S" "A").total_cost = (ucsSearch mgTieW "S" "B").total_cost
    ∧ mgSearch mgTieW "S" ["A", "B"] ≠ mgSearch mgTieW "S" ["B", "A"] := by
  refine ⟨List.Perm.swap "B" "A" [], by decide, by decide, by decide, by decide, by decide⟩

/-- C9 amended: BFS, DFS, UCS, A* and minimax are deterministic functions of
their inputs (they are embedded as functions); multi-goal UCS is
deterministic given the iteration order of its goal set, and its result is
independent of that order whenever each round has a unique cheapest
reachable goal — but not in general when two unvisited goals tie at the
cheapest cost. -/
theorem multigoal_no_tie_deterministic (W : WAdj) (s : String) (l₁ l₂ : List String)
    (hperm : l₁.Perm l₂) (hnd : l₁.Nodup)
    (hnt : noTiesRun W l₁.length s l₁ = true) :
    mgSearch W s l₁ = mgSearch W s l₂ := by
  unfold mgSearch
  rw [← hperm.length_eq]
  exact mgLoop_perm W l₁.length l₁ l₂ s [s] 0 [] hperm hnd hnt

unseal Rat.add in
/-- C9 amended-claim witness: on the tie-free graph the two iteration orders
of the goal set agree. -/
theorem multigoal_no_tie_deterministic_witness :
    mgSearch mgNoTieW "S" ["A", "B"] = mgSearch mgNoTieW "S" ["B", "A"] :=
  multigoal_no_tie_deterministic mgNoTieW "S" ["A", "B"] ["B", "A"]
    (List.Perm.swap "B" "A" []) (by decide) (by decide)

/-! ## Correctness of uniform-cost search (claim C1) -/

theorem findMin_spec : ∀ (l : List UEntry) (e : UEntry),
    findMin e l ∈ e :: l ∧ (findMin e l).cost ≤ e.cost
    ∧ ∀ x ∈ l, (findMin e l).cost ≤ x.cost := by
  intro l
  induction l with
  | nil =>
    intro e
    exact ⟨List.mem_singleton.mpr rfl, le_refl _, by simp⟩
  | cons x l ih =>
    intro e
    by_cases h : uLt x e
    · have hstep : findMin e (x :: l) = findMin x l := by
        show findMin (if uLt x e then x else e) l = _
        rw [if_pos h]
      obtain ⟨hmem, hle, hall⟩ := ih x
      have hxe : x.cost ≤ e.cost := by
        rcases h with h | ⟨h, _⟩
        · exact h.le
        · exact h.le
      refine ⟨?_, ?_, ?_⟩
      · rw [hstep]
        rcases List.mem_cons.mp hmem with h2 | h2
        · rw [h2]
          exact List.mem_cons_of_mem e (List.mem_cons_self x l)
        · exact List.mem_cons_of_mem e (List.mem_cons_of_mem x h2)
      · rw [hstep]
        exact hle.trans hxe
      · intro y hy
        rw [hstep]
        rcases List.mem_cons.mp hy with rfl | hy'
        · exact hle
        · exact hall y hy'
    · have hstep : findMin e (x :: l) = findMin e l := by
        show findMin (if uLt x e then x else e) l = _
        rw [if_neg h]
      obtain ⟨hmem, hle, hall⟩ := ih e
      have hex : e.cost ≤ x.cost := by
        rcases lt_or_le x.cost e.cost with h2 | h2
        · exact absurd (Or.inl h2) h
        · exact h2
      refine ⟨?_, ?_, ?_⟩
      · rw [hstep]
        rcases List.mem_cons.mp hmem with h2 | h2
        · rw [h2]
          exact List.mem_cons_self e (x :: l)
        · exact List.mem_cons_of_mem e (List.mem_cons_of_mem x h2)
      · rw [hstep]
        exact hle
      · intro y hy
        rw [hstep]
        rcases List.mem_cons.mp hy with rfl | hy'
        · exact hle.trans hex
        · exact hall y hy'

theorem look_setK_self (visited : List (String × ℚ)) (k : String) (c : ℚ) :
    look (setK visited k c) k = some c := by
  unfold setK
  split
  · rename_i h
    obtain ⟨v, hv⟩ := Option.isSome_iff_exists.mp h
    rw [look_updK_self, hv]
    rfl
  · rename_i h
    rw [Option.not_isSome_iff_eq_none] at h
    rw [look_append_of_none _ h]
    simp [look]

theorem look_setK_ne (visited : List (String × ℚ)) (k a : String) (c : ℚ)
    (h : a ≠ k) : look (setK visited k c) a = look visited a := by
  unfold setK
  split
  · exact look_updK_ne visited k a _ h
  · cases hl : look visited a with
    | none =>
      rw [look_append_of_none _ hl]
      simp [look, h]
    | some v => exact look_append_of_isSome _ hl

theorem pushNbrs_cons (visited : List (String × ℚ)) (c : ℚ) (path : List String)
    (nb : String) (ec : ℚ) (rest : List (String × ℚ)) (pq : List UEntry) (ctr : ℕ) :
    pushNbrs visited c path ((nb, ec) :: rest) (pq, ctr)
      = if (look visited nb).isSome
        then pushNbrs visited c path rest (pq, ctr)
        else pushNbrs visited c path rest
          (⟨c + ec, ctr + 1, nb, path ++ [nb]⟩ :: pq, ctr + 1) := rfl

theorem pushNbrs_mem : ∀ (nl : List (String × ℚ)) (visited : List (String × ℚ))
    (c : ℚ) (path : List String) (pq : List UEntry) (ctr : ℕ),
    ∀ e ∈ (pushNbrs visited c path nl (pq, ctr)).1,
      e ∈ pq ∨ ∃ nb ec, (nb, ec) ∈ nl ∧ look visited nb = none
        ∧ e = ⟨c + ec, e.ctr, nb, path ++ [nb]⟩ := by
  intro nl
  induction nl with
  | nil =>
    intro visited c path pq ctr e he
    exact Or.inl he
  | cons p rest ih =>
    intro visited c path pq ctr e he
    obtain ⟨nb, ec⟩ := p
    rw [pushNbrs_cons] at he
    by_cases h : (look visited nb).isSome
    · rw [if_pos h] at he
      rcases ih visited c path pq ctr e he with h2 | ⟨nb', ec', hm, hl, he'⟩
      · exact Or.inl h2
      · exact Or.inr ⟨nb', ec', List.mem_cons_of_mem _ hm, hl, he'⟩
    · rw [if_neg h] at he
      rcases ih visited c path _ _ e he with h2 | ⟨nb', ec', hm, hl, he'⟩
      · rcases List.mem_cons.mp h2 with rfl | h3
        · exact Or.inr ⟨nb, ec, List.mem_cons_self _ _,
            Option.not_isSome_iff_eq_none.mp h, rfl⟩
        · exact Or.inl h3
      · exact Or.inr ⟨nb', ec', List.mem_cons_of_mem _ hm, hl, he'⟩

theorem pushNbrs_sup : ∀ (nl : List (String × ℚ)) (visited : List (String × ℚ))
    (c : ℚ) (path : List String) (pq : List UEntry) (ctr : ℕ),
    ∀ e ∈ pq, e ∈ (pushNbrs visited c path nl (pq, ctr)).1 := by
  intro nl
  induction nl with
  | nil =>
    intro visited c path pq ctr e he
    exact he
  | cons p rest ih =>
    intro visited c path pq ctr e he
    obtain ⟨nb, ec⟩ := p
    rw [pushNbrs_cons]
    by_cases h : (look visited nb).isSome
    · rw [if_pos h]
      exact ih visited c path pq ctr e he
    · rw [if_neg h]
      exact ih visited c path _ _ e (List.mem_cons_of_mem _ he)

theorem pushNbrs_cover : ∀ (nl : List (String × ℚ)) (visited : List (String × ℚ))
    (c : ℚ) (path : List String) (pq : List UEntry) (ctr : ℕ),
    ∀ nb ec, (nb, ec) ∈ nl → look visited nb = none →
      ∃ e ∈ (pushNbrs visited c path nl (pq, ctr)).1, e.city = nb ∧ e.cost = c + ec := by
  intro nl
  induction nl with
  | nil =>
    intro visited c path pq ctr nb ec hm
    simp at hm
  | cons p rest ih =>
    intro visited c path pq ctr nb ec hm hnone
    obtain ⟨nb₀, ec₀⟩ := p
    rw [pushNbrs_cons]
    rcases List.mem_cons.mp hm with heq | hm'
    · injection heq with h1 h2
      rw [h1, h2]
      have h : ¬ (look visited nb₀).isSome = true := by
        rw [← h1, hnone]
        simp
      rw [if_neg h]
      exact ⟨⟨c + ec₀, ctr + 1, nb₀, path ++ [nb₀]⟩,
        pushNbrs_sup rest visited c path _ _ _ (List.mem_cons_self _ _), rfl, rfl⟩
    · by_cases h : (look visited nb₀).isSome
      · rw [if_pos h]
        exact ih visited c path pq ctr nb ec hm' hnone
      · rw [if_neg h]
        exact ih visited c path _ _ nb ec hm' hnone

theorem pushNbrs_len : ∀ (nl : List (String × ℚ)) (visited : List (String × ℚ))
    (c : ℚ) (path : List String) (pq : List UEntry) (ctr : ℕ),
    (pushNbrs visited c path nl (pq, ctr)).1.length ≤ pq.length + nl.length := by
  intro nl
  induction nl with
  | nil =>
    intro visited c path pq ctr
    simp [pushNbrs]
  | cons p rest ih =>
    intro visited c path pq ctr
    obtain ⟨nb, ec⟩ := p
    rw [pushNbrs_cons]
    by_cases h : (look visited nb).isSome
    · rw [if_pos h]
      have := ih visited c path pq ctr
      simp only [List.length_cons]
      omega
    · rw [if_neg h]
      have := ih visited c path (⟨c + ec, ctr + 1, nb, path ++ [nb]⟩ :: pq) (ctr + 1)
      simp only [List.length_cons] at this ⊢
      omega

/-- The cities the UCS loop can ever finalize: the start node and every
neighbor name occurring in the table. -/
def cand (W : WAdj) (s : String) : Finset String :=
  insert s (W.bind (fun kv => kv.2.map Prod.fst)).toFinset

theorem mem_cand_of_wnbrs {W : WAdj} {s u nb : String} {ec : ℚ}
    (h : (nb, ec) ∈ wnbrs W u) : nb ∈ cand W s := by
  unfold wnbrs at h
  cases hl : look W u with
  | none =>
    rw [hl] at h
    simp at h
  | some l =>
    rw [hl] at h
    refine Finset.mem_insert_of_mem ?_
    rw [List.mem_toFinset, List.mem_bind]
    exact ⟨(u, l), look_some_mem hl, List.mem_map.mpr ⟨(nb, ec), h, rfl⟩⟩

theorem mem_cand_self (W : WAdj) (s : String) : s ∈ cand W s :=
  Finset.mem_insert_self s _

/-- Decrease measure of the UCS loop. -/
def uMeasure (W : WAdj) (s : String) (pq : List UEntry)
    (visited : List (String × ℚ)) : ℕ :=
  pq.length
    + ∑ v in (cand W s).filter (fun v => (look visited v).isNone),
        (1 + (wnbrs W v).length)

theorem wnbrs_cons (k : String) (nl : List (String × ℚ)) (W : WAdj) (v : String) :
    wnbrs ((k, nl) :: W) v = if v = k then nl else wnbrs W v := by
  by_cases h : v = k <;> simp [wnbrs, look, h]

theorem sum_wnbrs_le (W : WAdj) (S : Finset String) :
    (∑ v in S, (wnbrs W v).length) ≤ totalDeg W := by
  induction W with
  | nil => simp [wnbrs, look, totalDeg]
  | cons kv W' ih =>
    obtain ⟨k, nl⟩ := kv
    have hpt : ∀ v ∈ S, (wnbrs ((k, nl) :: W') v).length
        ≤ (if v = k then nl.length else 0) + (wnbrs W' v).length := by
      intro v _
      rw [wnbrs_cons]
      split
      · omega
      · omega
    calc (∑ v in S, (wnbrs ((k, nl) :: W') v).length)
        ≤ ∑ v in S, ((if v = k then nl.length else 0) + (wnbrs W' v).length) :=
          Finset.sum_le_sum hpt
      _ = (∑ v in S, if v = k then nl.length else 0)
          + ∑ v in S, (wnbrs W' v).length := Finset.sum_add_distrib
      _ ≤ nl.length + totalDeg W' := by
          refine Nat.add_le_add ?_ ih
          rw [Finset.sum_ite_eq' S k (fun _ => nl.length)]
          split <;> omega
      _ = totalDeg ((k, nl) :: W') := by simp [totalDeg]

theorem uMeasure_stale {W : WAdj} {s : String} {pq : List UEntry}
    {visited : List (String × ℚ)} {e : UEntry} (he : e ∈ pq) :
    uMeasure W s (pq.erase e) visited < uMeasure W s pq visited := by
  unfold uMeasure
  have := List.length_erase_of_mem he
  have hlen : 0 < pq.length := List.length_pos.mpr (List.ne_nil_of_mem he)
  omega

theorem look_setK_isNone_iff (visited : List (String × ℚ)) (w v : String) (c : ℚ) :
    (look (setK visited w c) v).isNone = true
      ↔ v ≠ w ∧ (look visited v).isNone = true := by
  by_cases h : v = w
  · subst h
    rw [look_setK_self]
    simp
  · rw [look_setK_ne _ _ _ _ h]
    simp [h]

theorem uMeasure_process {W : WAdj} {s : String} {pq : List UEntry}
    {visited : List (String × ℚ)} {e : UEntry} (he : e ∈ pq)
    (hcand : e.city ∈ cand W s) (hnone : (look visited e.city).isNone = true)
    (ctr : ℕ) :
    uMeasure W s
      (pushNbrs (setK visited e.city e.cost) e.cost e.path (wnbrs W e.city)
        (pq.erase e, ctr)).1
      (setK visited e.city e.cost)
      + 2 ≤ uMeasure W s pq visited := by
  unfold uMeasure
  have hlen : (pushNbrs (setK visited e.city e.cost) e.cost e.path (wnbrs W e.city)
      (pq.erase e, ctr)).1.length ≤ (pq.erase e).length + (wnbrs W e.city).length :=
    pushNbrs_len _ _ _ _ _ _
  have herase := List.length_erase_of_mem he
  have hpos : 0 < pq.length := List.length_pos.mpr (List.ne_nil_of_mem he)
  have hfplayed : ((cand W s).filter
        (fun v => (look (setK visited e.city e.cost) v).isNone))
      = ((cand W s).filter (fun v => (look visited v).isNone)).erase e.city := by
    ext v
    rw [Finset.mem_erase, Finset.mem_filter, Finset.mem_filter]
    constructor
    · rintro ⟨hv, hnone'⟩
      obtain ⟨hne, hold⟩ := (look_setK_isNone_iff visited e.city v e.cost).mp hnone'
      exact ⟨hne, hv, hold⟩
    · rintro ⟨hne, hv, hold⟩
      exact ⟨hv, (look_setK_isNone_iff visited e.city v e.cost).mpr ⟨hne, hold⟩⟩
  have hwmem : e.city ∈ (cand W s).filter (fun v => (look visited v).isNone) :=
    Finset.mem_filter.mpr ⟨hcand, hnone⟩
  have hsum : (∑ v in ((cand W s).filter (fun v => (look visited v).isNone)).erase e.city,
        (1 + (wnbrs W v).length)) + (1 + (wnbrs W e.city).length)
      = ∑ v in (cand W s).filter (fun v => (look visited v).isNone),
        (1 + (wnbrs W v).length) :=
    Finset.sum_erase_add _ _ hwmem
  rw [hfplayed]
  omega

/-- The loop invariant of `ucsLoop`: every frontier entry carries a genuine
walk from `s` of its recorded cost; every visited cost is a lower bound on
all walk costs to that city; the frontier covers the start node and every
edge leaving the visited region; visited costs never exceed frontier costs;
the goal is not yet visited; frontier cities are candidates. -/
structure UInv (W : WAdj) (s goal : String) (pq : List UEntry)
    (visited : List (String × ℚ)) : Prop where
  entries : ∀ e ∈ pq, WalkFrom W s e.path e.city e.cost
  vmin : ∀ v dv, look visited v = some dv → ∀ p q, WalkFrom W s p v q → dv ≤ q
  covS : look visited s = none → ∃ e ∈ pq, e.city = s ∧ e.cost ≤ 0
  covE : ∀ u du, look visited u = some du → ∀ nb ec, (nb, ec) ∈ wnbrs W u →
    look visited nb = none → ∃ e ∈ pq, e.city = nb ∧ e.cost ≤ du + ec
  mono : ∀ e ∈ pq, ∀ v dv, look visited v = some dv → dv ≤ e.cost
  goalFree : look visited goal = none
  inCand : ∀ e ∈ pq, e.city ∈ cand W s

/-- Any walk to a not-yet-visited city is covered by a frontier entry of no
greater cost. -/
theorem ucs_crossing {W : WAdj} {s goal : String} {pq : List UEntry}
    {visited : List (String × ℚ)} (hW : NonNeg W)
    (inv : UInv W s goal pq visited) :
    ∀ {p : List String} {v : String} {q : ℚ}, WalkFrom W s p v q →
      look visited v = none → ∃ e ∈ pq, e.cost ≤ q := by
  intro p v q hw
  induction hw with
  | refl =>
    intro hnone
    obtain ⟨e, he, _, hc⟩ := inv.covS hnone
    exact ⟨e, he, hc⟩
  | @step p' v' q' w' c' hw' hedge ih =>
    intro hnone
    cases hv : look visited v' with
    | some dv =>
      have hdq : dv ≤ q' := inv.vmin v' dv hv _ _ hw'
      obtain ⟨e, he, _, hc⟩ := inv.covE v' dv hv w' c' hedge hnone
      exact ⟨e, he, hc.trans (by linarith)⟩
    | none =>
      obtain ⟨e, he, hc⟩ := ih hv
      have hc' : 0 ≤ c' := nonneg_wnbrs hW hedge
      exact ⟨e, he, by linarith⟩

theorem ucsLoop_nil (W : WAdj) (goal : String) (fuel : ℕ)
    (visited : List (String × ℚ)) (ctr : ℕ) :
    ucsLoop W goal fuel [] visited ctr = some ⟨[], 0, false⟩ := by
  cases fuel <;> rfl

theorem ucsLoop_cons (W : WAdj) (goal : String) (fuel : ℕ) (hd : UEntry)
    (tl : List UEntry) (visited : List (String × ℚ)) (ctr : ℕ) :
    ucsLoop W goal (fuel + 1) (hd :: tl) visited ctr
      = if stale visited (findMin hd tl) then
          ucsLoop W goal fuel ((hd :: tl).erase (findMin hd tl)) visited ctr
        else if (findMin hd tl).city = goal then
          some ⟨(findMin hd tl).path, (findMin hd tl).cost, true⟩
        else
          ucsLoop W goal fuel
            (pushNbrs (setK visited (findMin hd tl).city (findMin hd tl).cost)
              (findMin hd tl).cost (findMin hd tl).path
              (wnbrs W (findMin hd tl).city)
              ((hd :: tl).erase (findMin hd tl), ctr)).1
            (setK visited (findMin hd tl).city (findMin hd tl).cost)
            (pushNbrs (setK visited (findMin hd tl).city (findMin hd tl).cost)
              (findMin hd tl).cost (findMin hd tl).path
              (wnbrs W (findMin hd tl).city)
              ((hd :: tl).erase (findMin hd tl), ctr)).2 := rfl

/-- Main induction for UCS: with the invariant and enough fuel, the loop
returns; on a reachable goal it returns a minimal-cost walk, otherwise the
failure result. -/
theorem ucsLoop_correct (W : WAdj) (hW : NonNeg W) (s goal : String) :
    ∀ (fuel : ℕ) (pq : List UEntry) (visited : List (String × ℚ)) (ctr : ℕ),
      UInv W s goal pq visited →
      uMeasure W s pq visited ≤ fuel →
      ∃ r, ucsLoop W goal fuel pq visited ctr = some r
        ∧ ((∃ p q, WalkFrom W s p goal q) →
            r.success = true ∧ WalkFrom W s r.path goal r.total_cost
            ∧ ∀ p q, WalkFrom W s p goal q → r.total_cost ≤ q)
        ∧ ((¬ ∃ p q, WalkFrom W s p goal q) → r = ⟨[], 0, false⟩) := by
  intro fuel
  induction fuel with
  | zero =>
    intro pq visited ctr inv hM
    cases pq with
    | nil =>
      refine ⟨⟨[], 0, false⟩, ucsLoop_nil W goal 0 visited ctr, ?_, fun _ => rfl⟩
      rintro ⟨p, q, hwalk⟩
      exfalso
      obtain ⟨e, he, _⟩ := ucs_crossing hW inv hwalk inv.goalFree
      simp at he
    | cons hd tl =>
      exfalso
      unfold uMeasure at hM
      simp [List.length_cons] at hM
  | succ fuel ih =>
    intro pq visited ctr inv hM
    cases pq with
    | nil =>
      refine ⟨⟨[], 0, false⟩, ucsLoop_nil W goal (fuel + 1) visited ctr, ?_, fun _ => rfl⟩
      rintro ⟨p, q, hwalk⟩
      exfalso
      obtain ⟨e, he, _⟩ := ucs_crossing hW inv hwalk inv.goalFree
      simp at he
    | cons hd tl =>
      obtain ⟨hemem, hmin1, hmin2⟩ := findMin_spec tl hd
      have hemin : ∀ x ∈ hd :: tl, (findMin hd tl).cost ≤ x.cost := by
        intro x hx
        rcases List.mem_cons.mp hx with rfl | hx'
        · exact hmin1
        · exact hmin2 x hx'
      rw [ucsLoop_cons]
      by_cases hst : stale visited (findMin hd tl) = true
      · rw [if_pos hst]
        have herasesub : ∀ x ∈ (hd :: tl).erase (findMin hd tl), x ∈ hd :: tl :=
          fun x hx => List.mem_of_mem_erase hx
        obtain ⟨vc, hvc, hvcle⟩ : ∃ vc, look visited (findMin hd tl).city = some vc
            ∧ vc ≤ (findMin hd tl).cost := by
          unfold stale at hst
          cases hlk : look visited (findMin hd tl).city with
          | none => rw [hlk] at hst; simp at hst
          | some vc =>
            rw [hlk] at hst
            exact ⟨vc, rfl, of_decide_eq_true hst⟩
        have inv' : UInv W s goal ((hd :: tl).erase (findMin hd tl)) visited := by
          refine ⟨fun e he => inv.entries e (herasesub e he),
            inv.vmin, ?_, ?_,
            fun e he => inv.mono e (herasesub e he),
            inv.goalFree,
            fun e he => inv.inCand e (herasesub e he)⟩
          · intro hnone
            obtain ⟨e', he', hcity, hc⟩ := inv.covS hnone
            have hne : e' ≠ findMin hd tl := by
              intro heq
              rw [heq] at hcity
              rw [hcity] at hvc
              rw [hnone] at hvc
              exact Option.noConfusion hvc
            exact ⟨e', (List.mem_erase_of_ne hne).mpr he', hcity, hc⟩
          · intro u du hu nb ec hedge hnbnone
            obtain ⟨e', he', hcity, hc⟩ := inv.covE u du hu nb ec hedge hnbnone
            have hne : e' ≠ findMin hd tl := by
              intro heq
              rw [heq] at hcity
              rw [hcity] at hvc
              rw [hnbnone] at hvc
              exact Option.noConfusion hvc
            exact ⟨e', (List.mem_erase_of_ne hne).mpr he', hcity, hc⟩
        have hM' : uMeasure W s ((hd :: tl).erase (findMin hd tl)) visited ≤ fuel := by
          have := @uMeasure_stale W s (hd :: tl) visited (findMin hd tl) hemem
          omega
        exact ih _ visited ctr inv' hM'
      · rw [if_neg hst]
        have hnone : look visited (findMin hd tl).city = none := by
          cases hlk : look visited (findMin hd tl).city with
          | none => rfl
          | some vc =>
            exfalso
            apply hst
            unfold stale
            rw [hlk]
            exact decide_eq_true (inv.mono _ hemem _ vc hlk)
        by_cases hgoal : (findMin hd tl).city = goal
        · rw [if_pos hgoal]
          refine ⟨⟨(findMin hd tl).path, (findMin hd tl).cost, true⟩, rfl, ?_, ?_⟩
          · intro _
            refine ⟨rfl, ?_, ?_⟩
            · exact hgoal ▸ inv.entries _ hemem
            · intro p q hwq
              obtain ⟨e', he', hc'⟩ := ucs_crossing hW inv hwq (hgoal ▸ hnone)
              exact (hemin e' he').trans hc'
          · intro hnr
            exact absurd ⟨(findMin hd tl).path, (findMin hd tl).cost,
              hgoal ▸ inv.entries _ hemem⟩ hnr
        · rw [if_neg hgoal]
          have hpushmem := pushNbrs_mem (wnbrs W (findMin hd tl).city)
            (setK visited (findMin hd tl).city (findMin hd tl).cost)
            (findMin hd tl).cost (findMin hd tl).path
            ((hd :: tl).erase (findMin hd tl)) ctr
          have hpushsup := pushNbrs_sup (wnbrs W (findMin hd tl).city)
            (setK visited (findMin hd tl).city (findMin hd tl).cost)
            (findMin hd tl).cost (findMin hd tl).path
            ((hd :: tl).erase (findMin hd tl)) ctr
          have hvminw : ∀ p q, WalkFrom W s p (findMin hd tl).city q →
              (findMin hd tl).cost ≤ q := by
            intro p q hwq
            obtain ⟨e', he', hc'⟩ := ucs_crossing hW inv hwq hnone
            exact (hemin e' he').trans hc'
          have inv' : UInv W s goal
              (pushNbrs (setK visited (findMin hd tl).city (findMin hd tl).cost)
                (findMin hd tl).cost (findMin hd tl).path
                (wnbrs W (findMin hd tl).city)
                ((hd :: tl).erase (findMin hd tl), ctr)).1
              (setK visited (findMin hd tl).city (findMin hd tl).cost) := by
            constructor
            · intro e' he'
              rcases hpushmem e' he' with h2 | ⟨nb, ec, hedge, _, heq⟩
              · exact inv.entries e' (List.mem_of_mem_erase h2)
              · rw [heq]
                exact WalkFrom.step (inv.entries _ hemem) hedge
            · intro v dv hv p q hwq
              by_cases hveq : v = (findMin hd tl).city
              · subst hveq
                rw [look_setK_self] at hv
                obtain rfl : (findMin hd tl).cost = dv := Option.some.injEq .. ▸ hv
                exact hvminw p q hwq
              · rw [look_setK_ne _ _ _ _ hveq] at hv
                exact inv.vmin v dv hv p q hwq
            · intro hnone'
              have hsne : s ≠ (findMin hd tl).city := by
                intro heq
                rw [heq, look_setK_self] at hnone'
                exact Option.noConfusion hnone'
              rw [look_setK_ne _ _ _ _ hsne] at hnone'
              obtain ⟨e', he', hcity, hc⟩ := inv.covS hnone'
              have hne : e' ≠ findMin hd tl := by
                intro heq
                rw [heq] at hcity
                exact hsne hcity.symm
              exact ⟨e', hpushsup e' ((List.mem_erase_of_ne hne).mpr he'), hcity, hc⟩
            · intro u du hu nb ec hedge hnbnone
              by_cases hueq : u = (findMin hd tl).city
              · subst hueq
                rw [look_setK_self] at hu
                obtain rfl : (findMin hd tl).cost = du := Option.some.injEq .. ▸ hu
                obtain ⟨e', he', hcity, hcost⟩ := pushNbrs_cover
                  (wnbrs W (findMin hd tl).city) _ (findMin hd tl).cost
                  (findMin hd tl).path
                  ((hd :: tl).erase (findMin hd tl)) ctr nb ec hedge hnbnone
                exact ⟨e', he', hcity, le_of_eq hcost⟩
              · rw [look_setK_ne _ _ _ _ hueq] at hu
                have hnbne : nb ≠ (findMin hd tl).city := by
                  intro heq
                  rw [heq, look_setK_self] at hnbnone
                  exact Option.noConfusion hnbnone
                rw [look_setK_ne _ _ _ _ hnbne] at hnbnone
                obtain ⟨e', he', hcity, hc⟩ := inv.covE u du hu nb ec hedge hnbnone
                have hne : e' ≠ findMin hd tl := by
                  intro heq
                  rw [heq] at hcity
                  exact hnbne hcity.symm
                exact ⟨e', hpushsup e' ((List.mem_erase_of_ne hne).mpr he'), hcity, hc⟩
            · intro e' he' v dv hv
              by_cases hveq : v = (findMin hd tl).city
              · subst hveq
                rw [look_setK_self] at hv
                obtain rfl : (findMin hd tl).cost = dv := Option.some.injEq .. ▸ hv
                rcases hpushmem e' he' with h2 | ⟨nb, ec, hedge, _, heq⟩
                · exact hemin e' (List.mem_of_mem_erase h2)
                · rw [heq]
                  have : 0 ≤ ec := nonneg_wnbrs hW hedge
                  show (findMin hd tl).cost ≤ (findMin hd tl).cost + ec
                  linarith
              · rw [look_setK_ne _ _ _ _ hveq] at hv
                rcases hpushmem e' he' with h2 | ⟨nb, ec, hedge, _, heq⟩
                · exact inv.mono e' (List.mem_of_mem_erase h2) v dv hv
                · rw [heq]
                  have h1 : dv ≤ (findMin hd tl).cost := inv.mono _ hemem v dv hv
                  have h2 : 0 ≤ ec := nonneg_wnbrs hW hedge
                  show dv ≤ (findMin hd tl).cost + ec
                  linarith
            · have hgne : goal ≠ (findMin hd tl).city := fun heq => hgoal heq.symm
              rw [look_setK_ne _ _ _ _ hgne]
              exact inv.goalFree
            · intro e' he'
              rcases hpushmem e' he' with h2 | ⟨nb, ec, hedge, _, heq⟩
              · exact inv.inCand e' (List.mem_of_mem_erase h2)
              · rw [heq]
                exact mem_cand_of_wnbrs hedge
          have hM' : uMeasure W s
              (pushNbrs (setK visited (findMin hd tl).city (findMin hd tl).cost)
                (findMin hd tl).cost (findMin hd tl).path
                (wnbrs W (findMin hd tl).city)
                ((hd :: tl).erase (findMin hd tl), ctr)).1
              (setK visited (findMin hd tl).city (findMin hd tl).cost) ≤ fuel := by
            have := @uMeasure_process W s (hd :: tl) visited (findMin hd tl) hemem
              (inv.inCand _ hemem) (by rw [hnone]; rfl) ctr
            omega
          exact ih _ _ _ inv' hM'

theorem WalkFrom.head {W : WAdj} {s : String} {p : List String} {v : String} {q : ℚ}
    (h : WalkFrom W s p v q) : p.head? = some s := by
  induction h with
  | refl => rfl
  | @step p' v' q' w' c' hw' hedge ih =>
    cases p' with
    | nil => simp at ih
    | cons a t =>
      simp only [List.head?_cons, Option.some.injEq] at ih
      simp [ih]

theorem WalkFrom.last {W : WAdj} {s : String} {p : List String} {v : String} {q : ℚ}
    (h : WalkFrom W s p v q) : p.getLast? = some v := by
  induction h with
  | refl => rfl
  | step hw' hedge ih => exact List.getLast?_concat _

theorem card_cand_le (W : WAdj) (s : String) : (cand W s).card ≤ 1 + totalDeg W := by
  unfold cand
  calc (insert s (W.bind fun kv => kv.2.map Prod.fst).toFinset).card
      ≤ (W.bind fun kv => kv.2.map Prod.fst).toFinset.card + 1 :=
        Finset.card_insert_le _ _
    _ ≤ (W.bind fun kv => kv.2.map Prod.fst).length + 1 :=
        Nat.add_le_add_right (W.bind fun kv => kv.2.map Prod.fst).toFinset_card_le 1
    _ = 1 + totalDeg W := by
        rw [List.length_bind]
        unfold totalDeg
        rw [Nat.add_comm]
        congr 1
        apply congrArg
        apply List.map_congr_left
        intro kv _
        simp

theorem uMeasure_init_le (W : WAdj) (s : String) (e : UEntry) :
    uMeasure W s [e] [] ≤ fuelBound W := by
  unfold uMeasure fuelBound
  have hfilter : ((cand W s).filter (fun v => (look ([] : List (String × ℚ)) v).isNone))
      = cand W s :=
    Finset.filter_true_of_mem (fun v _ => rfl)
  rw [hfilter]
  have hsum : (∑ v in cand W s, (1 + (wnbrs W v).length))
      = (cand W s).card + ∑ v in cand W s, (wnbrs W v).length := by
    rw [Finset.sum_add_distrib, Finset.sum_const, smul_eq_mul, mul_one]
  have h1 := card_cand_le W s
  have h2 := sum_wnbrs_le W (cand W s)
  have h3 : totalDeg W ≤ totalDeg W * (1 + totalDeg W) := by
    have : totalDeg W * 1 ≤ totalDeg W * (1 + totalDeg W) :=
      Nat.mul_le_mul_left _ (by omega)
    omega
  simp only [List.length_singleton]
  omega

/-- Correctness of `ucsSearch`, stated as a reusable lemma. -/
theorem ucsSearch_correct (W : WAdj) (s goal : String) (hW : NonNeg W)
    (hs : (look W s).isSome) (hg : (look W goal).isSome) :
    ((∃ p q, WalkFrom W s p goal q) →
      (ucsSearch W s goal).success = true
      ∧ WalkFrom W s (ucsSearch W s goal).path goal (ucsSearch W s goal).total_cost
      ∧ (ucsSearch W s goal).path.head? = some s
      ∧ (ucsSearch W s goal).path.getLast? = some goal
      ∧ ∀ p q, WalkFrom W s p goal q → (ucsSearch W s goal).total_cost ≤ q)
    ∧ ((¬ ∃ p q, WalkFrom W s p goal q) → (ucsSearch W s goal).success = false) := by
  obtain ⟨a, ha⟩ := Option.isSome_iff_exists.mp hs
  obtain ⟨b, hb⟩ := Option.isSome_iff_exists.mp hg
  unfold ucsSearch
  rw [if_neg (by simp [ha]), if_neg (by simp [hb])]
  by_cases hsg : s = goal
  · rw [if_pos hsg]
    constructor
    · intro _
      refine ⟨rfl, ?_, rfl, ?_, ?_⟩
      · exact hsg ▸ WalkFrom.refl
      · show [s].getLast? = some goal
        rw [hsg]
        rfl
      · intro p q hwq
        exact WalkFrom.nonneg hW hwq
    · intro hnr
      exact absurd ⟨[s], 0, hsg ▸ WalkFrom.refl⟩ hnr
  · rw [if_neg hsg]
    have inv₀ : UInv W s goal [⟨0, 0, s, [s]⟩] [] := by
      refine ⟨?_, ?_, ?_, ?_, ?_, rfl, ?_⟩
      · intro e he
        rw [List.mem_singleton.mp he]
        exact WalkFrom.refl
      · intro v dv h
        simp [look] at h
      · intro _
        exact ⟨⟨0, 0, s, [s]⟩, List.mem_singleton.mpr rfl, rfl, le_refl 0⟩
      · intro u du h
        simp [look] at h
      · intro e _ v dv h
        simp [look] at h
      · intro e he
        rw [List.mem_singleton.mp he]
        exact mem_cand_self W s
    obtain ⟨r, hr, hpos, hneg⟩ := ucsLoop_correct W hW s goal (fuelBound W)
      [⟨0, 0, s, [s]⟩] [] 0 inv₀ (uMeasure_init_le W s _)
    rw [hr]
    constructor
    · intro hreach
      obtain ⟨h1, h2, h3⟩ := hpos hreach
      exact ⟨h1, h2, h2.head, h2.last, h3⟩
    · intro hnr
      rw [hneg hnr]

/-- C1: on a weighted graph with non-negative edge costs and both endpoints
present, `UniformCostSearch.search` succeeds exactly when the goal is
reachable; on success its path is a walk from start to goal whose total cost
is minimal among all walks from start to goal, and on an unreachable goal it
reports failure. -/
theorem ucs_optimal (W : WAdj) (s goal : String) (hW : NonNeg W)
    (hs : (look W s).isSome) (hg : (look W goal).isSome) :
    ((∃ p q, WalkFrom W s p goal q) →
      (ucsSearch W s goal).success = true
      ∧ WalkFrom W s (ucsSearch W s goal).path goal (ucsSearch W s goal).total_cost
      ∧ (ucsSearch W s goal).path.head? = some s
      ∧ (ucsSearch W s goal).path.getLast? = some goal
      ∧ ∀ p q, WalkFrom W s p goal q → (ucsSearch W s goal).total_cost ≤ q)
    ∧ ((¬ ∃ p q, WalkFrom W s p goal q) → (ucsSearch W s goal).success = false) :=
  ucsSearch_correct W s goal hW hs hg

unseal Rat.add in
/-- C1 witness: on the concrete graph `mgNoTieW` with goal `B` reachable
from `S`, UCS succeeds and its cost is bounded by the exhibited walk. -/
theorem ucs_optimal_witness :
    NonNeg mgNoTieW
    ∧ (ucsSearch mgNoTieW "S" "B").success = true
    ∧ (ucsSearch mgNoTieW "S" "B").total_cost ≤ 0 + 2 := by
  have hw : WalkFrom mgNoTieW "S" (["S"] ++ ["B"]) "B" (0 + 2) :=
    WalkFrom.step WalkFrom.refl (by decide)
  have h := ucs_optimal mgNoTieW "S" "B" (by decide) (by decide) (by decide)
  exact ⟨by decide, (h.1 ⟨_, _, hw⟩).1, (h.1 ⟨_, _, hw⟩).2.2.2.2 _ _ hw⟩

/-! ## Correctness of A* with the all-zero heuristic (claim C2) -/

theorem findMinA_spec : ∀ (l : List AEntry) (e : AEntry),
    findMinA e l ∈ e :: l ∧ (findMinA e l).f ≤ e.f
    ∧ ∀ x ∈ l, (findMinA e l).f ≤ x.f := by
  intro l
  induction l with
  | nil =>
    intro e
    exact ⟨List.mem_singleton.mpr rfl, le_refl _, by simp⟩
  | cons x l ih =>
    intro e
    by_cases h : aLt x e
    · have hstep : findMinA e (x :: l) = findMinA x l := by
        show findMinA (if aLt x e then x else e) l = _
        rw [if_pos h]
      obtain ⟨hmem, hle, hall⟩ := ih x
      have hxe : x.f ≤ e.f := by
        rcases h with h | ⟨h, _⟩
        · exact h.le
        · exact h.le
      refine ⟨?_, ?_, ?_⟩
      · rw [hstep]
        rcases List.mem_cons.mp hmem with h2 | h2
        · rw [h2]
          exact List.mem_cons_of_mem e (List.mem_cons_self x l)
        · exact List.mem_cons_of_mem e (List.mem_cons_of_mem x h2)
      · rw [hstep]
        exact hle.trans hxe
      · intro y hy
        rw [hstep]
        rcases List.mem_cons.mp hy with rfl | hy'
        · exact hle
        · exact hall y hy'
    · have hstep : findMinA e (x :: l) = findMinA e l := by
        show findMinA (if aLt x e then x else e) l = _
        rw [if_neg h]
      obtain ⟨hmem, hle, hall⟩ := ih e
      have hex : e.f ≤ x.f := by
        rcases lt_or_le x.f e.f with h2 | h2
        · exact absurd (Or.inl h2) h
        · exact h2
      refine ⟨?_, ?_, ?_⟩
      · rw [hstep]
        rcases List.mem_cons.mp hmem with h2 | h2
        · rw [h2]
          exact List.mem_cons_self e (x :: l)
        · exact List.mem_cons_of_mem e (List.mem_cons_of_mem x h2)
      · rw [hstep]
        exact hle
      · intro y hy
        rw [hstep]
        rcases List.mem_cons.mp hy with rfl | hy'
        · exact hle.trans hex
        · exact hall y hy'

theorem apush_cons (H : List (String × ℚ)) (gv : ℚ) (path : List String)
    (nb : String) (ec : ℚ) (rest : List (String × ℚ)) (gs : List (String × ℚ))
    (pq : List AEntry) (ctr : ℕ) :
    apush H gv path ((nb, ec) :: rest) (gs, pq, ctr)
      = if (look gs nb).isNone ∨ gv + ec < (look gs nb).getD 0 then
          apush H gv path rest
            (setK gs nb (gv + ec),
             ⟨gv + ec + getH H nb, gv + ec, ctr + 1, nb, path ++ [nb]⟩ :: pq, ctr + 1)
        else apush H gv path rest (gs, pq, ctr) := rfl

theorem apush_noop : ∀ (nl : List (String × ℚ)) (H : List (String × ℚ)) (gv : ℚ)
    (path : List String) (gs : List (String × ℚ)) (pq : List AEntry) (ctr : ℕ),
    (∀ nb ec, (nb, ec) ∈ nl → ∃ gw, look gs nb = some gw ∧ gw ≤ gv + ec) →
    apush H gv path nl (gs, pq, ctr) = (gs, pq, ctr) := by
  intro nl
  induction nl with
  | nil =>
    intro H gv path gs pq ctr _
    rfl
  | cons p rest ih =>
    intro H gv path gs pq ctr h
    obtain ⟨nb, ec⟩ := p
    obtain ⟨gw, hgw, hle⟩ := h nb ec (List.mem_cons_self _ _)
    rw [apush_cons, if_neg (by
      rw [hgw]
      simp only [Option.isNone_some, Option.getD_some]
      rintro (h1 | h1)
      · exact Bool.noConfusion h1
      · exact absurd h1 (not_lt.mpr hle))]
    exact ih H gv path gs pq ctr fun nb' ec' hm => h nb' ec' (List.mem_cons_of_mem _ hm)

theorem apush_pq_sup : ∀ (nl : List (String × ℚ)) (H : List (String × ℚ)) (gv : ℚ)
    (path : List String) (gs : List (String × ℚ)) (pq : List AEntry) (ctr : ℕ),
    ∀ e ∈ pq, e ∈ (apush H gv path nl (gs, pq, ctr)).2.1 := by
  intro nl
  induction nl with
  | nil =>
    intro H gv path gs pq ctr e he
    exact he
  | cons p rest ih =>
    intro H gv path gs pq ctr e he
    obtain ⟨nb, ec⟩ := p
    rw [apush_cons]
    by_cases h : (look gs nb).isNone ∨ gv + ec < (look gs nb).getD 0
    · rw [if_pos h]
      exact ih H gv path _ _ _ e (List.mem_cons_of_mem _ he)
    · rw [if_neg h]
      exact ih H gv path _ _ _ e he

theorem apush_pq_mem : ∀ (nl : List (String × ℚ)) (H : List (String × ℚ)) (gv : ℚ)
    (path : List String) (gs : List (String × ℚ)) (pq : List AEntry) (ctr : ℕ),
    ∀ e ∈ (apush H gv path nl (gs, pq, ctr)).2.1,
      e ∈ pq ∨ ∃ nb ec, (nb, ec) ∈ nl ∧ e.city = nb ∧ e.g = gv + ec
        ∧ e.f = gv + ec + getH H nb ∧ e.path = path ++ [nb] := by
  intro nl
  induction nl with
  | nil =>
    intro H gv path gs pq ctr e he
    exact Or.inl he
  | cons p rest ih =>
    intro H gv path gs pq ctr e he
    obtain ⟨nb, ec⟩ := p
    rw [apush_cons] at he
    by_cases h : (look gs nb).isNone ∨ gv + ec < (look gs nb).getD 0
    · rw [if_pos h] at he
      rcases ih H gv path _ _ _ e he with h2 | ⟨nb', ec', hm, h3, h4, h5, h6⟩
      · rcases List.mem_cons.mp h2 with rfl | h3
        · exact Or.inr ⟨nb, ec, List.mem_cons_self _ _, rfl, rfl, rfl, rfl⟩
        · exact Or.inl h3
      · exact Or.inr ⟨nb', ec', List.mem_cons_of_mem _ hm, h3, h4, h5, h6⟩
    · rw [if_neg h] at he
      rcases ih H gv path _ _ _ e he with h2 | ⟨nb', ec', hm, h3, h4, h5, h6⟩
      · exact Or.inl h2
      · exact Or.inr ⟨nb', ec', List.mem_cons_of_mem _ hm, h3, h4, h5, h6⟩

theorem apush_gs_mono : ∀ (nl : List (String × ℚ)) (H : List (String × ℚ)) (gv : ℚ)
    (path : List String) (gs : List (String × ℚ)) (pq : List AEntry) (ctr : ℕ),
    ∀ v gv₀, look gs v = some gv₀ →
      ∃ gv', look (apush H gv path nl (gs, pq, ctr)).1 v = some gv' ∧ gv' ≤ gv₀ := by
  intro nl
  induction nl with
  | nil =>
    intro H gv path gs pq ctr v gv₀ h
    exact ⟨gv₀, h, le_refl _⟩
  | cons p rest ih =>
    intro H gv path gs pq ctr v gv₀ h
    obtain ⟨nb, ec⟩ := p
    rw [apush_cons]
    by_cases hc : (look gs nb).isNone ∨ gv + ec < (look gs nb).getD 0
    · rw [if_pos hc]
      by_cases hv : v = nb
      · subst hv
        have hset : look (setK gs v (gv + ec)) v = some (gv + ec) := look_setK_self _ _ _
        obtain ⟨gv', h1, h2⟩ := ih H gv path _ _ _ v (gv + ec) hset
        refine ⟨gv', h1, h2.trans ?_⟩
        rcases hc with hc | hc
        · rw [h] at hc
          exact absurd hc (by simp)
        · rw [h] at hc
          simp only [Option.getD_some] at hc
          exact hc.le
      · have hset : look (setK gs nb (gv + ec)) v = some gv₀ := by
          rw [look_setK_ne _ _ _ _ hv]
          exact h
        exact ih H gv path _ _ _ v gv₀ hset
    · rw [if_neg hc]
      exact ih H gv path _ _ _ v gv₀ h

theorem apush_gs_src : ∀ (nl : List (String × ℚ)) (H : List (String × ℚ)) (gv : ℚ)
    (path : List String) (gs : List (String × ℚ)) (pq : List AEntry) (ctr : ℕ),
    ∀ v gv', look (apush H gv path nl (gs, pq, ctr)).1 v = some gv' →
      look gs v = some gv'
      ∨ ∃ ec, (v, ec) ∈ nl ∧ gv' = gv + ec
          ∧ ∃ e ∈ (apush H gv path nl (gs, pq, ctr)).2.1, e.city = v ∧ e.g = gv' := by
  intro nl
  induction nl with
  | nil =>
    intro H gv path gs pq ctr v gv' h
    exact Or.inl h
  | cons p rest ih =>
    intro H gv path gs pq ctr v gv' h
    obtain ⟨nb, ec⟩ := p
    rw [apush_cons] at h ⊢
    by_cases hc : (look gs nb).isNone ∨ gv + ec < (look gs nb).getD 0
    · rw [if_pos hc] at h ⊢
      rcases ih H gv path _ _ _ v gv' h with h2 | ⟨ec', hm, h3, e, he, h4, h5⟩
      · by_cases hv : v = nb
        · subst hv
          rw [look_setK_self] at h2
          obtain rfl : gv + ec = gv' := Option.some.injEq .. ▸ h2
          refine Or.inr ⟨ec, List.mem_cons_self _ _, rfl,
            ⟨gv + ec + getH H v, gv + ec, ctr + 1, v, path ++ [v]⟩, ?_, rfl, rfl⟩
          exact apush_pq_sup rest H gv path _ _ _ _ (List.mem_cons_self _ _)
        · rw [look_setK_ne _ _ _ _ hv] at h2
          exact Or.inl h2
      · exact Or.inr ⟨ec', List.mem_cons_of_mem _ hm, h3, e, he, h4, h5⟩
    · rw [if_neg hc] at h ⊢
      rcases ih H gv path _ _ _ v gv' h with h2 | ⟨ec', hm, h3, e, he, h4, h5⟩
      · exact Or.inl h2
      · exact Or.inr ⟨ec', List.mem_cons_of_mem _ hm, h3, e, he, h4, h5⟩

theorem apush_cover : ∀ (nl : List (String × ℚ)) (H : List (String × ℚ)) (gv : ℚ)
    (path : List String) (gs : List (String × ℚ)) (pq : List AEntry) (ctr : ℕ),
    ∀ nb ec, (nb, ec) ∈ nl →
      ∃ gw, look (apush H gv path nl (gs, pq, ctr)).1 nb = some gw ∧ gw ≤ gv + ec := by
  intro nl
  induction nl with
  | nil =>
    intro H gv path gs pq ctr nb ec hm
    simp at hm
  | cons p rest ih =>
    intro H gv path gs pq ctr nb ec hm
    obtain ⟨nb₀, ec₀⟩ := p
    rw [apush_cons]
    rcases List.mem_cons.mp hm with heq | hm'
    · injection heq with h1 h2
      by_cases hc : (look gs nb₀).isNone ∨ gv + ec₀ < (look gs nb₀).getD 0
      · rw [if_pos hc]
        have hset : look (setK gs nb₀ (gv + ec₀)) nb₀ = some (gv + ec₀) :=
          look_setK_self _ _ _
        obtain ⟨gw, hg1, hg2⟩ := apush_gs_mono rest H gv path _ _ _ nb₀ (gv + ec₀) hset
        rw [h1, h2]
        exact ⟨gw, hg1, hg2⟩
      · rw [if_neg hc]
        push_neg at hc
        obtain ⟨hc1, hc2⟩ := hc
        obtain ⟨g₀, hg₀⟩ : ∃ g₀, look gs nb₀ = some g₀ := by
          cases hl : look gs nb₀ with
          | none => rw [hl] at hc1; simp at hc1
          | some g => exact ⟨g, rfl⟩
        rw [hg₀] at hc2
        simp only [Option.getD_some] at hc2
        obtain ⟨gw, hg1, hg2⟩ := apush_gs_mono rest H gv path _ _ _ nb₀ g₀ hg₀
        rw [h1, h2]
        exact ⟨gw, hg1, hg2.trans hc2⟩
    · by_cases hc : (look gs nb₀).isNone ∨ gv + ec₀ < (look gs nb₀).getD 0
      · rw [if_pos hc]
        exact ih H gv path _ _ _ nb ec hm'
      · rw [if_neg hc]
        exact ih H gv path _ _ _ nb ec hm'

theorem apush_len : ∀ (nl : List (String × ℚ)) (H : List (String × ℚ)) (gv : ℚ)
    (path : List String) (gs : List (String × ℚ)) (pq : List AEntry) (ctr : ℕ),
    (apush H gv path nl (gs, pq, ctr)).2.1.length ≤ pq.length + nl.length := by
  intro nl
  induction nl with
  | nil =>
    intro H gv path gs pq ctr
    simp [apush]
  | cons p rest ih =>
    intro H gv path gs pq ctr
    obtain ⟨nb, ec⟩ := p
    rw [apush_cons]
    by_cases hc : (look gs nb).isNone ∨ gv + ec < (look gs nb).getD 0
    · rw [if_pos hc]
      have := ih H gv path (setK gs nb (gv + ec))
        (⟨gv + ec + getH H nb, gv + ec, ctr + 1, nb, path ++ [nb]⟩ :: pq) (ctr + 1)
      simp only [List.length_cons] at this ⊢
      omega
    · rw [if_neg hc]
      have := ih H gv path gs pq ctr
      simp only [List.length_cons] at this ⊢
      omega

/-- The loop invariant of `astarLoop` under the all-zero heuristic. `done`
is the ghost list of cities already expanded at their optimal cost: their
`g_scores` are optimal, their outgoing edges have been relaxed, and every
city holding a `g_score` but not yet expanded has a matching frontier
entry. -/
structure AInv (W : WAdj) (H : List (String × ℚ)) (s goal : String)
    (pq : List AEntry) (gs : List (String × ℚ)) (done : List String) : Prop where
  entries : ∀ e ∈ pq, WalkFrom W s e.path e.city e.g
  fg : ∀ e ∈ pq, e.f = e.g
  gsAch : ∀ v gv, look gs v = some gv → ∃ p, WalkFrom W s p v gv
  entryGs : ∀ e ∈ pq, ∃ gv, look gs e.city = some gv ∧ gv ≤ e.g
  doneOpt : ∀ v ∈ done, ∃ gv, look gs v = some gv ∧ ∀ p q, WalkFrom W s p v q → gv ≤ q
  doneEdges : ∀ u ∈ done, ∀ gu, look gs u = some gu → ∀ nb ec, (nb, ec) ∈ wnbrs W u →
    ∃ gw, look gs nb = some gw ∧ gw ≤ gu + ec
  frontier : ∀ w gw, look gs w = some gw → w ∉ done → ∃ e ∈ pq, e.city = w ∧ e.g ≤ gw
  startGs : ∃ gv, look gs s = some gv ∧ gv ≤ 0
  goalFree : goal ∉ done
  inCand : ∀ e ∈ pq, e.city ∈ cand W s

/-- Any walk to a not-yet-expanded city is covered by a frontier entry of no
greater accumulated cost. -/
theorem astar_crossing {W : WAdj} {H : List (String × ℚ)} {s goal : String}
    {pq : List AEntry} {gs : List (String × ℚ)} {done : List String}
    (hW : NonNeg W) (inv : AInv W H s goal pq gs done) :
    ∀ {p : List String} {v : String} {q : ℚ}, WalkFrom W s p v q →
      v ∉ done → ∃ e ∈ pq, e.g ≤ q := by
  intro p v q hw
  induction hw with
  | refl =>
    intro hnd
    obtain ⟨gv, hgv, hle⟩ := inv.startGs
    obtain ⟨e, he, _, hge⟩ := inv.frontier s gv hgv hnd
    exact ⟨e, he, hge.trans hle⟩
  | @step p' v' q' w' c' hw' hedge ih =>
    intro hnd
    by_cases hv : v' ∈ done
    · obtain ⟨gu, hgu, hmin⟩ := inv.doneOpt v' hv
      obtain ⟨gw, hgw, hle⟩ := inv.doneEdges v' hv gu hgu w' c' hedge
      obtain ⟨e, he, _, hge⟩ := inv.frontier w' gw hgw hnd
      have h1 : gu ≤ q' := hmin _ _ hw'
      have h2 : e.g ≤ gu + c' := hge.trans hle
      exact ⟨e, he, by linarith⟩
    · obtain ⟨e, he, hge⟩ := ih hv
      have hc : 0 ≤ c' := nonneg_wnbrs hW hedge
      exact ⟨e, he, by linarith⟩

/-- Decrease measure of the A* loop (over the ghost `done` list). -/
def aMeasure (W : WAdj) (s : String) (pq : List AEntry) (done : List String) : ℕ :=
  pq.length
    + ∑ v in (cand W s).filter (fun v => ¬ v ∈ done), (1 + (wnbrs W v).length)

theorem aMeasure_erase {W : WAdj} {s : String} {pq : List AEntry}
    {done : List String} {e : AEntry} (he : e ∈ pq) :
    aMeasure W s (pq.erase e) done < aMeasure W s pq done := by
  unfold aMeasure
  have := List.length_erase_of_mem he
  have hlen : 0 < pq.length := List.length_pos.mpr (List.ne_nil_of_mem he)
  omega

theorem aMeasure_proc {W : WAdj} {s : String} {pq : List AEntry}
    {done : List String} {e : AEntry} (he : e ∈ pq) (hcand : e.city ∈ cand W s)
    (hnd : e.city ∉ done) (pq' : List AEntry)
    (hlen : pq'.length ≤ (pq.erase e).length + (wnbrs W e.city).length) :
    aMeasure W s pq' (e.city :: done) + 2 ≤ aMeasure W s pq done := by
  unfold aMeasure
  have herase := List.length_erase_of_mem he
  have hpos : 0 < pq.length := List.length_pos.mpr (List.ne_nil_of_mem he)
  have hfilter : ((cand W s).filter (fun v => ¬ v ∈ e.city :: done))
      = ((cand W s).filter (fun v => ¬ v ∈ done)).erase e.city := by
    ext v
    rw [Finset.mem_erase, Finset.mem_filter, Finset.mem_filter]
    simp only [List.mem_cons]
    constructor
    · rintro ⟨hv, hnot⟩
      push_neg at hnot
      exact ⟨hnot.1, hv, hnot.2⟩
    · rintro ⟨hne, hv, hnot⟩
      refine ⟨hv, ?_⟩
      push_neg
      exact ⟨hne, hnot⟩
  have hwmem : e.city ∈ (cand W s).filter (fun v => ¬ v ∈ done) :=
    Finset.mem_filter.mpr ⟨hcand, hnd⟩
  have hsum := Finset.sum_erase_add
    ((cand W s).filter (fun v => ¬ v ∈ done)) (fun v => 1 + (wnbrs W v).length) hwmem
  simp only at hsum
  rw [hfilter]
  omega

theorem astarLoop_nil (W : WAdj) (H : List (String × ℚ)) (goal : String) (fuel : ℕ)
    (gs : List (String × ℚ)) (ctr : ℕ) :
    astarLoop W H goal fuel [] gs ctr = some ⟨[], 0, false⟩ := by
  cases fuel <;> rfl

theorem astarLoop_cons (W : WAdj) (H : List (String × ℚ)) (goal : String) (fuel : ℕ)
    (hd : AEntry) (tl : List AEntry) (gs : List (String × ℚ)) (ctr : ℕ) :
    astarLoop W H goal (fuel + 1) (hd :: tl) gs ctr
      = if staleA gs (findMinA hd tl) then
          astarLoop W H goal fuel ((hd :: tl).erase (findMinA hd tl)) gs ctr
        else if (findMinA hd tl).city = goal then
          some ⟨(findMinA hd tl).path, (findMinA hd tl).g, true⟩
        else
          astarLoop W H goal fuel
            (apush H (findMinA hd tl).g (findMinA hd tl).path
              (wnbrs W (findMinA hd tl).city)
              (gs, (hd :: tl).erase (findMinA hd tl), ctr)).2.1
            (apush H (findMinA hd tl).g (findMinA hd tl).path
              (wnbrs W (findMinA hd tl).city)
              (gs, (hd :: tl).erase (findMinA hd tl), ctr)).1
            (apush H (findMinA hd tl).g (findMinA hd tl).path
              (wnbrs W (findMinA hd tl).city)
              (gs, (hd :: tl).erase (findMinA hd tl), ctr)).2.2 := rfl

/-- Expanding a fresh minimal entry preserves the A* invariant, with its city
added to the ghost `done` list. -/
theorem AInv_process {W : WAdj} {H : List (String × ℚ)} {s goal : String}
    {pq : List AEntry} {gs : List (String × ℚ)} {done : List String}
    (hH : ∀ n, getH H n = 0)
    (inv : AInv W H s goal pq gs done) {e : AEntry} (hemem : e ∈ pq)
    (hvminw : ∀ p q, WalkFrom W s p e.city q → e.g ≤ q)
    (hgse : look gs e.city = some e.g)
    (hgoal : e.city ≠ goal) (rest : List AEntry)
    (hrest : ∀ x ∈ rest, x ∈ pq)
    (hrest2 : ∀ x ∈ pq, x ≠ e → x ∈ rest) (ctr : ℕ) :
    AInv W H s goal
      (apush H e.g e.path (wnbrs W e.city) (gs, rest, ctr)).2.1
      (apush H e.g e.path (wnbrs W e.city) (gs, rest, ctr)).1
      (e.city :: done) := by
  have hach : ∀ v gv,
      look (apush H e.g e.path (wnbrs W e.city) (gs, rest, ctr)).1 v = some gv →
      ∃ p, WalkFrom W s p v gv := by
    intro v gv hv
    rcases apush_gs_src _ H _ _ _ _ _ v gv hv with hold | ⟨ec, hmemnl, hgeq, _⟩
    · exact inv.gsAch v gv hold
    · refine ⟨e.path ++ [v], ?_⟩
      rw [hgeq]
      exact WalkFrom.step (inv.entries e hemem) hmemnl
  have hfrozen : ∀ v gv₀, look gs v = some gv₀ →
      (∀ p q, WalkFrom W s p v q → gv₀ ≤ q) →
      look (apush H e.g e.path (wnbrs W e.city) (gs, rest, ctr)).1 v = some gv₀ := by
    intro v gv₀ hv hmin
    obtain ⟨gv', hgv', hle⟩ := apush_gs_mono _ H _ _ _ _ _ v gv₀ hv
    obtain ⟨p, hp⟩ := hach v gv' hgv'
    have heq : gv' = gv₀ := le_antisymm hle (hmin p gv' hp)
    rw [← heq]
    exact hgv'
  have hgsfe : look (apush H e.g e.path (wnbrs W e.city) (gs, rest, ctr)).1 e.city
      = some e.g := hfrozen e.city e.g hgse hvminw
  constructor
  · intro e' he'
    rcases apush_pq_mem _ H _ _ _ _ _ e' he' with hold | ⟨nb, ec, hedge, hc, hg, _, hp⟩
    · exact inv.entries e' (hrest e' hold)
    · rw [hp, hc, hg]
      exact WalkFrom.step (inv.entries e hemem) hedge
  · intro e' he'
    rcases apush_pq_mem _ H _ _ _ _ _ e' he' with hold | ⟨nb, ec, _, _, hg, hf, _⟩
    · exact inv.fg e' (hrest e' hold)
    · rw [hf, hg, hH nb, add_zero]
  · exact hach
  · intro e' he'
    rcases apush_pq_mem _ H _ _ _ _ _ e' he' with hold | ⟨nb, ec, hedge, hc, hg, _, _⟩
    · obtain ⟨gv₀, hgv₀, hle₀⟩ := inv.entryGs e' (hrest e' hold)
      obtain ⟨gv', hgv', hle'⟩ := apush_gs_mono _ H _ _ _ _ _ e'.city gv₀ hgv₀
      exact ⟨gv', hgv', hle'.trans hle₀⟩
    · obtain ⟨gw, hgw, hle⟩ := apush_cover _ H _ _ _ _ _ nb ec hedge
      rw [hc, hg]
      exact ⟨gw, hgw, hle⟩
  · intro v hv
    rcases List.mem_cons.mp hv with rfl | hv'
    · exact ⟨e.g, hgsfe, hvminw⟩
    · obtain ⟨gv, hgv, hmin⟩ := inv.doneOpt v hv'
      exact ⟨gv, hfrozen v gv hgv hmin, hmin⟩
  · intro u hu gu hgu nb ec hedge
    rcases List.mem_cons.mp hu with rfl | hu'
    · have hgu' : gu = e.g := by
        rw [hgu] at hgsfe
        exact Option.some_inj.mp hgsfe
      obtain ⟨gw, hgw, hle⟩ := apush_cover _ H _ _ _ _ _ nb ec hedge
      refine ⟨gw, hgw, ?_⟩
      rw [hgu']
      exact hle
    · obtain ⟨gu₀, hgu₀, hmin₀⟩ := inv.doneOpt u hu'
      have hfro := hfrozen u gu₀ hgu₀ hmin₀
      have hgu' : gu = gu₀ := by
        rw [hgu] at hfro
        exact Option.some_inj.mp hfro
      obtain ⟨gw₀, hgw₀, hle₀⟩ := inv.doneEdges u hu' gu₀ hgu₀ nb ec hedge
      obtain ⟨gw', hgw', hle'⟩ := apush_gs_mono _ H _ _ _ _ _ nb gw₀ hgw₀
      refine ⟨gw', hgw', ?_⟩
      rw [hgu']
      exact hle'.trans hle₀
  · intro w gw hgw hwnd
    have hwne : w ≠ e.city := fun h => hwnd (h ▸ List.mem_cons_self _ _)
    have hwnd' : w ∉ done := fun h => hwnd (List.mem_cons_of_mem _ h)
    rcases apush_gs_src _ H _ _ _ _ _ w gw hgw with hold |
      ⟨ec, _, _, e₂, he₂, hc₂, hg₂⟩
    · obtain ⟨e₂, he₂, hc₂, hle₂⟩ := inv.frontier w gw hold hwnd'
      have hne : e₂ ≠ e := by
        intro h
        rw [h] at hc₂
        exact hwne hc₂.symm
      exact ⟨e₂, apush_pq_sup _ H _ _ _ _ _ e₂ (hrest2 e₂ he₂ hne), hc₂, hle₂⟩
    · exact ⟨e₂, he₂, hc₂, le_of_eq hg₂⟩
  · obtain ⟨gv, hgv, hle⟩ := inv.startGs
    obtain ⟨gv', hgv', hle'⟩ := apush_gs_mono _ H _ _ _ _ _ s gv hgv
    exact ⟨gv', hgv', hle'.trans hle⟩
  · intro h
    rcases List.mem_cons.mp h with h' | h'
    · exact hgoal h'.symm
    · exact inv.goalFree h'
  · intro e' he'
    rcases apush_pq_mem _ H _ _ _ _ _ e' he' with hold | ⟨nb, ec, hedge, hc, _, _, _⟩
    · exact inv.inCand e' (hrest e' hold)
    · rw [hc]
      exact mem_cand_of_wnbrs hedge

/-- Main induction for A* with a zero heuristic: with the invariant and
enough fuel, the loop returns; on a reachable goal it returns a minimal-cost
walk, otherwise the failure result. -/
theorem astarLoop_correct (W : WAdj) (hW : NonNeg W) (H : List (String × ℚ))
    (hH : ∀ n, getH H n = 0) (s goal : String) :
    ∀ (fuel : ℕ) (pq : List AEntry) (gs : List (String × ℚ)) (ctr : ℕ)
      (done : List String),
      AInv W H s goal pq gs done →
      aMeasure W s pq done ≤ fuel →
      ∃ r, astarLoop W H goal fuel pq gs ctr = some r
        ∧ ((∃ p q, WalkFrom W s p goal q) →
            r.success = true ∧ WalkFrom W s r.path goal r.total_cost
            ∧ ∀ p q, WalkFrom W s p goal q → r.total_cost ≤ q)
        ∧ ((¬ ∃ p q, WalkFrom W s p goal q) → r = ⟨[], 0, false⟩) := by
  intro fuel
  induction fuel with
  | zero =>
    intro pq gs ctr done inv hM
    cases pq with
    | nil =>
      refine ⟨⟨[], 0, false⟩, astarLoop_nil W H goal 0 gs ctr, ?_, fun _ => rfl⟩
      rintro ⟨p, q, hwalk⟩
      exfalso
      obtain ⟨e, he, _⟩ := astar_crossing hW inv hwalk inv.goalFree
      simp at he
    | cons hd tl =>
      exfalso
      unfold aMeasure at hM
      simp [List.length_cons] at hM
  | succ fuel ih =>
    intro pq gs ctr done inv hM
    cases pq with
    | nil =>
      refine ⟨⟨[], 0, false⟩, astarLoop_nil W H goal (fuel + 1) gs ctr, ?_, fun _ => rfl⟩
      rintro ⟨p, q, hwalk⟩
      exfalso
      obtain ⟨e, he, _⟩ := astar_crossing hW inv hwalk inv.goalFree
      simp at he
    | cons hd tl =>
      obtain ⟨hemem, hminf1, hminf2⟩ := findMinA_spec tl hd
      have heminf : ∀ x ∈ hd :: tl, (findMinA hd tl).f ≤ x.f := by
        intro x hx
        rcases List.mem_cons.mp hx with rfl | hx'
        · exact hminf1
        · exact hminf2 x hx'
      rw [astarLoop_cons]
      by_cases hst : staleA gs (findMinA hd tl) = true
      · rw [if_pos hst]
        obtain ⟨g0, hg0, hg0lt⟩ : ∃ g0, look gs (findMinA hd tl).city = some g0
            ∧ g0 < (findMinA hd tl).g := by
          unfold staleA at hst
          cases hlk : look gs (findMinA hd tl).city with
          | none => rw [hlk] at hst; simp at hst
          | some g0 =>
            rw [hlk] at hst
            exact ⟨g0, rfl, of_decide_eq_true hst⟩
        have inv' : AInv W H s goal ((hd :: tl).erase (findMinA hd tl)) gs done := by
          refine ⟨fun e' he' => inv.entries e' (List.mem_of_mem_erase he'),
            fun e' he' => inv.fg e' (List.mem_of_mem_erase he'),
            inv.gsAch,
            fun e' he' => inv.entryGs e' (List.mem_of_mem_erase he'),
            inv.doneOpt, inv.doneEdges, ?_, inv.startGs, inv.goalFree,
            fun e' he' => inv.inCand e' (List.mem_of_mem_erase he')⟩
          intro w gw hgw hwnd
          obtain ⟨e', he', hcity, hle⟩ := inv.frontier w gw hgw hwnd
          have hne : e' ≠ findMinA hd tl := by
            intro heq
            rw [heq] at hcity hle
            rw [hcity] at hg0
            rw [hgw] at hg0
            obtain rfl : gw = g0 := Option.some_inj.mp hg0
            exact absurd hg0lt (not_lt.mpr hle)
          exact ⟨e', (List.mem_erase_of_ne hne).mpr he', hcity, hle⟩
        have hM' : aMeasure W s ((hd :: tl).erase (findMinA hd tl)) done ≤ fuel := by
          have := @aMeasure_erase W s (hd :: tl) done (findMinA hd tl) hemem
          omega
        exact ih _ gs ctr done inv' hM'
      · rw [if_neg hst]
        obtain ⟨gv, hgv, hgvle⟩ := inv.entryGs _ hemem
        have hgse : look gs (findMinA hd tl).city = some (findMinA hd tl).g := by
          have hnlt : ¬ gv < (findMinA hd tl).g := by
            intro hlt
            apply hst
            unfold staleA
            rw [hgv]
            exact decide_eq_true hlt
          have heq : gv = (findMinA hd tl).g := le_antisymm hgvle (not_lt.mp hnlt)
          rw [← heq]
          exact hgv
        by_cases hgoal : (findMinA hd tl).city = goal
        · rw [if_pos hgoal]
          refine ⟨⟨(findMinA hd tl).path, (findMinA hd tl).g, true⟩, rfl, ?_, ?_⟩
          · intro _
            refine ⟨rfl, hgoal ▸ inv.entries _ hemem, ?_⟩
            intro p q hwq
            obtain ⟨e', he', hc'⟩ := astar_crossing hW inv hwq inv.goalFree
            have h2 : (findMinA hd tl).f = (findMinA hd tl).g := inv.fg _ hemem
            have h3 : e'.f = e'.g := inv.fg e' he'
            calc (findMinA hd tl).g = (findMinA hd tl).f := h2.symm
              _ ≤ e'.f := heminf e' he'
              _ = e'.g := h3
              _ ≤ q := hc'
          · intro hnr
            exact absurd ⟨(findMinA hd tl).path, (findMinA hd tl).g,
              hgoal ▸ inv.entries _ hemem⟩ hnr
        · rw [if_neg hgoal]
          by_cases hdone : (findMinA hd tl).city ∈ done
          · have hnoop : apush H (findMinA hd tl).g (findMinA hd tl).path
                (wnbrs W (findMinA hd tl).city)
                (gs, (hd :: tl).erase (findMinA hd tl), ctr)
                = (gs, (hd :: tl).erase (findMinA hd tl), ctr) := by
              apply apush_noop
              intro nb ec hedge
              exact inv.doneEdges _ hdone _ hgse nb ec hedge
            rw [hnoop]
            have inv' : AInv W H s goal ((hd :: tl).erase (findMinA hd tl)) gs done := by
              refine ⟨fun e' he' => inv.entries e' (List.mem_of_mem_erase he'),
                fun e' he' => inv.fg e' (List.mem_of_mem_erase he'),
                inv.gsAch,
                fun e' he' => inv.entryGs e' (List.mem_of_mem_erase he'),
                inv.doneOpt, inv.doneEdges, ?_, inv.startGs, inv.goalFree,
                fun e' he' => inv.inCand e' (List.mem_of_mem_erase he')⟩
              intro w gw hgw hwnd
              obtain ⟨e', he', hcity, hle⟩ := inv.frontier w gw hgw hwnd
              have hne : e' ≠ findMinA hd tl := by
                intro heq
                apply hwnd
                rw [← hcity, heq]
                exact hdone
              exact ⟨e', (List.mem_erase_of_ne hne).mpr he', hcity, hle⟩
            have hM' : aMeasure W s ((hd :: tl).erase (findMinA hd tl)) done ≤ fuel := by
              have := @aMeasure_erase W s (hd :: tl) done (findMinA hd tl) hemem
              omega
            exact ih _ gs ctr done inv' hM'
          · have hvminw : ∀ p q, WalkFrom W s p (findMinA hd tl).city q →
                (findMinA hd tl).g ≤ q := by
              intro p q hwq
              obtain ⟨e', he', hc'⟩ := astar_crossing hW inv hwq hdone
              have h2 : (findMinA hd tl).f = (findMinA hd tl).g := inv.fg _ hemem
              have h3 : e'.f = e'.g := inv.fg e' he'
              calc (findMinA hd tl).g = (findMinA hd tl).f := h2.symm
                _ ≤ e'.f := heminf e' he'
                _ = e'.g := h3
                _ ≤ q := hc'
            have inv' := AInv_process hH inv hemem hvminw hgse hgoal
              ((hd :: tl).erase (findMinA hd tl))
              (fun x hx => List.mem_of_mem_erase hx)
              (fun x hx hne => (List.mem_erase_of_ne hne).mpr hx) ctr
            have hM' : aMeasure W s
                (apush H (findMinA hd tl).g (findMinA hd tl).path
                  (wnbrs W (findMinA hd tl).city)
                  (gs, (hd :: tl).erase (findMinA hd tl), ctr)).2.1
                ((findMinA hd tl).city :: done) ≤ fuel := by
              have hproc := aMeasure_proc hemem (inv.inCand _ hemem) hdone
                (apush H (findMinA hd tl).g (findMinA hd tl).path
                  (wnbrs W (findMinA hd tl).city)
                  (gs, (hd :: tl).erase (findMinA hd tl), ctr)).2.1
                (apush_len _ H _ _ _ _ _)
              omega
            exact ih _ _ _ _ inv' hM'

theorem aMeasure_init_le (W : WAdj) (s : String) (e : AEntry) :
    aMeasure W s [e] [] ≤ fuelBound W := by
  unfold aMeasure fuelBound
  have hfilter : ((cand W s).filter (fun v => ¬ v ∈ ([] : List String))) = cand W s :=
    Finset.filter_true_of_mem (fun v _ => by simp)
  rw [hfilter]
  have hsum : (∑ v in cand W s, (1 + (wnbrs W v).length))
      = (cand W s).card + ∑ v in cand W s, (wnbrs W v).length := by
    rw [Finset.sum_add_distrib, Finset.sum_const, smul_eq_mul, mul_one]
  have h1 := card_cand_le W s
  have h2 := sum_wnbrs_le W (cand W s)
  have h3 : totalDeg W ≤ totalDeg W * (1 + totalDeg W) := by
    have : totalDeg W * 1 ≤ totalDeg W * (1 + totalDeg W) :=
      Nat.mul_le_mul_left _ (by omega)
    omega
  simp only [List.length_singleton]
  omega

/-- Correctness of `astarSearch` under the all-zero heuristic, stated as a
reusable lemma. -/
theorem astarSearch_correct (W : WAdj) (H : List (String × ℚ)) (s goal : String)
    (hW : NonNeg W) (hH : ∀ n, getH H n = 0)
    (hs : (look W s).isSome) (hg : (look W goal).isSome) :
    ((∃ p q, WalkFrom W s p goal q) →
      (astarSearch W H s goal).success = true
      ∧ WalkFrom W s (astarSearch W H s goal).path goal
          (astarSearch W H s goal).total_cost
      ∧ ∀ p q, WalkFrom W s p goal q → (astarSearch W H s goal).total_cost ≤ q)
    ∧ ((¬ ∃ p q, WalkFrom W s p goal q) →
        (astarSearch W H s goal).success = false) := by
  obtain ⟨a, ha⟩ := Option.isSome_iff_exists.mp hs
  obtain ⟨b, hb⟩ := Option.isSome_iff_exists.mp hg
  unfold astarSearch
  rw [if_neg (by simp [ha]), if_neg (by simp [hb])]
  by_cases hsg : s = goal
  · rw [if_pos hsg]
    constructor
    · intro _
      refine ⟨rfl, hsg ▸ WalkFrom.refl, ?_⟩
      intro p q hwq
      exact WalkFrom.nonneg hW hwq
    · intro hnr
      exact absurd ⟨[s], 0, hsg ▸ WalkFrom.refl⟩ hnr
  · rw [if_neg hsg]
    have inv₀ : AInv W H s goal [⟨getH H s, 0, 0, s, [s]⟩] [(s, 0)] [] := by
      refine ⟨?_, ?_, ?_, ?_, ?_, ?_, ?_, ?_, ?_, ?_⟩
      · intro e he
        rw [List.mem_singleton.mp he]
        exact WalkFrom.refl
      · intro e he
        rw [List.mem_singleton.mp he]
        exact hH s
      · intro v gv h
        by_cases hv : v = s
        · subst hv
          simp [look] at h
          exact ⟨[v], by rw [← h]; exact WalkFrom.refl⟩
        · simp [look, hv] at h
      · intro e he
        rw [List.mem_singleton.mp he]
        exact ⟨0, by simp [look], le_refl 0⟩
      · intro v hv
        simp at hv
      · intro u hu
        simp at hu
      · intro w gw h _
        by_cases hv : w = s
        · subst hv
          simp [look] at h
          exact ⟨⟨getH H w, 0, 0, w, [w]⟩, List.mem_singleton.mpr rfl, rfl, by
            rw [← h]⟩
        · simp [look, hv] at h
      · exact ⟨0, by simp [look], le_refl 0⟩
      · simp
      · intro e he
        rw [List.mem_singleton.mp he]
        exact mem_cand_self W s
    obtain ⟨r, hr, hpos, hneg⟩ := astarLoop_correct W hW H hH s goal (fuelBound W)
      [⟨getH H s, 0, 0, s, [s]⟩] [(s, 0)] 0 [] inv₀ (aMeasure_init_le W s _)
    rw [hr]
    constructor
    · intro hreach
      exact hpos hreach
    · intro hnr
      rw [hneg hnr]

/-- C2: with every heuristic value equal to zero, `AStarSearch.search`
returns the same success flag as `UniformCostSearch.search` on every
weighted graph with non-negative edge costs and every pair of endpoints, and
on success the two report identical total costs. -/
theorem astar_zero_heuristic_equals_ucs (W : WAdj) (H : List (String × ℚ))
    (hW : NonNeg W) (hH : ∀ n, getH H n = 0) (s goal : String) :
    (astarSearch W H s goal).success = (ucsSearch W s goal).success
    ∧ ((astarSearch W H s goal).success = true →
        (astarSearch W H s goal).total_cost = (ucsSearch W s goal).total_cost) := by
  by_cases h1 : (look W s).isNone
  · constructor
    · show (astarSearch W H s goal).success = (ucsSearch W s goal).success
      unfold astarSearch ucsSearch
      rw [if_pos h1, if_pos h1]
    · intro h
      exfalso
      unfold astarSearch at h
      rw [if_pos h1] at h
      exact Bool.noConfusion h
  · by_cases h2 : (look W goal).isNone
    · constructor
      · unfold astarSearch ucsSearch
        rw [if_neg h1, if_pos h2, if_neg h1, if_pos h2]
      · intro h
        exfalso
        unfold astarSearch at h
        rw [if_neg h1, if_pos h2] at h
        exact Bool.noConfusion h
    · have hs : (look W s).isSome := by
        cases hlk : look W s with
        | none => rw [hlk] at h1; simp at h1
        | some _ => rfl
      have hg : (look W goal).isSome := by
        cases hlk : look W goal with
        | none => rw [hlk] at h2; simp at h2
        | some _ => rfl
      obtain ⟨hA1, hA2⟩ := astarSearch_correct W H s goal hW hH hs hg
      obtain ⟨hU1, hU2⟩ := ucsSearch_correct W s goal hW hs hg
      by_cases hreach : ∃ p q, WalkFrom W s p goal q
      · obtain ⟨ha1, ha2, ha3⟩ := hA1 hreach
        obtain ⟨hu1, hu2, _, _, hu3⟩ := hU1 hreach
        refine ⟨by rw [ha1, hu1], fun _ => ?_⟩
        exact le_antisymm (ha3 _ _ hu2) (hu3 _ _ ha2)
      · refine ⟨by rw [hA2 hreach, hU2 hreach], fun h => ?_⟩
        rw [hA2 hreach] at h
        exact absurd h Bool.noConfusion

unseal Rat.add in
/-- C2 witness: on the concrete graph `mgNoTieW` with the empty heuristic
table (every lookup defaults to 0), A* and UCS agree on the success flag and
the total cost from `S` to `B`. -/
theorem astar_zero_heuristic_equals_ucs_witness :
    NonNeg mgNoTieW
    ∧ (astarSearch mgNoTieW [] "S" "B").success = (ucsSearch mgNoTieW "S" "B").success
    ∧ (astarSearch mgNoTieW [] "S" "B").total_cost
        = (ucsSearch mgNoTieW "S" "B").total_cost := by
  have h := astar_zero_heuristic_equals_ucs mgNoTieW [] (by decide)
    (fun n => rfl) "S" "B"
  exact ⟨by decide, h.1, h.2 (by decide)⟩

/-! ## Correctness of breadth-first search (claim C3) -/

theorem UWalk.length_pos {adj : UAdj} {s : String} {p : List String} {v : String}
    (h : UWalk adj s p v) : 1 ≤ p.length := by
  induction h with
  | refl => simp
  | step hw hn ih => simp

theorem UWalk.first {adj : UAdj} {s : String} {p : List String} {v : String}
    (h : UWalk adj s p v) : p.head? = some s := by
  induction h with
  | refl => rfl
  | @step p' v' w' hw' hn ih =>
    cases p' with
    | nil => simp at ih
    | cons a t =>
      simp only [List.head?_cons, Option.some.injEq] at ih
      simp [ih]

theorem UWalk.final {adj : UAdj} {s : String} {p : List String} {v : String}
    (h : UWalk adj s p v) : p.getLast? = some v := by
  induction h with
  | refl => rfl
  | step hw' hn ih => exact List.getLast?_concat _

/-- The candidate cities of a BFS run: the start plus every city occurring
in some neighbor list. -/
def candU (adj : UAdj) (s : String) : Finset String :=
  insert s (adj.bind (fun kv => kv.2)).toFinset

theorem mem_candU_of_nbrs {adj : UAdj} {s u n : String} (h : n ∈ nbrs adj u) :
    n ∈ candU adj s := by
  unfold nbrs at h
  cases hl : look adj u with
  | none =>
    rw [hl] at h
    simp at h
  | some l =>
    rw [hl] at h
    simp only [Option.getD_some] at h
    refine Finset.mem_insert_of_mem ?_
    rw [List.mem_toFinset, List.mem_bind]
    exact ⟨(u, l), look_some_mem hl, h⟩

theorem mem_candU_self (adj : UAdj) (s : String) : s ∈ candU adj s :=
  Finset.mem_insert_self s _

theorem card_candU_le (adj : UAdj) (s : String) :
    (candU adj s).card ≤ 1 + totalDegU adj := by
  unfold candU
  calc (insert s (adj.bind fun kv => kv.2).toFinset).card
      ≤ (adj.bind fun kv => kv.2).toFinset.card + 1 := Finset.card_insert_le _ _
    _ ≤ (adj.bind fun kv => kv.2).length + 1 :=
        Nat.add_le_add_right (adj.bind fun kv => kv.2).toFinset_card_le 1
    _ = 1 + totalDegU adj := by
        rw [List.length_bind]
        unfold totalDegU
        rw [Nat.add_comm]
        apply congrArg
        apply congrArg
        apply List.map_congr_left
        intro kv _
        simp

theorem look_map_const (marks : List String) (d : ℕ) (v : String) :
    look (marks.map (fun n => (n, d))) v = if v ∈ marks then some d else none := by
  induction marks with
  | nil => simp [look]
  | cons m t ih =>
    by_cases hv : v = m
    · simp [look, hv]
    · simp [look, hv, ih, List.mem_cons]

theorem bfsScan_cons (goal : String) (path : List String) (n : String)
    (rest visited : List String) (queue : List (String × List String)) :
    bfsScan goal path (n :: rest) visited queue
      = if n ∈ visited then bfsScan goal path rest visited queue
        else if n = goal then (some (path ++ [n]), visited, queue)
        else bfsScan goal path rest (visited ++ [n])
          (queue ++ [(n, path ++ [n])]) := rfl

theorem bfsScan_some (goal : String) (path : List String) :
    ∀ (nl visited : List String) (queue : List (String × List String))
      (found v' : List String) (q' : List (String × List String)),
      bfsScan goal path nl visited queue = (some found, v', q') →
      found = path ++ [goal] ∧ goal ∈ nl := by
  intro nl
  induction nl with
  | nil =>
    intro visited queue found v' q' h
    simp [bfsScan] at h
  | cons n rest ih =>
    intro visited queue found v' q' h
    rw [bfsScan_cons] at h
    by_cases h1 : n ∈ visited
    · rw [if_pos h1] at h
      obtain ⟨hf, hm⟩ := ih visited queue found v' q' h
      exact ⟨hf, List.mem_cons_of_mem _ hm⟩
    · rw [if_neg h1] at h
      by_cases h2 : n = goal
      · rw [if_pos h2] at h
        obtain ⟨hf, -, -⟩ := Prod.mk.injEq .. ▸ h
        injection h with hf2 hrest
        injection hf2 with hf3
        subst h2
        exact ⟨hf3.symm, List.mem_cons_self _ _⟩
      · rw [if_neg h2] at h
        obtain ⟨hf, hm⟩ := ih _ _ found v' q' h
        exact ⟨hf, List.mem_cons_of_mem _ hm⟩

theorem bfsScan_none (goal : String) (path : List String) :
    ∀ (nl visited : List String) (queue : List (String × List String))
      (v' : List String) (q' : List (String × List String)),
      bfsScan goal path nl visited queue = (none, v', q') →
      ∃ marks : List String,
        v' = visited ++ marks
        ∧ (∃ E, q' = queue ++ E
            ∧ (∀ x ∈ E, ∃ n ∈ marks, x = (n, path ++ [n]))
            ∧ E.length = marks.length)
        ∧ (∀ n ∈ marks, n ∈ nl ∧ n ∉ visited ∧ n ≠ goal ∧ (n, path ++ [n]) ∈ q')
        ∧ (∀ n ∈ nl, n ∈ v')
        ∧ marks.Nodup := by
  intro nl
  induction nl with
  | nil =>
    intro visited queue v' q' h
    injection h with h1 h2
    injection h2 with h2 h3
    refine ⟨[], by simp [h2], ⟨[], by simp [h3], by simp, rfl⟩, by simp, by simp, List.nodup_nil⟩
  | cons n rest ih =>
    intro visited queue v' q' h
    rw [bfsScan_cons] at h
    by_cases h1 : n ∈ visited
    · rw [if_pos h1] at h
      obtain ⟨marks, hv', hE, hm, hcov, hnd⟩ := ih visited queue v' q' h
      refine ⟨marks, hv', hE, ?_, ?_, hnd⟩
      · intro m hm'
        obtain ⟨ha, hb, hc, hd⟩ := hm m hm'
        exact ⟨List.mem_cons_of_mem _ ha, hb, hc, hd⟩
      · intro m hm'
        rcases List.mem_cons.mp hm' with rfl | hm''
        · rw [hv']
          exact List.mem_append_left _ h1
        · exact hcov m hm''
    · rw [if_neg h1] at h
      by_cases h2 : n = goal
      · rw [if_pos h2] at h
        injection h with hbad
        exact absurd hbad.symm (Option.noConfusion)
      · rw [if_neg h2] at h
        obtain ⟨marks', hv', ⟨E', hq', hE'mem, hE'len⟩, hm, hcov, hnd⟩ :=
          ih (visited ++ [n]) (queue ++ [(n, path ++ [n])]) v' q' h
        have hfreshn : ∀ m ∈ marks', m ∉ visited ∧ m ≠ n := by
          intro m hm'
          have h3 := (hm m hm').2.1
          rw [List.mem_append] at h3
          push_neg at h3
          refine ⟨h3.1, ?_⟩
          intro heq
          exact h3.2 (heq ▸ List.mem_singleton.mpr rfl)
        refine ⟨n :: marks', ?_, ⟨(n, path ++ [n]) :: E', ?_, ?_, ?_⟩, ?_, ?_, ?_⟩
        · rw [hv', List.append_assoc]
          rfl
        · rw [hq', List.append_assoc]
          rfl
        · intro x hx
          rcases List.mem_cons.mp hx with rfl | hx'
          · exact ⟨n, List.mem_cons_self _ _, rfl⟩
          · obtain ⟨m, hm', hx''⟩ := hE'mem x hx'
            exact ⟨m, List.mem_cons_of_mem _ hm', hx''⟩
        · simp [hE'len]
        · intro m hm'
          rcases List.mem_cons.mp hm' with rfl | hm''
          · refine ⟨List.mem_cons_self _ _, h1, h2, ?_⟩
            rw [hq']
            exact List.mem_append_left _ (List.mem_append_right _
              (List.mem_singleton.mpr rfl))
          · obtain ⟨ha, hb, hc, hd⟩ := hm m hm''
            refine ⟨List.mem_cons_of_mem _ ha, (hfreshn m hm'').1, hc, hd⟩
        · intro m hm'
          rcases List.mem_cons.mp hm' with rfl | hm''
          · rw [hv']
            exact List.mem_append_left _ (List.mem_append_right _
              (List.mem_singleton.mpr rfl))
          · exact hcov m hm''
        · refine List.nodup_cons.mpr ⟨?_, hnd⟩
          intro hmem
          exact (hfreshn n hmem).2 rfl

/-- The loop invariant of `bfsLoop`. `lev` is the ghost table assigning each
visited city the node-length of the path with which it was enqueued; that
length is minimal among all walks reaching the city, queue entries carry
genuine walks at their recorded level, a visited city with an unvisited
neighbor still has its own entry queued, and queue path lengths are
nondecreasing and spread at most one apart. -/
structure BInv (adj : UAdj) (s goal : String)
    (queue : List (String × List String)) (visited : List String)
    (lev : List (String × ℕ)) : Prop where
  vis_lev : ∀ v, v ∈ visited ↔ (look lev v).isSome
  sound : ∀ v d, look lev v = some d → ∀ p, UWalk adj s p v → d ≤ p.length
  entries : ∀ e ∈ queue, UWalk adj s e.2 e.1 ∧ look lev e.1 = some e.2.length
  covE : ∀ u d, look lev u = some d → ∀ n ∈ nbrs adj u, (look lev n).isNone →
    ∃ e ∈ queue, e.1 = u ∧ e.2.length = d
  sorted : List.Sorted (· ≤ ·) (queue.map (fun e => e.2.length))
  close : ∀ e₁ ∈ queue, ∀ e₂ ∈ queue, e₁.2.length ≤ e₂.2.length + 1
  startVis : s ∈ visited
  goalFree : goal ∉ visited
  inCand : ∀ e ∈ queue, e.1 ∈ candU adj s

/-- Any walk to an unvisited city is covered by a queued entry whose path is
strictly shorter. -/
theorem bfs_crossing {adj : UAdj} {s goal : String}
    {queue : List (String × List String)} {visited : List String}
    {lev : List (String × ℕ)} (inv : BInv adj s goal queue visited lev) :
    ∀ {p : List String} {v : String}, UWalk adj s p v → v ∉ visited →
      ∃ e ∈ queue, e.2.length + 1 ≤ p.length := by
  intro p v hw
  induction hw with
  | refl =>
    intro hnv
    exact absurd inv.startVis hnv
  | @step p' v' w' hw' hn ih =>
    intro hnv
    by_cases hv : v' ∈ visited
    · obtain ⟨d, hd⟩ := Option.isSome_iff_exists.mp ((inv.vis_lev v').mp hv)
      have hdle : d ≤ p'.length := inv.sound v' d hd p' hw'
      have hwnone : (look lev w').isNone := by
        cases hlk : look lev w' with
        | none => rfl
        | some d₀ =>
          exact absurd ((inv.vis_lev w').mpr (by rw [hlk]; rfl)) hnv
      obtain ⟨e, he, _, hlen⟩ := inv.covE v' d hd w' hn hwnone
      refine ⟨e, he, ?_⟩
      rw [List.length_append]
      simp only [List.length_singleton]
      omega
    · obtain ⟨e, he, hlen⟩ := ih hv
      refine ⟨e, he, ?_⟩
      rw [List.length_append]
      simp only [List.length_singleton]
      omega

/-- Decrease measure of the BFS loop (over the ghost `lev` table). -/
def bMeasure (adj : UAdj) (s : String) (queue : List (String × List String))
    (lev : List (String × ℕ)) : ℕ :=
  queue.length + ((candU adj s).filter (fun v => (look lev v).isNone)).card

theorem bfsLoop_nil (adj : UAdj) (goal : String) (fuel : ℕ) (visited : List String) :
    bfsLoop adj goal fuel [] visited = some ⟨[], false⟩ := by
  cases fuel <;> rfl

theorem bfsLoop_cons (adj : UAdj) (goal : String) (fuel : ℕ) (cur : String)
    (path : List String) (qrest : List (String × List String))
    (visited : List String) :
    bfsLoop adj goal (fuel + 1) ((cur, path) :: qrest) visited
      = match bfsScan goal path (nbrs adj cur) visited qrest with
        | (some found, _, _) => some ⟨found, true⟩
        | (none, visited', queue') => bfsLoop adj goal fuel queue' visited' := rfl

/-- Main induction for BFS: with the invariant and enough fuel, the loop
returns; on a reachable goal it returns a walk of minimal node count,
otherwise the failure result. -/
theorem bfsLoop_correct (adj : UAdj) (s goal : String) :
    ∀ (fuel : ℕ) (queue : List (String × List String)) (visited : List String)
      (lev : List (String × ℕ)),
      BInv adj s goal queue visited lev →
      bMeasure adj s queue lev ≤ fuel →
      ∃ r, bfsLoop adj goal fuel queue visited = some r
        ∧ ((∃ p, UWalk adj s p goal) →
            r.success = true ∧ UWalk adj s r.path goal
            ∧ ∀ p, UWalk adj s p goal → r.path.length ≤ p.length)
        ∧ ((¬ ∃ p, UWalk adj s p goal) → r = ⟨[], false⟩) := by
  intro fuel
  induction fuel with
  | zero =>
    intro queue visited lev inv hM
    cases queue with
    | nil =>
      refine ⟨⟨[], false⟩, bfsLoop_nil adj goal 0 visited, ?_, fun _ => rfl⟩
      rintro ⟨p, hwalk⟩
      exfalso
      obtain ⟨e, he, _⟩ := bfs_crossing inv hwalk inv.goalFree
      simp at he
    | cons hd qrest =>
      exfalso
      unfold bMeasure at hM
      simp [List.length_cons] at hM
  | succ fuel ih =>
    intro queue visited lev inv hM
    cases queue with
    | nil =>
      refine ⟨⟨[], false⟩, bfsLoop_nil adj goal (fuel + 1) visited, ?_, fun _ => rfl⟩
      rintro ⟨p, hwalk⟩
      exfalso
      obtain ⟨e, he, _⟩ := bfs_crossing inv hwalk inv.goalFree
      simp at he
    | cons hd qrest =>
      obtain ⟨cur, path⟩ := hd
      obtain ⟨hfw, hflev⟩ := inv.entries (cur, path) (List.mem_cons_self _ _)
      have hminq : ∀ e ∈ qrest, path.length ≤ e.2.length := by
        have hs := inv.sorted
        rw [List.map_cons, List.sorted_cons] at hs
        intro e he
        exact hs.1 _ (List.mem_map_of_mem _ he)
      rw [bfsLoop_cons]
      rcases hscan : bfsScan goal path (nbrs adj cur) visited qrest with ⟨fo, v', q'⟩
      cases fo with
      | some found =>
        obtain ⟨hfound, hgnl⟩ :=
          bfsScan_some goal path (nbrs adj cur) visited qrest found v' q' hscan
        refine ⟨⟨found, true⟩, rfl, ?_, ?_⟩
        · intro _
          refine ⟨rfl, by rw [hfound]; exact UWalk.step hfw hgnl, ?_⟩
          intro p hwp
          obtain ⟨e, he, hlen⟩ := bfs_crossing inv hwp inv.goalFree
          have hple : path.length ≤ e.2.length := by
            rcases List.mem_cons.mp he with heq | he'
            · rw [heq]
            · exact hminq e he'
          rw [hfound, List.length_append]
          simp only [List.length_singleton]
          omega
        · intro hnr
          exact absurd ⟨found, by rw [hfound]; exact UWalk.step hfw hgnl⟩ hnr
      | none =>
        obtain ⟨marks, hv', ⟨E, hq', hEmem, hElen⟩, hmarks, hcov, hnodup⟩ :=
          bfsScan_none goal path (nbrs adj cur) visited qrest v' q' hscan
        have hkeep : ∀ v d, look lev v = some d →
            look (lev ++ marks.map (fun n => (n, path.length + 1))) v = some d :=
          fun v d h => look_append_of_isSome _ h
        have hfreshl : ∀ v, look lev v = none →
            look (lev ++ marks.map (fun n => (n, path.length + 1))) v
              = if v ∈ marks then some (path.length + 1) else none := by
          intro v h
          rw [look_append_of_none _ h, look_map_const]
        have hmarksnone : ∀ n ∈ marks, look lev n = none := by
          intro n hn
          cases hlk : look lev n with
          | none => rfl
          | some d =>
            exact absurd ((inv.vis_lev n).mpr (by rw [hlk]; rfl)) (hmarks n hn).2.1
        have hmarkslev : ∀ n ∈ marks,
            look (lev ++ marks.map (fun n => (n, path.length + 1))) n
              = some (path.length + 1) := by
          intro n hn
          rw [hfreshl n (hmarksnone n hn), if_pos hn]
        have hlevnone : ∀ v,
            look (lev ++ marks.map (fun n => (n, path.length + 1))) v = none →
            look lev v = none ∧ v ∉ marks := by
          intro v h
          have h1 : look lev v = none := by
            cases hlk : look lev v with
            | none => rfl
            | some d =>
              rw [hkeep v d hlk] at h
              exact Option.noConfusion h
          refine ⟨h1, ?_⟩
          intro hm
          rw [hfreshl v h1, if_pos hm] at h
          exact Option.noConfusion h
        have hvis' : ∀ v, v ∈ v' ↔
            (look (lev ++ marks.map (fun n => (n, path.length + 1))) v).isSome := by
          intro v
          rw [hv', List.mem_append]
          constructor
          · rintro (h | h)
            · obtain ⟨d, hd⟩ := Option.isSome_iff_exists.mp ((inv.vis_lev v).mp h)
              rw [hkeep v d hd]
              rfl
            · rw [hmarkslev v h]
              rfl
          · intro h
            cases hlk : look lev v with
            | some d => exact Or.inl ((inv.vis_lev v).mpr (by rw [hlk]; rfl))
            | none =>
              rw [hfreshl v hlk] at h
              by_cases hm : v ∈ marks
              · exact Or.inr hm
              · rw [if_neg hm] at h
                simp at h
        have hfreshmin : ∀ n ∈ marks, ∀ p, UWalk adj s p n →
            path.length + 1 ≤ p.length := by
          intro n hn p hwp
          obtain ⟨e, he, hlen⟩ := bfs_crossing inv hwp (hmarks n hn).2.1
          have hple : path.length ≤ e.2.length := by
            rcases List.mem_cons.mp he with heq | he'
            · rw [heq]
            · exact hminq e he'
          omega
        have inv' : BInv adj s goal q' v'
            (lev ++ marks.map (fun n => (n, path.length + 1))) := by
          constructor
          · exact hvis'
          · intro v d hd p hwp
            cases hlk : look lev v with
            | some d₀ =>
              rw [hkeep v d₀ hlk] at hd
              obtain rfl : d₀ = d := Option.some_inj.mp hd
              exact inv.sound v d₀ hlk p hwp
            | none =>
              rw [hfreshl v hlk] at hd
              by_cases hm : v ∈ marks
              · rw [if_pos hm] at hd
                obtain rfl : path.length + 1 = d := Option.some_inj.mp hd
                exact hfreshmin v hm p hwp
              · rw [if_neg hm] at hd
                exact Option.noConfusion hd
          · intro e he
            rw [hq'] at he
            rcases List.mem_append.mp he with he' | heE
            · obtain ⟨hw₁, hl₁⟩ := inv.entries e (List.mem_cons_of_mem _ he')
              exact ⟨hw₁, hkeep _ _ hl₁⟩
            · obtain ⟨n, hn, rfl⟩ := hEmem e heE
              refine ⟨UWalk.step hfw (hmarks n hn).1, ?_⟩
              rw [hmarkslev n hn]
              simp [List.length_append]
          · intro u d hd n' hn' hn'none
            have hn'none' : look (lev ++ marks.map (fun n => (n, path.length + 1))) n'
                = none := Option.isNone_iff_eq_none.mp hn'none
            obtain ⟨hlevn'none, hn'marks⟩ := hlevnone n' hn'none'
            cases hlk : look lev u with
            | some d₀ =>
              rw [hkeep u d₀ hlk] at hd
              obtain rfl : d₀ = d := Option.some_inj.mp hd
              have hn'nonelev : (look lev n').isNone := by
                rw [hlevn'none]
                rfl
              obtain ⟨e, he, heq1, heq2⟩ := inv.covE u d₀ hlk n' hn' hn'nonelev
              rcases List.mem_cons.mp he with heq | he'
              · exfalso
                have hcur : u = cur := by
                  rw [heq] at heq1
                  exact heq1.symm
                have hmem' : n' ∈ v' := hcov n' (by rw [← hcur]; exact hn')
                have := (hvis' n').mp hmem'
                rw [hn'none'] at this
                simp at this
              · refine ⟨e, ?_, heq1, heq2⟩
                rw [hq']
                exact List.mem_append_left _ he'
            | none =>
              rw [hfreshl u hlk] at hd
              by_cases hm : u ∈ marks
              · rw [if_pos hm] at hd
                obtain rfl : path.length + 1 = d := Option.some_inj.mp hd
                exact ⟨(u, path ++ [u]), (hmarks u hm).2.2.2, rfl, by
                  simp [List.length_append]⟩
              · rw [if_neg hm] at hd
                exact Option.noConfusion hd
          · rw [hq', List.map_append]
            refine List.pairwise_append.mpr ⟨?_, ?_, ?_⟩
            · have hs := inv.sorted
              rw [List.map_cons, List.sorted_cons] at hs
              exact hs.2
            · have hall : ∀ a ∈ E.map (fun e => e.2.length), a = path.length + 1 := by
                intro a ha
                obtain ⟨e, heE, rfl⟩ := List.mem_map.mp ha
                obtain ⟨n, hn, rfl⟩ := hEmem e heE
                simp [List.length_append]
              refine List.pairwise_of_forall_mem_list ?_
              intro a ha b hb
              rw [hall a ha, hall b hb]
            · intro a ha b hb
              obtain ⟨e, he', rfl⟩ := List.mem_map.mp ha
              obtain ⟨e₂, heE, rfl⟩ := List.mem_map.mp hb
              obtain ⟨n, hn, rfl⟩ := hEmem e₂ heE
              have h1 : e.2.length ≤ path.length + 1 :=
                inv.close e (List.mem_cons_of_mem _ he') (cur, path)
                  (List.mem_cons_self _ _)
              simp only [List.length_append, List.length_singleton]
              omega
          · intro e₁ he₁ e₂ he₂
            rw [hq'] at he₁ he₂
            have hlen1 : ∀ e ∈ E, e.2.length = path.length + 1 := by
              intro e heE
              obtain ⟨n, hn, rfl⟩ := hEmem e heE
              simp [List.length_append]
            rcases List.mem_append.mp he₁ with h₁ | h₁ <;>
              rcases List.mem_append.mp he₂ with h₂ | h₂
            · exact inv.close e₁ (List.mem_cons_of_mem _ h₁) e₂
                (List.mem_cons_of_mem _ h₂)
            · rw [hlen1 e₂ h₂]
              have h3 : e₁.2.length ≤ path.length + 1 :=
                inv.close e₁ (List.mem_cons_of_mem _ h₁) (cur, path)
                  (List.mem_cons_self _ _)
              omega
            · rw [hlen1 e₁ h₁]
              have := hminq e₂ h₂
              omega
            · rw [hlen1 e₁ h₁, hlen1 e₂ h₂]
              omega
          · rw [hv']
            exact List.mem_append_left _ inv.startVis
          · rw [hv']
            intro h
            rcases List.mem_append.mp h with h | h
            · exact inv.goalFree h
            · exact (hmarks goal h).2.2.1 rfl
          · intro e he
            rw [hq'] at he
            rcases List.mem_append.mp he with h | h
            · exact inv.inCand e (List.mem_cons_of_mem _ h)
            · obtain ⟨n, hn, rfl⟩ := hEmem e h
              exact mem_candU_of_nbrs (hmarks n hn).1
        have hM' : bMeasure adj s q'
            (lev ++ marks.map (fun n => (n, path.length + 1))) ≤ fuel := by
          unfold bMeasure at hM ⊢
          have hqlen : q'.length = qrest.length + E.length := by
            rw [hq', List.length_append]
          have hfilter : ((candU adj s).filter
              (fun v => (look (lev ++ marks.map (fun n => (n, path.length + 1)))
                v).isNone))
              = ((candU adj s).filter (fun v => (look lev v).isNone))
                  \ marks.toFinset := by
            ext v
            rw [Finset.mem_sdiff, Finset.mem_filter, Finset.mem_filter,
              List.mem_toFinset]
            constructor
            · rintro ⟨hv, hnone⟩
              obtain ⟨h1, h2⟩ := hlevnone v (Option.isNone_iff_eq_none.mp hnone)
              exact ⟨⟨hv, by rw [h1]; rfl⟩, h2⟩
            · rintro ⟨⟨hv, hnone⟩, hnm⟩
              have h1 : look lev v = none := Option.isNone_iff_eq_none.mp hnone
              refine ⟨hv, ?_⟩
              rw [hfreshl v h1, if_neg hnm]
              rfl
          have hsub : marks.toFinset
              ⊆ (candU adj s).filter (fun v => (look lev v).isNone) := by
            intro v hv
            rw [List.mem_toFinset] at hv
            rw [Finset.mem_filter]
            exact ⟨mem_candU_of_nbrs (hmarks v hv).1, by rw [hmarksnone v hv]; rfl⟩
          have hcard := Finset.card_sdiff hsub
          have hmcard : marks.toFinset.card = marks.length :=
            List.toFinset_card_of_nodup hnodup
          have hlecard := Finset.card_le_card hsub
          rw [hfilter]
          simp only [List.length_cons] at hM
          omega
        exact ih q' v' _ inv' hM'

theorem bMeasure_init_le (adj : UAdj) (s : String) :
    bMeasure adj s [(s, [s])] [(s, 1)] ≤ bfsFuel adj := by
  unfold bMeasure bfsFuel
  have h1 := card_candU_le adj s
  have h2 := Finset.card_filter_le (candU adj s)
    (fun v => ((look [(s, 1)] v).isNone : Prop))
  simp only [List.length_singleton]
  omega

/-- Correctness of `bfsSearch`, stated as a reusable lemma. -/
theorem bfsSearch_correct (adj : UAdj) (s goal : String)
    (hs : (look adj s).isSome) (hg : (look adj goal).isSome) :
    ((∃ p, UWalk adj s p goal) →
      (bfsSearch adj s goal).success = true
      ∧ UWalk adj s (bfsSearch adj s goal).path goal
      ∧ ∀ p, UWalk adj s p goal → (bfsSearch adj s goal).path.length ≤ p.length)
    ∧ ((¬ ∃ p, UWalk adj s p goal) → (bfsSearch adj s goal).success = false) := by
  obtain ⟨a, ha⟩ := Option.isSome_iff_exists.mp hs
  obtain ⟨b, hb⟩ := Option.isSome_iff_exists.mp hg
  unfold bfsSearch
  rw [if_neg (by simp [ha]), if_neg (by simp [hb])]
  by_cases hsg : s = goal
  · rw [if_pos hsg]
    constructor
    · intro _
      refine ⟨rfl, hsg ▸ UWalk.refl, ?_⟩
      intro p hwp
      have := UWalk.length_pos hwp
      simp only [List.length_singleton]
      omega
    · intro hnr
      exact absurd ⟨[s], hsg ▸ UWalk.refl⟩ hnr
  · rw [if_neg hsg]
    have inv₀ : BInv adj s goal [(s, [s])] [s] [(s, 1)] := by
      constructor
      · intro v
        by_cases hv : v = s <;> simp [look, hv]
      · intro v d hd p hwp
        by_cases hv : v = s
        · subst hv
          simp [look] at hd
          have := UWalk.length_pos hwp
          omega
        · simp [look, hv] at hd
      · intro e he
        rw [List.mem_singleton.mp he]
        exact ⟨UWalk.refl, by simp [look]⟩
      · intro u d hd n hn hnone
        by_cases hu : u = s
        · subst hu
          simp [look] at hd
          refine ⟨(u, [u]), List.mem_singleton.mpr rfl, rfl, ?_⟩
          simp only [List.length_singleton]
          omega
        · simp [look, hu] at hd
      · simp
      · intro e₁ he₁ e₂ he₂
        rw [List.mem_singleton.mp he₁, List.mem_singleton.mp he₂]
        simp
      · exact List.mem_singleton.mpr rfl
      · intro h
        exact hsg (List.mem_singleton.mp h).symm
      · intro e he
        rw [List.mem_singleton.mp he]
        exact mem_candU_self adj s
    obtain ⟨r, hr, hpos, hneg⟩ := bfsLoop_correct adj s goal (bfsFuel adj)
      [(s, [s])] [s] [(s, 1)] inv₀ (bMeasure_init_le adj s)
    rw [hr]
    constructor
    · intro hreach
      exact hpos hreach
    · intro hnr
      rw [hneg hnr]

/-- C3: on an unweighted graph with both endpoints present and the goal
reachable from the start, `_breadth_first_search` succeeds with a path that
starts at the start city, ends at the goal, follows edges of the graph, and
uses a minimal number of edges among all such paths. -/
theorem bfs_shortest_path (adj : UAdj) (s goal : String)
    (hs : (look adj s).isSome) (hg : (look adj goal).isSome)
    (hreach : ∃ p, UWalk adj s p goal) :
    (bfsSearch adj s goal).success = true
    ∧ UWalk adj s (bfsSearch adj s goal).path goal
    ∧ (bfsSearch adj s goal).path.head? = some s
    ∧ (bfsSearch adj s goal).path.getLast? = some goal
    ∧ ∀ p, UWalk adj s p goal →
        (bfsSearch adj s goal).path.length - 1 ≤ p.length - 1 := by
  obtain ⟨h1, h2, h3⟩ := (bfsSearch_correct adj s goal hs hg).1 hreach
  refine ⟨h1, h2, h2.first, h2.final, ?_⟩
  intro p hwp
  exact Nat.sub_le_sub_right (h3 p hwp) 1

/-- C3 witness: on the concrete two-city graph `exA`, BFS from `A` to `B`
succeeds and its path has at most one edge, matching the one-edge walk. -/
theorem bfs_shortest_path_witness :
    (look exA "A").isSome
    ∧ (bfsSearch exA "A" "B").success = true
    ∧ (bfsSearch exA "A" "B").path.length - 1 ≤ 1 := by
  have hw : UWalk exA "A" (["A"] ++ ["B"]) "B" :=
    UWalk.step UWalk.refl (by decide)
  have h := bfs_shortest_path exA "A" "B" (by decide) (by decide) ⟨_, hw⟩
  exact ⟨by decide, h.1, h.2.2.2.2 _ hw⟩

/-! ## The greedy multi-goal loop (claim C5) -/

theorem pickBest_cons_none (W : WAdj) (loc g₁ : String) (rest : List String) :
    pickBest W loc (g₁ :: rest) none
      = pickBest W loc rest
          (if (ucsSearch W loc g₁).success then some (g₁, ucsSearch W loc g₁)
           else none) := rfl

theorem pickBest_cons_some (W : WAdj) (loc g₁ : String) (rest : List String)
    (g₀ : String) (r₀ : UCSResult) :
    pickBest W loc (g₁ :: rest) (some (g₀, r₀))
      = pickBest W loc rest
          (if (ucsSearch W loc g₁).success
              ∧ (ucsSearch W loc g₁).total_cost < r₀.total_cost
           then some (g₁, ucsSearch W loc g₁) else some (g₀, r₀)) := rfl

/-- The result of a `pickBest` round is no more expensive than the
accumulator and than any successful unvisited goal of the round. -/
theorem pickBest_min (W : WAdj) (loc : String) :
    ∀ (l : List String) (acc : Option (String × UCSResult)) (g : String)
      (r : UCSResult),
      pickBest W loc l acc = some (g, r) →
      (∀ g₀ r₀, acc = some (g₀, r₀) → r.total_cost ≤ r₀.total_cost)
      ∧ (∀ g' ∈ l, (ucsSearch W loc g').success = true →
          r.total_cost ≤ (ucsSearch W loc g').total_cost) := by
  intro l
  induction l with
  | nil =>
    intro acc g r h
    refine ⟨?_, by simp⟩
    intro g₀ r₀ hacc
    have h0 : (some (g₀, r₀) : Option (String × UCSResult)) = some (g, r) := by
      rw [← hacc]
      exact h
    injection h0 with h'
    injection h' with h1 h2
    rw [h2]
  | cons g₁ rest ih =>
    intro acc g r h
    match acc with
    | none =>
      rw [pickBest_cons_none] at h
      by_cases hs : (ucsSearch W loc g₁).success = true
      · rw [if_pos hs] at h
        obtain ⟨hacc', hrest⟩ := ih _ g r h
        have hg₁ : r.total_cost ≤ (ucsSearch W loc g₁).total_cost := hacc' g₁ _ rfl
        refine ⟨fun g₀ r₀ h' => Option.noConfusion h', ?_⟩
        intro g' hg' hsucc
        rcases List.mem_cons.mp hg' with rfl | hg''
        · exact hg₁
        · exact hrest g' hg'' hsucc
      · rw [if_neg hs] at h
        obtain ⟨-, hrest⟩ := ih _ g r h
        refine ⟨fun g₀ r₀ h' => Option.noConfusion h', ?_⟩
        intro g' hg' hsucc
        rcases List.mem_cons.mp hg' with rfl | hg''
        · exact absurd hsucc hs
        · exact hrest g' hg'' hsucc
    | some (g₀, r₀) =>
      rw [pickBest_cons_some] at h
      by_cases hc : (ucsSearch W loc g₁).success = true
          ∧ (ucsSearch W loc g₁).total_cost < r₀.total_cost
      · rw [if_pos hc] at h
        obtain ⟨hacc', hrest⟩ := ih _ g r h
        have hg₁ : r.total_cost ≤ (ucsSearch W loc g₁).total_cost := hacc' g₁ _ rfl
        refine ⟨?_, ?_⟩
        · intro g₀' r₀' h'
          injection h' with h''
          injection h'' with h1 h2
          rw [← h2]
          exact hg₁.trans hc.2.le
        · intro g' hg' hsucc
          rcases List.mem_cons.mp hg' with rfl | hg''
          · exact hg₁
          · exact hrest g' hg'' hsucc
      · rw [if_neg hc] at h
        obtain ⟨hacc', hrest⟩ := ih _ g r h
        have hr₀ : r.total_cost ≤ r₀.total_cost := hacc' g₀ r₀ rfl
        refine ⟨?_, ?_⟩
        · intro g₀' r₀' h'
          injection h' with h''
          injection h'' with h1 h2
          rw [← h2]
          exact hr₀
        · intro g' hg' hsucc
          rcases List.mem_cons.mp hg' with rfl | hg''
          · have hnlt : ¬ (ucsSearch W loc g').total_cost < r₀.total_cost :=
              fun hlt => hc ⟨hsucc, hlt⟩
            exact hr₀.trans (not_lt.mp hnlt)
          · exact hrest g' hg'' hsucc

theorem mgLoop_nil (W : WAdj) (fuel : ℕ) (loc : String) (cpath : List String)
    (tcost : ℚ) (order : List String) :
    mgLoop W fuel [] loc cpath tcost order = ⟨cpath, tcost, order, true⟩ := by
  cases fuel <;> rfl

theorem mgLoop_order_mono (W : WAdj) : ∀ (fuel : ℕ) (unvisited : List String)
    (loc : String) (cpath : List String) (tcost : ℚ) (order : List String),
    ∀ x ∈ order, x ∈ (mgLoop W fuel unvisited loc cpath tcost order).visit_order := by
  intro fuel
  induction fuel with
  | zero =>
    intro unvisited loc cpath tcost order x hx
    cases unvisited with
    | nil => exact hx
    | cons a t => exact hx
  | succ fuel ih =>
    intro unvisited loc cpath tcost order x hx
    cases unvisited with
    | nil => exact hx
    | cons a t =>
      rw [mgLoop_cons_eq]
      cases hpb : pickBest W loc (a :: t) none with
      | none => exact hx
      | some gr =>
        obtain ⟨g, r⟩ := gr
        exact ih _ _ _ _ _ x (List.mem_append_left _ hx)

theorem mgLoop_success_visits (W : WAdj) : ∀ (fuel : ℕ) (unvisited : List String)
    (loc : String) (cpath : List String) (tcost : ℚ) (order : List String),
    (mgLoop W fuel unvisited loc cpath tcost order).success = true →
    ∀ g ∈ unvisited, g ∈ (mgLoop W fuel unvisited loc cpath tcost order).visit_order := by
  intro fuel
  induction fuel with
  | zero =>
    intro unvisited loc cpath tcost order hsucc g hg
    cases unvisited with
    | nil => simp at hg
    | cons a t => exact Bool.noConfusion hsucc
  | succ fuel ih =>
    intro unvisited loc cpath tcost order hsucc g hg
    cases unvisited with
    | nil => simp at hg
    | cons a t =>
      rw [mgLoop_cons_eq] at hsucc ⊢
      cases hpb : pickBest W loc (a :: t) none with
      | none =>
        rw [hpb] at hsucc
        exact Bool.noConfusion hsucc
      | some gr =>
        obtain ⟨g₀, r⟩ := gr
        rw [hpb] at hsucc
        by_cases hgg : g = g₀
        · subst hgg
          exact mgLoop_order_mono W fuel _ _ _ _ _ g
            (List.mem_append_right _ (List.mem_singleton.mpr rfl))
        · exact ih _ _ _ _ _ hsucc g ((List.mem_erase_of_ne hgg).mpr hg)

/-- The exact cheapest cost from `s` to `v`: achieved by some walk, and a
lower bound on every walk. -/
def minCostW (W : WAdj) (s v : String) (q : ℚ) : Prop :=
  (∃ p, WalkFrom W s p v q) ∧ ∀ p q', WalkFrom W s p v q' → q ≤ q'

theorem walk_cost_lower_ne (W : WAdj) (c₀ : ℚ) (hc₀ : 0 ≤ c₀)
    (hedges : ∀ kv ∈ W, ∀ pr ∈ kv.2, c₀ ≤ pr.2) {s : String} :
    ∀ {p : List String} {v : String} {q : ℚ},
      WalkFrom W s p v q → v ≠ s → c₀ ≤ q := by
  have hW : NonNeg W := fun kv hkv pr hpr => le_trans hc₀ (hedges kv hkv pr hpr)
  intro p v q hw
  induction hw with
  | refl =>
    intro h
    exact absurd rfl h
  | @step p' v' q' w' c' hw' hedge ih =>
    intro _
    have hc' : c₀ ≤ c' := by
      unfold wnbrs at hedge
      cases hl : look W v' with
      | none =>
        rw [hl] at hedge
        simp at hedge
      | some nl =>
        rw [hl] at hedge
        exact hedges (v', nl) (look_some_mem hl) (w', c') hedge
    have hq' : 0 ≤ q' := WalkFrom.nonneg hW hw'
    linarith

theorem walk_cost_lower_two (W : WAdj) (c₀ d : ℚ) (hc₀ : 0 ≤ c₀)
    (hedges : ∀ kv ∈ W, ∀ pr ∈ kv.2, c₀ ≤ pr.2) {s v : String}
    (hdir : ∀ c, (v, c) ∈ wnbrs W s → d ≤ c) (hvs : v ≠ s)
    (hd2 : d ≤ c₀ + c₀) :
    ∀ {p : List String} {u : String} {q : ℚ},
      WalkFrom W s p u q → u = v → d ≤ q := by
  have hW : NonNeg W := fun kv hkv pr hpr => le_trans hc₀ (hedges kv hkv pr hpr)
  intro p u q hw
  cases hw with
  | refl =>
    intro h
    exact absurd h.symm hvs
  | @step p' v' q' w' c' hw' hedge =>
    intro heq
    subst heq
    by_cases hv' : v' = s
    · subst hv'
      have hc : d ≤ c' := hdir c' hedge
      have hq : 0 ≤ q' := WalkFrom.nonneg hW hw'
      linarith
    · have hc : c₀ ≤ c' := by
        unfold wnbrs at hedge
        cases hl : look W v' with
        | none =>
          rw [hl] at hedge
          simp at hedge
        | some nl =>
          rw [hl] at hedge
          exact hedges (v', nl) (look_some_mem hl) (u, c') hedge
      have hq : c₀ ≤ q' := walk_cost_lower_ne W c₀ hc₀ hedges hw' hv'
      linarith

/-- C5: the multi-goal loop commits each round to the cheapest reachable
unvisited goal (extending route, cost and location accordingly); a round in
which no unvisited goal is reachable returns the partial route and cost with
`success := false`; a successful run visits every goal; and with two goals
of which `A` is strictly nearer than `B`, either iteration order of the goal
set visits `A` first and totals the cheapest `s`–`A` cost plus the cheapest
`A`–`B` cost. -/
theorem multigoal_ucs_greedy (W : WAdj) :
    (∀ (fuel : ℕ) (unvisited : List String) (loc : String) (cpath : List String)
       (tcost : ℚ) (order : List String) (g : String) (r : UCSResult),
       pickBest W loc unvisited none = some (g, r) →
       mgLoop W (fuel + 1) unvisited loc cpath tcost order
         = mgLoop W fuel (unvisited.erase g) g (cpath ++ r.path.drop 1)
             (tcost + r.total_cost) (order ++ [g])
       ∧ g ∈ unvisited ∧ r = ucsSearch W loc g ∧ r.success = true
       ∧ ∀ g' ∈ unvisited, (ucsSearch W loc g').success = true →
           r.total_cost ≤ (ucsSearch W loc g').total_cost)
    ∧ (∀ (fuel : ℕ) (unvisited : List String) (loc : String) (cpath : List String)
       (tcost : ℚ) (order : List String),
       unvisited ≠ [] →
       (∀ g ∈ unvisited, (ucsSearch W loc g).success = false) →
       mgLoop W (fuel + 1) unvisited loc cpath tcost order
         = ⟨cpath, tcost, order, false⟩)
    ∧ (∀ (initial : String) (goalsOrder : List String),
       (mgSearch W initial goalsOrder).success = true →
       ∀ g ∈ goalsOrder, g ∈ (mgSearch W initial goalsOrder).visit_order)
    ∧ (∀ (s A B : String) (qA qB qAB : ℚ), NonNeg W →
       (look W s).isSome → (look W A).isSome → (look W B).isSome →
       minCostW W s A qA → minCostW W s B qB → minCostW W A B qAB →
       qA < qB →
       ∀ l, l = [A, B] ∨ l = [B, A] →
         (mgSearch W s l).visit_order = [A, B]
         ∧ (mgSearch W s l).total_cost = qA + qAB
         ∧ (mgSearch W s l).success = true) := by
  refine ⟨?_, ?_, ?_, ?_⟩
  · intro fuel unvisited loc cpath tcost order g r hpb
    rcases pickBest_source W loc unvisited none g r hpb with h | ⟨hmem, hr, hsucc⟩
    · exact absurd h (Option.noConfusion)
    refine ⟨?_, hmem, hr, hsucc, (pickBest_min W loc unvisited none g r hpb).2⟩
    cases unvisited with
    | nil => simp at hmem
    | cons a t => rw [mgLoop_cons_eq, hpb]
  · intro fuel unvisited loc cpath tcost order hne hall
    cases unvisited with
    | nil => exact absurd rfl hne
    | cons a t =>
      rw [mgLoop_cons_eq, pickBest_none_of_acc_none W loc _ hall]
  · intro initial goalsOrder hsucc g hg
    exact mgLoop_success_visits W goalsOrder.length goalsOrder initial
      [initial] 0 [] hsucc g hg
  · intro s A B qA qB qAB hW hs hA hB hqA hqB hqAB hlt l hl
    have hABne : A ≠ B := by
      intro he
      subst he
      obtain ⟨pA, hpA⟩ := hqA.1
      exact absurd hlt (not_lt.mpr (hqB.2 pA qA hpA))
    obtain ⟨pA, hpA⟩ := hqA.1
    obtain ⟨pB, hpB⟩ := hqB.1
    obtain ⟨pAB, hpAB⟩ := hqAB.1
    obtain ⟨hsA, hwA, -, -, hminA⟩ :=
      (ucsSearch_correct W s A hW hs hA).1 ⟨pA, qA, hpA⟩
    obtain ⟨hsB, hwB, -, -, hminB⟩ :=
      (ucsSearch_correct W s B hW hs hB).1 ⟨pB, qB, hpB⟩
    obtain ⟨hsAB, hwAB, -, -, hminAB⟩ :=
      (ucsSearch_correct W A B hW hA hB).1 ⟨pAB, qAB, hpAB⟩
    have hcA : (ucsSearch W s A).total_cost = qA :=
      le_antisymm (hminA pA qA hpA) (hqA.2 _ _ hwA)
    have hcB : (ucsSearch W s B).total_cost = qB :=
      le_antisymm (hminB pB qB hpB) (hqB.2 _ _ hwB)
    have hcAB : (ucsSearch W A B).total_cost = qAB :=
      le_antisymm (hminAB pAB qAB hpAB) (hqAB.2 _ _ hwAB)
    have hstrict : (ucsSearch W s A).total_cost < (ucsSearch W s B).total_cost := by
      rw [hcA, hcB]
      exact hlt
    have hpick2 : pickBest W A [B] none = some (B, ucsSearch W A B) := by
      rw [pickBest_cons_none, if_pos hsAB]
      rfl
    rcases hl with rfl | rfl
    · have hpick1 : pickBest W s [A, B] none = some (A, ucsSearch W s A) :=
        pickBest_unique W s [A, B] A (by simp [hABne]) (by simp) hsA (by
          intro g' hg' hne _
          rcases List.mem_cons.mp hg' with rfl | hg''
          · exact absurd rfl hne
          · rw [List.mem_singleton] at hg''
            subst hg''
            exact hstrict)
      have step1 : mgLoop W (1 + 1) [A, B] s [s] 0 []
          = mgLoop W 1 ((A :: [B]).erase A) A
              ([s] ++ (ucsSearch W s A).path.drop 1)
              (0 + (ucsSearch W s A).total_cost) ([] ++ [A]) := by
        rw [mgLoop_cons_eq, hpick1]
      rw [List.erase_cons_head] at step1
      have step2 := mgLoop_cons_eq W 0 B [] A
        ([s] ++ (ucsSearch W s A).path.drop 1)
        (0 + (ucsSearch W s A).total_cost) ([] ++ [A])
      rw [hpick2] at step2
      have hfinal : mgSearch W s [A, B]
          = ⟨(([s] ++ (ucsSearch W s A).path.drop 1)
                ++ (ucsSearch W A B).path.drop 1),
             (0 + (ucsSearch W s A).total_cost) + (ucsSearch W A B).total_cost,
             (([] ++ [A]) ++ [B]), true⟩ := by
        show mgLoop W (1 + 1) [A, B] s [s] 0 [] = _
        rw [step1, step2]
        show mgLoop W 0 ((B :: []).erase B) B _ _ _ = _
        rw [List.erase_cons_head, mgLoop_nil]
      refine ⟨by rw [hfinal]; rfl, ?_, by rw [hfinal]⟩
      rw [hfinal]
      show (0 + (ucsSearch W s A).total_cost) + (ucsSearch W A B).total_cost
        = qA + qAB
      rw [hcA, hcAB, zero_add]
    · have hpick1 : pickBest W s [B, A] none = some (A, ucsSearch W s A) :=
        pickBest_unique W s [B, A] A (by simp [Ne.symm hABne]) (by simp) hsA (by
          intro g' hg' hne _
          rcases List.mem_cons.mp hg' with rfl | hg''
          · exact hstrict
          · rw [List.mem_singleton] at hg''
            subst hg''
            exact absurd rfl hne)
      have step1 : mgLoop W (1 + 1) [B, A] s [s] 0 []
          = mgLoop W 1 ((B :: [A]).erase A) A
              ([s] ++ (ucsSearch W s A).path.drop 1)
              (0 + (ucsSearch W s A).total_cost) ([] ++ [A]) := by
        rw [mgLoop_cons_eq, hpick1]
      have herase : (B :: [A]).erase A = [B] := by
        rw [List.erase_cons_tail, List.erase_cons_head]
        simp [Ne.symm hABne]
      rw [herase] at step1
      have step2 := mgLoop_cons_eq W 0 B [] A
        ([s] ++ (ucsSearch W s A).path.drop 1)
        (0 + (ucsSearch W s A).total_cost) ([] ++ [A])
      rw [hpick2] at step2
      have hfinal : mgSearch W s [B, A]
          = ⟨(([s] ++ (ucsSearch W s A).path.drop 1)
                ++ (ucsSearch W A B).path.drop 1),
             (0 + (ucsSearch W s A).total_cost) + (ucsSearch W A B).total_cost,
             (([] ++ [A]) ++ [B]), true⟩ := by
        show mgLoop W (1 + 1) [B, A] s [s] 0 [] = _
        rw [step1, step2]
        show mgLoop W 0 ((B :: []).erase B) B _ _ _ = _
        rw [List.erase_cons_head, mgLoop_nil]
      refine ⟨by rw [hfinal]; rfl, ?_, by rw [hfinal]⟩
      rw [hfinal]
      show (0 + (ucsSearch W s A).total_cost) + (ucsSearch W A B).total_cost
        = qA + qAB
      rw [hcA, hcAB, zero_add]

unseal Rat.add in
/-- C5 witness: on the concrete graph `mgNoTieW`, goal `A` (cheapest cost 1)
is strictly nearer than `B` (cheapest cost 2), and the multi-goal search
visits `A` first with total cost `1 + 1` (cheapest `S`–`A` plus cheapest
`A`–`B`). -/
theorem multigoal_ucs_greedy_witness :
    (mgSearch mgNoTieW "S" ["A", "B"]).visit_order = ["A", "B"]
    ∧ (mgSearch mgNoTieW "S" ["A", "B"]).total_cost = 1 + 1
    ∧ (mgSearch mgNoTieW "S" ["A", "B"]).success = true := by
  have hedges : ∀ kv ∈ mgNoTieW, ∀ pr ∈ kv.2, (1 : ℚ) ≤ pr.2 := by decide
  have hminA : minCostW mgNoTieW "S" "A" 1 := by
    constructor
    · refine ⟨["S"] ++ ["A"], ?_⟩
      have h := WalkFrom.step (W := mgNoTieW) WalkFrom.refl
        (show ("A", (1 : ℚ)) ∈ wnbrs mgNoTieW "S" by decide)
      simpa using h
    · intro p q' hw
      exact walk_cost_lower_ne mgNoTieW 1 (by norm_num) hedges hw (by decide)
  have hminB : minCostW mgNoTieW "S" "B" 2 := by
    constructor
    · refine ⟨["S"] ++ ["B"], ?_⟩
      have h := WalkFrom.step (W := mgNoTieW) WalkFrom.refl
        (show ("B", (2 : ℚ)) ∈ wnbrs mgNoTieW "S" by decide)
      simpa using h
    · intro p q' hw
      refine walk_cost_lower_two mgNoTieW 1 2 (by norm_num) hedges ?_
        (by decide) (by norm_num) hw rfl
      intro c hc
      have hc' : ("B", c) ∈ [("A", (1 : ℚ)), ("B", 2)] := hc
      rcases List.mem_cons.mp hc' with h1 | h1
      · injection h1 with h2 h3
        exact absurd h2 (by decide)
      · rw [List.mem_singleton] at h1
        injection h1 with h2 h3
        rw [h3]
  have hminAB : minCostW mgNoTieW "A" "B" 1 := by
    constructor
    · refine ⟨["A"] ++ ["B"], ?_⟩
      have h := WalkFrom.step (W := mgNoTieW) WalkFrom.refl
        (show ("B", (1 : ℚ)) ∈ wnbrs mgNoTieW "A" by decide)
      simpa using h
    · intro p q' hw
      exact walk_cost_lower_ne mgNoTieW 1 (by norm_num) hedges hw (by decide)
  exact (multigoal_ucs_greedy mgNoTieW).2.2.2 "S" "A" "B" 1 2 1 (by decide)
    (by decide) (by decide) (by decide) hminA hminB hminAB (by norm_num)
    ["A", "B"] (Or.inl rfl)

end TravelEthiopia
